import Mathlib

/-!
# Marble: tile cache and spherical scanline compositor

A shallow embedding of two classes of the Marble virtual globe,

* `SphericalScanlineTextureMapper` (src/lib/SphericalScanlineTextureMapper.cpp), the
  scanline compositor with its interpolation stride, and
* `VectorTileModel` (src/lib/marble/VectorTileModel.cpp), the viewport driven tile cache,

followed by theorems about them.  C++ `int` values are Lean integers, `/` and `%` on
them are the truncating `Int.tdiv` and `Int.tmod`, `unsigned int` values are natural
numbers below `2 ^ 32`.  Floating point results (longitudes, latitudes, logarithms) are
values of an abstract type or of a function supplied from outside.
-/

namespace Marble

/-! ## The scanline texture mapper -/

/-- Modelled from the spec: the quality tiers of a view.  The enumeration is declared in a
header that is not among the sources; the mapper compares against `Low`, `High` and
`Print`, and `Normal` stands for the remaining tier. -/
inductive MapQuality where
  | Low
  | Normal
  | High
  | Print
  deriving DecidableEq, Repr

/-- The members of `AbstractScanlineTextureMapper` that the spherical mapper reads.  `G` is
the type of a longitude/latitude pair; `m_prev` holds `m_prevLon`, `m_prevLat`, which no
constructor initialises (`none`). -/
structure AbstractScanlineTextureMapper (G : Type) where
  m_imageWidth : Int
  m_imageHeight : Int
  m_imageRadius : Int
  m_interlaced : Bool
  m_prev : Option G

/-- The state of a `SphericalScanlineTextureMapper`. -/
structure SphericalScanlineTextureMapper (G : Type) extends AbstractScanlineTextureMapper G where
  m_interpolate : Bool
  m_nBest : Int
  m_n : Int

/-- What `mapTexture` reads from its `ViewParams`.  The orientation enters through three
values that are constant during one call: the rotated north pole, as the truncated products
`(int)( radius * northPole.v[Q_X] )`, `(int)( radius * northPole.v[Q_Y] )` and the test
`northPole.v[Q_Z] > 0`, and the map `spherical dx dy`, the longitude/latitude that
`getSpherical` returns for the position vector with `qx = dx * inverseRadius`,
`qy = inverseRadius * dy` after `rotateAroundAxis( planetAxisMatrix )`. -/
structure ViewParams (G : Type) where
  radius : Int
  mapQuality : MapQuality
  canvasWidth : Int
  northPoleX : Int
  northPoleY : Int
  northPoleFront : Bool
  spherical : Int → Int → G

/-- The calls `mapTexture` makes, in order.  `scanLine` positions are column indices of the
row `y` of the canvas image.  `pixelValueApprox` carries `m_prevLon`, `m_prevLat` as they
are at the call; `copyScanline y xLeft xRight` is the `memcpy` of the columns
`[xLeft, xRight)` of row `y` to row `y + 1`. -/
inductive MapperEvent (G : Type) where
  | resetTilehash
  | selectTileLevel
  | pixelValueApprox (prev : Option G) (lonLat : G) (y scanLine : Int) (smooth : Bool)
  | pixelValue (lonLat : G) (y scanLine : Int) (smooth : Bool)
  | copyScanline (y xLeft xRight : Int)
  | cleanupTilehash

/-- Whether an event is a call of `pixelValueApprox`. -/
def MapperEvent.isApprox {G : Type} : MapperEvent G → Bool
  | .pixelValueApprox _ _ _ _ _ => true
  | _ => false

/-- Whether an event is a `pixelValue` call that writes the pixel `(x, y)`. -/
def MapperEvent.writesExact {G : Type} (x y : Int) : MapperEvent G → Bool
  | .pixelValue _ y1 x1 _ => decide (x1 = x) && decide (y1 = y)
  | _ => false

/-- Whether an event is a `pixelValueApprox` call on row `y` of a mapper with stride `n`
that fills column `x`: the call writes the `n - 1` columns from its write position on. -/
def MapperEvent.fillsApprox {G : Type} (n x y : Int) : MapperEvent G → Bool
  | .pixelValueApprox _ _ y1 scanLine _ =>
    decide (y1 = y) && decide (scanLine ≤ x) && decide (x < scanLine + (n - 1))
  | _ => false

/-- The integers `lo, lo + 1, ..., lo + len - 1`. -/
def intRange (lo : Int) (len : Nat) : List Int :=
  (List.range len).map (fun i : Nat => lo + Int.ofNat i)

/-- The quantities `mapTexture` fixes for one scanline before it walks the columns. -/
structure Scanline where
  xLeft : Int
  xRight : Int
  xIpLeft : Int
  xIpRight : Int
  crossingPoleArea : Bool
  deriving DecidableEq, Repr

namespace SphericalScanlineTextureMapper

variable {G : Type}

/-- The constructor: the base class part is built by the base constructor (`base`), then
`m_interpolate( false ), m_nBest( 0 ), m_n( 0 )` and `m_interlaced = false`. -/
def construct (base : AbstractScanlineTextureMapper G) : SphericalScanlineTextureMapper G :=
  { toAbstractScanlineTextureMapper := { base with m_interlaced := false }
    m_interpolate := false
    m_nBest := 0
    m_n := 0 }

/-- The body of the loop `for ( int it = 1; it < 48; ++it )` of `resizeMap`, on the pair
`(nEvalMin, m_nBest)`. -/
def resizeMapStep (imageWidth : Int) (st : Int × Int) (it : Nat) : Int × Int :=
  let nEval := Int.tdiv (imageWidth - 1) (it : Int) + Int.tmod (imageWidth - 1) (it : Int)
  if nEval < st.1 then (nEval, (it : Int)) else st

/-- Modelled from the spec: `AbstractScanlineTextureMapper::resizeMap` is not among the
sources; it records the canvas width and height, and `imageRadius` is the value it leaves
in `m_imageRadius`. -/
def resizeMapBase (m : SphericalScanlineTextureMapper G) (width height imageRadius : Int) :
    SphericalScanlineTextureMapper G :=
  { m with m_imageWidth := width, m_imageHeight := height, m_imageRadius := imageRadius }

/-- The method `SphericalScanlineTextureMapper::resizeMap`: after the base class has stored the canvas
size, scan the strides 1..47 for the optimal interpolation interval. -/
def resizeMap (m : SphericalScanlineTextureMapper G) (width height imageRadius : Int) :
    SphericalScanlineTextureMapper G :=
  let m1 := resizeMapBase m width height imageRadius
  let st := (List.range' 1 47).foldl (resizeMapStep m1.m_imageWidth) (m1.m_imageWidth - 1, 2)
  { m1 with m_nBest := st.2 }

/-- The loop invariant of the stride scan: the running minimum is below the cost of every
stride seen so far, and the stored stride either attains it or is still the initial 2. -/
def StrideInv (w : Int) (seen : Nat → Prop) (st : Int × Int) : Prop :=
  st.1 ≤ w ∧ (∀ it, seen it → st.1 ≤ w / (it : Int) + w % (it : Int)) ∧
    1 ≤ st.2 ∧ st.2 ≤ 47 ∧ (w / st.2 + w % st.2 = st.1 ∨ (st.2 = 2 ∧ st.1 = w))

/-- The y-range of the map on the screen, `(yTop, yBottom)`. -/
def yRange (m : SphericalScanlineTextureMapper G) (radius : Int) : Int × Int :=
  let skip : Int := if m.m_interlaced then 1 else 0
  let yTop := if Int.tdiv m.m_imageHeight 2 - radius < 0 then 0
    else Int.tdiv m.m_imageHeight 2 - radius
  let yBottom := if yTop = 0 then m.m_imageHeight - skip else yTop + radius + radius - skip
  (yTop, yBottom)

/-- The set-up of scanline `y` (lines 134 to 173 of the source): `rx` is
`(int)sqrt( radius * radius - ( y - m_imageHeight / 2 )^2 )`, the integer square root,
then the x-range, the interpolated range and the pole test.  The comparisons
`northPoleY - ( m_n * 0.75 ) <= y` and `northPoleY + ( m_n * 0.75 ) >= y` are taken times
four, which is exact. -/
def scanline (m : SphericalScanlineTextureMapper G) (vp : ViewParams G) (y : Int) : Scanline :=
  let half := Int.tdiv m.m_imageHeight 2
  let rx : Int := (Nat.sqrt (vp.radius * vp.radius - (y - half) * (y - half)).toNat : Nat)
  let wide := decide (Int.tdiv m.m_imageWidth 2 - rx > 0)
  let xLeft := if wide then Int.tdiv m.m_imageWidth 2 - rx else 0
  let xRight := if wide then xLeft + rx + rx else vp.canvasWidth
  let xIpLeft := if wide then m.m_n * (Int.tdiv xLeft m.m_n + 1) else 1
  let xIpRight := if wide then m.m_n * (Int.tdiv xRight m.m_n - 1)
    else m.m_n * (Int.tdiv xRight m.m_n - 1) + 1
  let northPoleY := half - vp.northPoleY
  let crossingPoleArea := vp.northPoleFront && decide (4 * northPoleY - 3 * m.m_n ≤ 4 * y)
    && decide (4 * northPoleY + 3 * m.m_n ≥ 4 * y)
  { xLeft := xLeft, xRight := xRight, xIpLeft := xIpLeft, xIpRight := xIpRight,
    crossingPoleArea := crossingPoleArea }

/-- The loop `for ( int x = xLeft; x < xRight; ++x )` over the columns of scanline `y`,
started at column `x` with `ncount` and the write position `scanLine`.  The result is the
calls made, `m_interpolate` and `m_prevLon`, `m_prevLat` at the end.  `fuel` bounds the
number of iterations; `none` means that it did not suffice. -/
def scanColumns (m : SphericalScanlineTextureMapper G) (vp : ViewParams G) (y : Int)
    (sl : Scanline) : Nat → Int → Int → Int → Bool → Option G →
    Option (List (MapperEvent G) × Bool × Option G)
  | 0, x, _, _, interpolate, prev =>
    if x < sl.xRight then none else some ([], interpolate, prev)
  | fuel + 1, x, ncount, scanLine, interpolate, prev =>
    if x < sl.xRight then
      let printQuality := decide (vp.mapQuality = MapQuality.Print)
      let highQuality := decide (vp.mapQuality = MapQuality.High) || printQuality
      let leftInterval := sl.xIpLeft + ncount * m.m_n
      let northPoleX := Int.tdiv m.m_imageWidth 2 + vp.northPoleX
      let inRange := decide (x ≥ sl.xIpLeft) && decide (x ≤ sl.xIpRight)
      let atPole := sl.crossingPoleArea && decide (northPoleX ≥ leftInterval + m.m_n)
        && decide (northPoleX < leftInterval + 2 * m.m_n)
        && decide (x < leftInterval + 3 * m.m_n)
      let step := inRange && !atPole
      let x1 := if step then x + (m.m_n - 1) else x
      let interpolate1 := if step then !printQuality else false
      let ncount1 := if step then ncount + 1 else ncount
      let lonLat := vp.spherical (x1 - Int.tdiv m.m_imageWidth 2)
        (Int.tdiv m.m_imageHeight 2 - y)
      let approx := if interpolate1
        then [MapperEvent.pixelValueApprox prev lonLat y scanLine highQuality] else []
      let scanLine1 := if interpolate1 then scanLine + (m.m_n - 1) else scanLine
      let exact := if x1 < m.m_imageWidth
        then [MapperEvent.pixelValue lonLat y scanLine1 highQuality] else []
      match scanColumns m vp y sl fuel (x1 + 1) ncount1 (scanLine1 + 1) interpolate1
          (some lonLat) with
      | none => none
      | some (events, interpolate2, prev2) => some (approx ++ exact ++ events, interpolate2, prev2)
    else some ([], interpolate, prev)

/-- The values after one pass through the body of the column loop. -/
structure ScanStep (G : Type) where
  x : Int
  ncount : Int
  scanLine : Int
  interpolate : Bool
  lonLat : G
  events : List (MapperEvent G)

/-- One pass through the body of the column loop at column `x` (lines 179 to 241 of the
source, before `++scanLine` and `++x`): the same computation as in `scanColumns`. -/
def scanStep (m : SphericalScanlineTextureMapper G) (vp : ViewParams G) (y : Int)
    (sl : Scanline) (x ncount scanLine : Int) (prev : Option G) : ScanStep G :=
  let printQuality := decide (vp.mapQuality = MapQuality.Print)
  let highQuality := decide (vp.mapQuality = MapQuality.High) || printQuality
  let leftInterval := sl.xIpLeft + ncount * m.m_n
  let northPoleX := Int.tdiv m.m_imageWidth 2 + vp.northPoleX
  let inRange := decide (x ≥ sl.xIpLeft) && decide (x ≤ sl.xIpRight)
  let atPole := sl.crossingPoleArea && decide (northPoleX ≥ leftInterval + m.m_n)
    && decide (northPoleX < leftInterval + 2 * m.m_n)
    && decide (x < leftInterval + 3 * m.m_n)
  let step := inRange && !atPole
  let x1 := if step then x + (m.m_n - 1) else x
  let interpolate1 := if step then !printQuality else false
  let ncount1 := if step then ncount + 1 else ncount
  let lonLat := vp.spherical (x1 - Int.tdiv m.m_imageWidth 2)
    (Int.tdiv m.m_imageHeight 2 - y)
  let approx := if interpolate1
    then [MapperEvent.pixelValueApprox prev lonLat y scanLine highQuality] else []
  let scanLine1 := if interpolate1 then scanLine + (m.m_n - 1) else scanLine
  let exact := if x1 < m.m_imageWidth
    then [MapperEvent.pixelValue lonLat y scanLine1 highQuality] else []
  { x := x1, ncount := ncount1, scanLine := scanLine1, interpolate := interpolate1,
    lonLat := lonLat, events := approx ++ exact }

/-- The loop `for ( int y = yTop; y < yBottom ; ++y )` over the scanlines, started at `y`.
A scanline walks its columns from `xLeft` with the write position at `xLeft`; with
`interlaced` set, the next scanline is a copy and is skipped.  `fuel` bounds the number of
iterations; `none` means that it or the fuel of a scanline did not suffice. -/
def scanRows (m : SphericalScanlineTextureMapper G) (vp : ViewParams G) (yBottom : Int)
    (interlaced : Bool) : Nat → Int → Bool → Option G →
    Option (List (MapperEvent G) × Bool × Option G)
  | 0, y, interpolate, prev =>
    if y < yBottom then none else some ([], interpolate, prev)
  | fuel + 1, y, interpolate, prev =>
    if y < yBottom then
      let sl := scanline m vp y
      match scanColumns m vp y sl (sl.xRight - sl.xLeft).toNat sl.xLeft 0 sl.xLeft
          interpolate prev with
      | none => none
      | some (events, interpolate1, prev1) =>
        let copy := interlaced && decide (y + 1 < yBottom)
        let copied := if copy then [MapperEvent.copyScanline y sl.xLeft sl.xRight] else []
        let y1 := if copy then y + 1 else y
        match scanRows m vp yBottom interlaced fuel (y1 + 1) interpolate1 prev1 with
        | none => none
        | some (events2, interpolate2, prev2) =>
          some (events ++ copied ++ events2, interpolate2, prev2)
    else some ([], interpolate, prev)

/-- The method `SphericalScanlineTextureMapper::mapTexture`: the mapper afterwards and the calls made,
in order.  The stride is `m_nBest` or 8, and 1 for print quality; the divisions by `m_n` in
the scanline set-up are undefined for `m_n = 0` (a mapper on which `resizeMap` was never
called), which is `none`, as is a loop that does not end within its range (no stride
`m_n ≥ 1` does that). -/
def mapTexture (m : SphericalScanlineTextureMapper G) (vp : ViewParams G) :
    Option (SphericalScanlineTextureMapper G × List (MapperEvent G)) :=
  let printQuality := decide (vp.mapQuality = MapQuality.Print)
  let n := if printQuality then 1
    else if m.m_imageRadius < vp.radius * vp.radius then m.m_nBest else 8
  let m1 : SphericalScanlineTextureMapper G := { m with m_n := n }
  if n = 0 then none
  else
    let yTop := (yRange m1 vp.radius).1
    let yBottom := (yRange m1 vp.radius).2
    let interlaced := m1.m_interlaced || decide (vp.mapQuality = MapQuality.Low)
    match scanRows m1 vp yBottom interlaced (yBottom - yTop).toNat yTop m1.m_interpolate
        m1.m_prev with
    | none => none
    | some (events, interpolate, prev) =>
      some ({ m1 with m_interpolate := interpolate, m_prev := prev },
        [MapperEvent.resetTilehash, MapperEvent.selectTileLevel] ++ events
          ++ [MapperEvent.cleanupTilehash])

/-- The exact per-pixel computation of scanline `y`, the ground truth of the spec: one
`pixelValue` call for every column `x` of `[xLeft, xRight)` that lies on the canvas, in
order, written at column `x` with the coordinates computed from `(x, y)`. -/
def exactScanline (m : SphericalScanlineTextureMapper G) (vp : ViewParams G) (y : Int) :
    List (MapperEvent G) :=
  (intRange (scanline m vp y).xLeft ((scanline m vp y).xRight - (scanline m vp y).xLeft).toNat).flatMap
    (fun x => if x < m.m_imageWidth
      then [MapperEvent.pixelValue
        (vp.spherical (x - Int.tdiv m.m_imageWidth 2) (Int.tdiv m.m_imageHeight 2 - y))
        y x true]
      else [])

/-- The exact per-pixel computation of all scanlines `yTop ≤ y < yBottom`, in order. -/
def exactImage (m : SphericalScanlineTextureMapper G) (vp : ViewParams G) :
    List (MapperEvent G) :=
  (intRange (yRange m vp.radius).1
    ((yRange m vp.radius).2 - (yRange m vp.radius).1).toNat).flatMap (exactScanline m vp)

/-! ### The date-line branch of `pixelValueApprox`

The branch works on longitudes and latitudes with additions, multiplications and
comparisons only.  It is embedded in exact arithmetic: `qreal` is an ordered field `K`,
`M_PI` is an element `pi` of it and `TWOPI` is `2 * pi`; rounding is not modelled. -/

/-- The loop of the east-to-west case (`m_prevLon < lon`): `passes` passes are left,
`prevLon` and `prevLat` are `m_prevLon` and `m_prevLat`.  The result lists the longitude
and latitude of each `pixelValue` call, in order. -/
def datelineEastToWest {K : Type} [LinearOrderedField K] (pi stepLon stepLat : K) :
    Nat → K → K → List (K × K)
  | 0, _, _ => []
  | passes + 1, prevLon, prevLat =>
    let prevLat1 := prevLat + stepLat
    let prevLon1 := prevLon - stepLon
    let prevLon2 := if prevLon1 ≤ -pi then prevLon1 + 2 * pi else prevLon1
    (prevLon2, prevLat1) :: datelineEastToWest pi stepLon stepLat passes prevLon2 prevLat1

/-- The loop of the west-to-east case: `passes` passes are left, `curStepLon` and `prevLat`
are the variable of that name and `m_prevLat`.  The result lists the longitude and
latitude of each `pixelValue` call, in order. -/
def datelineWestToEast {K : Type} [LinearOrderedField K] (pi stepLon stepLat : K) :
    Nat → K → K → List (K × K)
  | 0, _, _ => []
  | passes + 1, curStepLon, prevLat =>
    let prevLat1 := prevLat + stepLat
    let curStepLon1 := curStepLon + stepLon
    let evalLon := if curStepLon1 ≤ -pi then curStepLon1 + 2 * pi else curStepLon1
    (evalLon, prevLat1) :: datelineWestToEast pi stepLon stepLat passes curStepLon1 prevLat1

/-- The branch of `pixelValueApprox` for `fabs( stepLon ) >= M_PI` (lines 398 to 433 of the
source) with stride `n = m_n`, previous anchor `(prevLon, prevLat)` and anchor
`(lon, lat)`: the longitude and latitude of each of its `pixelValue` calls, in order.
Both loops run for `j = 1, ..., n - 1`. -/
def pixelValueApproxDateline {K : Type} [LinearOrderedField K] (pi : K) (n : Int)
    (prevLon prevLat lon lat : K) : List (K × K) :=
  let nInverse := 1 / (n : K)
  let stepLon := (2 * pi - |lon - prevLon|) * nInverse
  let stepLat := (lat - prevLat) * nInverse
  if prevLon < lon then
    datelineEastToWest pi stepLon stepLat (n - 1).toNat prevLon prevLat
  else
    datelineWestToEast pi stepLon stepLat (n - 1).toNat (lon - (n : K) * stepLon) prevLat

end SphericalScanlineTextureMapper

/-! ## The vector tile model -/

/-- Modelled from the spec: a `TileId` is `(zoomLevel, x, y)`, a cell of the tile grid of a
zoom level.  The class is declared in a header that is not among the sources. -/
structure TileId where
  zoomLevel : Int
  x : Nat
  y : Nat
  deriving DecidableEq, Repr

/-- A heap allocated `GeoDataDocument`, identified by its address. -/
abbrev GeoDataDocument : Type := Nat

/-- A `GeoDataObject *` as `cleanupTile` receives it: a document, the case
`nodeType() == GeoDataTypes::GeoDataDocumentType`, or an object of another node type. -/
inductive GeoDataObject where
  | document (d : GeoDataDocument)
  | other (address : Nat)
  deriving DecidableEq, Repr

/-- The class `VectorTileModel::CacheDocument`: a parsed document and its bounding box. -/
structure CacheDocument (Box : Type) where
  m_document : GeoDataDocument
  m_boundingBox : Box

/-- The signals a `VectorTileModel` emits. -/
inductive Signal where
  | tileAdded (document : GeoDataDocument)
  | tileRemoved (document : GeoDataDocument)
  deriving DecidableEq, Repr

/-- The collaborators of a `VectorTileModel` whose code is not among the sources, as far as
the model calls them.  `Box` is `GeoDataLatLonBox`, `R` is `qreal`.

* `tileLevels`, `levelZeroColumns`, `levelZeroRows`, `tileWidth`, `tileHeight`: the dataset
  `m_layer` (`tileSize().width()` and `tileSize().height()` for the last two);
* `toLatLonBox id` is `id.toLatLonBox( m_layer )`;
* `scaled box` is `box.scaled( 2.0, 2.0 )`, `intersects a b` is `a.intersects( b )`;
* `crossesDateLine`, `west`, `east`, `north`, `south`: the accessors of a box;
* `lon2tileX`, `lat2tileY`: the results, converted to `unsigned int`, of the two floating
  point formulas of the same name;
* `zoomLevel radius levelZeroMinDimension` is the result of the floating point computation
  `(int)( qLn( linearLevel ) / qLn( 2.0 ) * 1.00001 )` of `setViewport`. -/
structure Layer (Box R : Type) where
  tileLevels : List Int
  levelZeroColumns : Int
  levelZeroRows : Int
  tileWidth : Int
  tileHeight : Int
  toLatLonBox : TileId → Box
  scaled : Box → Box
  intersects : Box → Box → Bool
  crossesDateLine : Box → Bool
  west : Box → R
  east : Box → R
  north : Box → R
  south : Box → R
  lon2tileX : R → Nat → Nat
  lat2tileY : R → Nat → Nat
  zoomLevel : Int → Int → Int

/-- The state of a `VectorTileModel` together with what it has done to its surroundings.

* `m_documents` is the cache, a map from `TileId` to cache entries, as the list of its
  key/value pairs;
* `m_threadPool` lists the `TileRunner` jobs handed to the thread pool whose
  `documentLoaded` signal has not been delivered yet;
* `emitted` lists the signals emitted so far and `deleted` the documents freed with
  `delete` so far, oldest first. -/
structure VectorTileModel (Box : Type) where
  m_documents : List (TileId × CacheDocument Box)
  m_pendingDocuments : List TileId
  m_garbageQueue : List GeoDataDocument
  m_tileLoadLevel : Int
  m_tileZoomLevel : Int
  m_deleteDocumentsLater : Bool
  m_threadPool : List TileId
  emitted : List Signal
  deleted : List GeoDataDocument

/-- The largest `unsigned int`. -/
def UINT_MAX : Nat := 4294967295

/-- The loop `for ( unsigned int i = lo; i <= hi; ++i ) body`.  When `hi` is `UINT_MAX` and
the loop is entered, `i <= hi` holds for every value of the counter, which wraps from
`UINT_MAX` to 0: the loop never ends, which is `none`. -/
def forUInt {σ : Type} (lo hi : Nat) (body : Nat → σ → Option σ) (s : σ) : Option σ :=
  if hi < lo then some s
  else if UINT_MAX ≤ hi then none
  else (List.range' lo (hi + 1 - lo)).foldlM (fun s i => body i s) s

/-- The template `qBound<unsigned int>( min, val, max )`, which is `qMax( min, qMin( max, val ) )`. -/
def qBound (min val max : Nat) : Nat := Nat.max min (Nat.min max val)

namespace VectorTileModel

variable {Box R : Type}

/-- The constructor. -/
def construct : VectorTileModel Box :=
  { m_documents := []
    m_pendingDocuments := []
    m_garbageQueue := []
    m_tileLoadLevel := -1
    m_tileZoomLevel := -1
    m_deleteDocumentsLater := false
    m_threadPool := []
    emitted := []
    deleted := [] }

/-- The test `m_documents.contains( id )`. -/
def containsDocument (documents : List (TileId × CacheDocument Box)) (id : TileId) : Bool :=
  documents.any (fun e => decide (e.1 = id))

/-- The lookup `m_documents.value( id )`: the entry cached under `id`, if there is one. -/
def findDocument (documents : List (TileId × CacheDocument Box)) (id : TileId) :
    Option (CacheDocument Box) :=
  (documents.find? (fun e => decide (e.1 = id))).map Prod.snd

/-- What dropping cache entries does: the cache holds the only reference to an entry, so the
entry is destroyed, and `~CacheDocument` calls `removeTile`, which emits `tileRemoved` for
the entry's document.  It frees nothing. -/
def removeTile (entries : List (TileId × CacheDocument Box)) : List Signal :=
  entries.map (fun e => Signal.tileRemoved e.2.m_document)

/-- The method `VectorTileModel::cachedDocuments`. -/
def cachedDocuments (s : VectorTileModel Box) : Nat := s.m_documents.length

/-- The method `VectorTileModel::tileZoomLevel`. -/
def tileZoomLevel (s : VectorTileModel Box) : Int := s.m_tileZoomLevel

/-- The method `VectorTileModel::clear`: `m_documents.clear()` drops every entry. -/
def clear (s : VectorTileModel Box) : VectorTileModel Box :=
  { s with m_documents := [], emitted := s.emitted ++ removeTile s.m_documents }

/-- The loop of `removeTilesOutOfView` over the entries not yet visited: the entries that
stay, and the entries erased. -/
def eraseOutOfView (L : Layer Box R) (extendedViewport : Box) :
    List (TileId × CacheDocument Box) →
    List (TileId × CacheDocument Box) × List (TileId × CacheDocument Box)
  | [] => ([], [])
  | e :: rest =>
    let isOutOfView := !L.intersects extendedViewport e.2.m_boundingBox
    let r := eraseOutOfView L extendedViewport rest
    if isOutOfView then (r.1, e :: r.2) else (e :: r.1, r.2)

/-- The method `VectorTileModel::removeTilesOutOfView`. -/
def removeTilesOutOfView (L : Layer Box R) (s : VectorTileModel Box) (boundingBox : Box) :
    VectorTileModel Box :=
  let extendedViewport := L.scaled boundingBox
  let r := eraseOutOfView L extendedViewport s.m_documents
  { s with m_documents := r.1, emitted := s.emitted ++ removeTile r.2 }

/-- The slot `VectorTileModel::updateTile`; `document = none` is the null pointer. -/
def updateTile (L : Layer Box R) (s : VectorTileModel Box) (id : TileId)
    (document : Option GeoDataDocument) : VectorTileModel Box :=
  let s1 := { s with m_pendingDocuments := s.m_pendingDocuments.filter (fun t => decide (t ≠ id)) }
  match document with
  | none => s1
  | some d =>
    if s1.m_tileLoadLevel ≠ id.zoomLevel then { s1 with deleted := s1.deleted ++ [d] }
    else
      let s2 := { s1 with m_garbageQueue := s1.m_garbageQueue ++ [d] }
      let s3 :=
        if containsDocument s2.m_documents id then
          { s2 with
            m_documents := s2.m_documents.filter (fun e => decide (e.1 ≠ id))
            emitted := s2.emitted
              ++ removeTile (s2.m_documents.filter (fun e => decide (e.1 = id))) }
        else s2
      let s4 :=
        if s3.m_deleteDocumentsLater then clear { s3 with m_deleteDocumentsLater := false }
        else s3
      let boundingBox := L.toLatLonBox id
      { s4 with
        m_documents := s4.m_documents.filter (fun e => decide (e.1 ≠ id))
          ++ [(id, { m_document := d, m_boundingBox := boundingBox })]
        emitted := s4.emitted
          ++ removeTile (s4.m_documents.filter (fun e => decide (e.1 = id)))
          ++ [Signal.tileAdded d] }

/-- The test `!m_documents.contains( tileId ) && !m_pendingDocuments.contains( tileId )` of
`queryTiles`: the tile is neither cached nor pending. -/
def isMissing (documents : List (TileId × CacheDocument Box)) (pending : List TileId)
    (tileId : TileId) : Bool :=
  !containsDocument documents tileId && !pending.contains tileId

/-- The body of the loops of `queryTiles` for one `tileId`. -/
def queryTile (s : VectorTileModel Box) (tileId : TileId) : VectorTileModel Box :=
  if isMissing s.m_documents s.m_pendingDocuments tileId then
    { s with
      m_pendingDocuments := s.m_pendingDocuments ++ [tileId]
      m_threadPool := s.m_threadPool ++ [tileId] }
  else s

/-- The method `VectorTileModel::queryTiles`. -/
def queryTiles (s : VectorTileModel Box) (tileZoomLevel : Int)
    (minTileX minTileY maxTileX maxTileY : Nat) : Option (VectorTileModel Box) :=
  forUInt minTileX maxTileX
    (fun x s => forUInt minTileY maxTileY
      (fun y s => some (queryTile s { zoomLevel := tileZoomLevel, x := x, y := y })) s) s

/-- The `TileId`s of the index rectangle `[minTileX, maxTileX] × [minTileY, maxTileY]` at a
zoom level, column by column in the order in which the loops of `queryTiles` visit them. -/
def tileRange (tileZoomLevel : Int) (minTileX minTileY maxTileX maxTileY : Nat) : List TileId :=
  (List.range' minTileX (maxTileX + 1 - minTileX)).flatMap
    (fun x => (List.range' minTileY (maxTileY + 1 - minTileY)).map
      (fun y => { zoomLevel := tileZoomLevel, x := x, y := y }))

/-- The slot `VectorTileModel::cleanupTile`. -/
def cleanupTile (s : VectorTileModel Box) (object : GeoDataObject) : VectorTileModel Box :=
  match object with
  | GeoDataObject.document document =>
    if s.m_garbageQueue.contains document then
      { s with
        m_garbageQueue := s.m_garbageQueue.filter (fun d => decide (d ≠ document))
        deleted := s.deleted ++ [document] }
    else s
  | GeoDataObject.other _ => s

/-- The loop of `setViewport` over `tileLevels[1..]` that selects the tile level, started
with `tileLevel` and the levels not yet visited. -/
def selectTileLevel (tileZoomLevel : Int) : Int → List Int → Int
  | tileLevel, [] => tileLevel
  | tileLevel, l :: rest =>
    if l > tileZoomLevel then tileLevel else selectTileLevel tileZoomLevel l rest

/-- The desired zoom level of `setViewport` for a radius, the value stored in
`m_tileZoomLevel`. -/
def desiredZoomLevel (L : Layer Box R) (radius : Int) : Int :=
  let levelZeroWidth := L.tileWidth * L.levelZeroColumns
  let levelZeroHight := L.tileHeight * L.levelZeroRows
  L.zoomLevel radius (min levelZeroWidth levelZeroHight)

/-- The value `( 1 << tileZoomLevel ) * count` as an `unsigned int`. -/
def maxTile (tileZoomLevel count : Int) : Nat :=
  ((2 ^ tileZoomLevel.toNat * count) % 4294967296).toNat

/-- The step `if ( tileZoomLevel != m_tileLoadLevel )` of `setViewport`: a changed level
is stored and marks the cache for deferred invalidation. -/
def changeLoadLevel (s : VectorTileModel Box) (tileZoomLevel : Int) : VectorTileModel Box :=
  if tileZoomLevel ≠ s.m_tileLoadLevel then
    { s with m_tileLoadLevel := tileZoomLevel, m_deleteDocumentsLater := true }
  else s

/-- The tile queries of `setViewport` (lines 118 to 141 of the source) for the viewport
`latLonBox` at the load level `tileZoomLevel`: one query, or two when the box crosses the
date line. -/
def queryViewport (L : Layer Box R) (s : VectorTileModel Box) (tileZoomLevel : Int)
    (latLonBox : Box) : Option (VectorTileModel Box) :=
  let maxTileX := maxTile tileZoomLevel L.levelZeroColumns
  let maxTileY := maxTile tileZoomLevel L.levelZeroRows
  let westX := qBound 0 (L.lon2tileX (L.west latLonBox) maxTileX) maxTileX
  let northY := qBound 0 (L.lat2tileY (L.north latLonBox) maxTileY) maxTileY
  let eastX := qBound 0 (L.lon2tileX (L.east latLonBox) maxTileX) maxTileX
  let southY := qBound 0 (L.lat2tileY (L.south latLonBox) maxTileY) maxTileY
  if !L.crossesDateLine latLonBox then
    queryTiles s tileZoomLevel westX northY eastX southY
  else
    match queryTiles s tileZoomLevel 0 northY eastX southY with
    | none => none
    | some s1 => queryTiles s1 tileZoomLevel westX northY maxTileX southY

/-- The column bound `maxTileX` and the clamped tile indices `westX`, `northY`, `eastX`,
`southY` that `setViewport` computes for a viewport at a load level (lines 118 to 130 of the
source), as `(maxTileX, westX, northY, eastX, southY)`. -/
def viewportTiles (L : Layer Box R) (tileZoomLevel : Int) (latLonBox : Box) :
    Nat × Nat × Nat × Nat × Nat :=
  let maxTileX := maxTile tileZoomLevel L.levelZeroColumns
  let maxTileY := maxTile tileZoomLevel L.levelZeroRows
  let westX := qBound 0 (L.lon2tileX (L.west latLonBox) maxTileX) maxTileX
  let northY := qBound 0 (L.lat2tileY (L.north latLonBox) maxTileY) maxTileY
  let eastX := qBound 0 (L.lon2tileX (L.east latLonBox) maxTileX) maxTileX
  let southY := qBound 0 (L.lat2tileY (L.south latLonBox) maxTileY) maxTileY
  (maxTileX, westX, northY, eastX, southY)

/-- The method `VectorTileModel::setViewport`; `none` when one of its tile queries never ends. -/
def setViewport (L : Layer Box R) (s : VectorTileModel Box) (latLonBox : Box) (radius : Int) :
    Option (VectorTileModel Box) :=
  let tileZoomLevel := desiredZoomLevel L radius
  let s1 := { s with m_tileZoomLevel := tileZoomLevel }
  match L.tileLevels with
  | [] => some (clear s1)
  | first :: rest =>
    let tileZoomLevel := selectTileLevel tileZoomLevel first rest
    let s2 := changeLoadLevel s1 tileZoomLevel
    match queryViewport L s2 tileZoomLevel latLonBox with
    | none => none
    | some s3 => some (removeTilesOutOfView L s3 latLonBox)

/-- The grid of every supported level has fewer than `UINT_MAX` columns and rows, so that
the counters of the tile queries of `setViewport` stay below `UINT_MAX`. -/
def gridFits (L : Layer Box R) : Prop :=
  ∀ lv ∈ L.tileLevels,
    maxTile lv L.levelZeroColumns < UINT_MAX ∧ maxTile lv L.levelZeroRows < UINT_MAX

/-- The number of `tileAdded` signals emitted so far, which is the number of documents that
`updateTile` has accepted. -/
def tileAddedCount (s : VectorTileModel Box) : Nat :=
  (s.emitted.filter (fun e => match e with
    | Signal.tileAdded _ => true
    | Signal.tileRemoved _ => false)).length

/-- The calls that reach a `VectorTileModel` from outside. -/
inductive Call (Box : Type) where
  | setViewport (latLonBox : Box) (radius : Int)
  | removeTilesOutOfView (boundingBox : Box)
  | clear
  | updateTile (id : TileId) (document : Option GeoDataDocument)
  | cleanupTile (object : GeoDataObject)

/-- The state after one call, `none` when the call never returns. -/
def call (L : Layer Box R) (s : VectorTileModel Box) : Call Box → Option (VectorTileModel Box)
  | Call.setViewport latLonBox radius => setViewport L s latLonBox radius
  | Call.removeTilesOutOfView boundingBox => some (removeTilesOutOfView L s boundingBox)
  | Call.clear => some (clear s)
  | Call.updateTile id document => some (updateTile L s id document)
  | Call.cleanupTile object => some (cleanupTile s object)

/-- The state after a sequence of calls. -/
def run (L : Layer Box R) (s : VectorTileModel Box) : List (Call Box) →
    Option (VectorTileModel Box)
  | [] => some s
  | c :: rest =>
    match call L s c with
    | none => none
    | some s1 => run L s1 rest

/-- The states a `VectorTileModel` reaches from its constructor through `setViewport`,
`removeTilesOutOfView`, `clear` and `cleanupTile`, and through `updateTile` as the slot of
the `documentLoaded` signal of a job of the thread pool, delivered once per job: the job
leaves the pool and `updateTile` runs with the job's id and what the loader returned. -/
inductive Reachable (L : Layer Box R) : VectorTileModel Box → Prop where
  | construct : Reachable L construct
  | setViewport (s s1 : VectorTileModel Box) (latLonBox : Box) (radius : Int) :
      Reachable L s → setViewport L s latLonBox radius = some s1 → Reachable L s1
  | removeTilesOutOfView (s : VectorTileModel Box) (boundingBox : Box) :
      Reachable L s → Reachable L (removeTilesOutOfView L s boundingBox)
  | clear (s : VectorTileModel Box) : Reachable L s → Reachable L (clear s)
  | documentLoaded (s : VectorTileModel Box) (id : TileId)
      (document : Option GeoDataDocument) :
      Reachable L s → id ∈ s.m_threadPool →
      Reachable L (updateTile L { s with m_threadPool := s.m_threadPool.erase id } id document)
  | cleanupTile (s : VectorTileModel Box) (object : GeoDataObject) :
      Reachable L s → Reachable L (cleanupTile s object)

end VectorTileModel

/-! ## A small dataset for concrete runs -/

/-- A one-row dataset with the tile levels 2 and 4 on a line of longitudes: a box is a pair
`(west, east)`, the tile with index `x` covers `[10 * x, 10 * x + 10]`, and a radius below
half the level-zero tile size (256 pixels) asks for level 0. -/
def exampleLayer : Layer (Int × Int) Int :=
  { tileLevels := [2, 4]
    levelZeroColumns := 1
    levelZeroRows := 1
    tileWidth := 256
    tileHeight := 256
    toLatLonBox := fun id => (10 * (id.x : Int), 10 * (id.x : Int) + 10)
    scaled := fun b => (b.1 - (b.2 - b.1) / 2, b.2 + (b.2 - b.1) / 2)
    intersects := fun a b => decide (a.1 ≤ b.2) && decide (b.1 ≤ a.2)
    crossesDateLine := fun b => decide (b.2 < b.1)
    west := fun b => b.1
    east := fun b => b.2
    north := fun _ => 0
    south := fun _ => 0
    lon2tileX := fun lon _ => (lon / 10).toNat
    lat2tileY := fun _ _ => 0
    zoomLevel := fun radius levelZeroMinDimension =>
      if 4 * radius < 2 * levelZeroMinDimension then 0
      else if 4 * radius < 4 * levelZeroMinDimension then 1
      else if 4 * radius < 8 * levelZeroMinDimension then 2
      else 3 }

/-- A mapper for a canvas of 9 by 7 pixels. -/
def exampleMapper : SphericalScanlineTextureMapper (Int × Int) :=
  SphericalScanlineTextureMapper.resizeMap
    (SphericalScanlineTextureMapper.construct
      { m_imageWidth := 0, m_imageHeight := 0, m_imageRadius := 0, m_interlaced := false,
        m_prev := none })
    9 7 20

/-- A print quality view of radius 3 whose orientation is the identity: the coordinates of
a pixel are its offsets from the centre. -/
def exampleView : ViewParams (Int × Int) :=
  { radius := 3
    mapQuality := MapQuality.Print
    canvasWidth := 9
    northPoleX := 0
    northPoleY := 3
    northPoleFront := false
    spherical := fun dx dy => (dx, dy) }

/-- A model that loads level 2 and caches one tile, the tile with index 9, as document 7. -/
def exampleModel : VectorTileModel (Int × Int) :=
  { m_documents := [({ zoomLevel := 2, x := 9, y := 0 },
      { m_document := 7, m_boundingBox := (90, 100) })]
    m_pendingDocuments := []
    m_garbageQueue := [7]
    m_tileLoadLevel := 2
    m_tileZoomLevel := 0
    m_deleteDocumentsLater := false
    m_threadPool := []
    emitted := [Signal.tileAdded 7]
    deleted := [] }

/-- The model after `setViewport` with the box `(0, 25)` and radius 100 on a new model of
`exampleLayer`: three tiles of level 2 are pending. -/
def exampleQueried : VectorTileModel (Int × Int) :=
  { m_documents := []
    m_pendingDocuments := [{ zoomLevel := 2, x := 0, y := 0 }, { zoomLevel := 2, x := 1, y := 0 },
      { zoomLevel := 2, x := 2, y := 0 }]
    m_garbageQueue := []
    m_tileLoadLevel := 2
    m_tileZoomLevel := 0
    m_deleteDocumentsLater := true
    m_threadPool := [{ zoomLevel := 2, x := 0, y := 0 }, { zoomLevel := 2, x := 1, y := 0 },
      { zoomLevel := 2, x := 2, y := 0 }]
    emitted := []
    deleted := [] }

/-- A mapper for a canvas of 40 by 1 pixels. -/
def poleMapper : SphericalScanlineTextureMapper (Int × Int) :=
  SphericalScanlineTextureMapper.resizeMap
    (SphericalScanlineTextureMapper.construct
      { m_imageWidth := 0, m_imageHeight := 0, m_imageRadius := 0, m_interlaced := false,
        m_prev := none })
    40 1 400

/-- A high quality view of radius 10 in which the north pole faces the viewer and is
projected on column `40 / 2 - 4 = 16` of row 0. -/
def poleView : ViewParams (Int × Int) :=
  { radius := 10
    mapQuality := MapQuality.High
    canvasWidth := 40
    northPoleX := -4
    northPoleY := 0
    northPoleFront := true
    spherical := fun dx dy => (dx, dy) }

/-- Modelled from the spec: the class `HttpJob` is only forward-declared in the header.
A job is its identifier and its failure count; source locator and destination play no
part in the scheduling, and the status of a job is the list that holds it. -/
structure HttpJob (I : Type) where
  id : I
  failureCount : Nat
  deriving DecidableEq, Repr

/-- Modelled from the spec: the data members of the header that the scheduling uses, with
`m_jobQueue` (a `QStack`) written top first and `m_waitingQueue` (a `QQueue`) written head
first.  The two limits are counts.  `retryBound` is the retry bound of the specification,
and the ghost field `unresolved` is the ledger of the specification's invariant: the
identifiers submitted and not yet resolved (completed, removed, purged or dropped by a
reset of the blacklist). -/
structure HttpDownloadManager (I : Type) where
  m_downloadEnabled : Bool
  m_jobQueue : List (HttpJob I)
  m_waitingQueue : List (HttpJob I)
  m_activatedJobList : List (HttpJob I)
  m_jobBlackList : List (HttpJob I)
  m_activatedJobsLimit : Nat
  m_jobQueueLimit : Nat
  retryBound : Nat
  unresolved : List I

namespace HttpDownloadManager

variable {I : Type} [DecidableEq I]

/-- Modelled from the spec: the constructor followed by `setActivatedJobsLimit` and
`setJobQueueLimit`; whether downloading is enabled and the retry bound are fixed here as
well.  All lists start empty. -/
def construct (downloadEnabled : Bool) (activatedJobsLimit jobQueueLimit retryBound : Nat) :
    HttpDownloadManager I :=
  { m_downloadEnabled := downloadEnabled
    m_jobQueue := []
    m_waitingQueue := []
    m_activatedJobList := []
    m_jobBlackList := []
    m_activatedJobsLimit := activatedJobsLimit
    m_jobQueueLimit := jobQueueLimit
    retryBound := retryBound
    unresolved := [] }

/-- The identifiers of a list of jobs, in order. -/
def jobIds (l : List (HttpJob I)) : List I :=
  l.map (fun j => j.id)

/-- The jobs the scheduler holds: queue, waiting backlog, active list and blacklist. -/
def held (s : HttpDownloadManager I) : List (HttpJob I) :=
  s.m_jobQueue ++ s.m_waitingQueue ++ s.m_activatedJobList ++ s.m_jobBlackList

/-- The identifiers of the jobs the scheduler holds. -/
def heldIds (s : HttpDownloadManager I) : List I :=
  jobIds (held s)

/-- Modelled from the spec: the body of `acceptJob` is absent; the header says it checks
"whether the job gets processed already or whether it got blacklisted".  A job is accepted
when its identifier is in none of queue, waiting backlog, active list and blacklist. -/
def acceptJob (s : HttpDownloadManager I) (id : I) : Bool :=
  !(heldIds s).contains id

/-- Modelled from the spec: a job is enqueued in the primary queue (pushed on the stack),
and "if the primary queue is at its configured limit, the job is deferred to the waiting
backlog". -/
def enqueue (s : HttpDownloadManager I) (j : HttpJob I) : HttpDownloadManager I :=
  if s.m_jobQueue.length < s.m_jobQueueLimit then
    { s with m_jobQueue := j :: s.m_jobQueue }
  else
    { s with m_waitingQueue := s.m_waitingQueue ++ [j] }

/-- Modelled from the spec: the loop of `activateJobs`, which "pops jobs from the primary
queue (most-recently-submitted first) until the active-jobs limit is reached or the queue
is empty".  It returns the queue and the active list. -/
def activateLoop (limit : Nat) :
    List (HttpJob I) → List (HttpJob I) → List (HttpJob I) × List (HttpJob I)
  | [], active => ([], active)
  | j :: queue, active =>
    if active.length < limit then activateLoop limit queue (active ++ [j])
    else (j :: queue, active)

/-- Modelled from the spec: `activateJobs` (`activate()` of the specification). -/
def activateJobs (s : HttpDownloadManager I) : HttpDownloadManager I :=
  { s with
    m_jobQueue := (activateLoop s.m_activatedJobsLimit s.m_jobQueue s.m_activatedJobList).1
    m_activatedJobList :=
      (activateLoop s.m_activatedJobsLimit s.m_jobQueue s.m_activatedJobList).2 }

/-- Modelled from the spec: the ledger entry of a submission: the identifier joins the
identifiers submitted and not yet resolved, unless it is among them already. -/
def noteSubmission (s : HttpDownloadManager I) (id : I) : HttpDownloadManager I :=
  { s with
    unresolved := if s.unresolved.contains id then s.unresolved else s.unresolved ++ [id] }

/-- Modelled from the spec: `addJob` (`submit` of the specification), which "fails silently
if downloading is globally disabled; otherwise enqueues".  A job that `acceptJob` refuses
is dropped.  An accepted job starts with failure count 0, and the queue is activated right
away, as the scenario of the specification has it (two jobs are active "immediately" after
the submissions).  Every submission with downloading enabled enters the ledger. -/
def addJob (s : HttpDownloadManager I) (id : I) : HttpDownloadManager I :=
  if s.m_downloadEnabled then
    if acceptJob s id then
      activateJobs (enqueue (noteSubmission s id) { id := id, failureCount := 0 })
    else noteSubmission s id
  else s

/-- Modelled from the spec: `reportResult`.  A result for a job that is not in the active
list is discarded.  Otherwise the job leaves the active list; "on success" it is resolved,
"on failure" the call "increments the job's failure count and either requeues it (if under
a retry bound) or moves it to the blacklist". -/
def reportResult (s : HttpDownloadManager I) (id : I) (success : Bool) :
    HttpDownloadManager I :=
  match s.m_activatedJobList.find? (fun j => decide (j.id = id)) with
  | none => s
  | some j =>
    let s1 := { s with
      m_activatedJobList := s.m_activatedJobList.filter (fun k => !decide (k.id = id)) }
    if success then
      { s1 with unresolved := s1.unresolved.filter (fun i => !decide (i = id)) }
    else if j.failureCount + 1 < s.retryBound then
      enqueue s1 { j with failureCount := j.failureCount + 1 }
    else
      { s1 with
        m_jobBlackList := s1.m_jobBlackList ++ [{ j with failureCount := j.failureCount + 1 }] }

/-- Modelled from the spec: the loop of `requeue` that "migrates jobs from the waiting
backlog back into the primary queue", oldest first, while the primary queue is below its
limit.  It returns the waiting backlog and the queue. -/
def migrate (limit : Nat) :
    List (HttpJob I) → List (HttpJob I) → List (HttpJob I) × List (HttpJob I)
  | [], queue => ([], queue)
  | j :: waiting, queue =>
    if queue.length < limit then migrate limit waiting (j :: queue)
    else (j :: waiting, queue)

/-- Modelled from the spec: `requeue`, which migrates the waiting backlog and "purges jobs
that have sat inactive past a staleness threshold".  Time is not modelled: `stale` says
which identifiers are past the threshold at the call.  Inactive jobs are those of the queue
and the waiting backlog; a purged job is resolved. -/
def requeue (s : HttpDownloadManager I) (stale : I → Bool) : HttpDownloadManager I :=
  let waiting := (migrate s.m_jobQueueLimit s.m_waitingQueue s.m_jobQueue).1
  let queue := (migrate s.m_jobQueueLimit s.m_waitingQueue s.m_jobQueue).2
  { s with
    m_jobQueue := queue.filter (fun j => !stale j.id)
    m_waitingQueue := waiting.filter (fun j => !stale j.id)
    unresolved :=
      s.unresolved.filter (fun i => !(stale i && (jobIds (queue ++ waiting)).contains i)) }

/-- Modelled from the spec: `removeJob`, which "removes a job not yet started; if already
in flight, the in-flight operation is allowed to finish but its result is discarded": the
job leaves queue, waiting backlog and active list, so that `reportResult` discards its
result.  The blacklist is left alone.  A removed job is resolved. -/
def removeJob (s : HttpDownloadManager I) (id : I) : HttpDownloadManager I :=
  { s with
    m_jobQueue := s.m_jobQueue.filter (fun j => !decide (j.id = id))
    m_waitingQueue := s.m_waitingQueue.filter (fun j => !decide (j.id = id))
    m_activatedJobList := s.m_activatedJobList.filter (fun j => !decide (j.id = id))
    unresolved :=
      if (jobIds (s.m_jobQueue ++ s.m_waitingQueue ++ s.m_activatedJobList)).contains id then
        s.unresolved.filter (fun i => !decide (i = id))
      else s.unresolved }

/-- Modelled from the spec: the "explicit reset" that "clears the blacklist"; the header
declares no method for it.  The jobs of the blacklist are dropped and thereby resolved. -/
def resetBlackList (s : HttpDownloadManager I) : HttpDownloadManager I :=
  { s with
    m_jobBlackList := []
    unresolved := s.unresolved.filter (fun i => !(jobIds s.m_jobBlackList).contains i) }

/-- The calls a client, a job or the timer can make on the scheduler. -/
inductive Call (I : Type) where
  | addJob (id : I)
  | activateJobs
  | reportResult (id : I) (success : Bool)
  | requeue (stale : I → Bool)
  | removeJob (id : I)
  | resetBlackList

/-- One call. -/
def call (s : HttpDownloadManager I) : Call I → HttpDownloadManager I
  | .addJob id => addJob s id
  | .activateJobs => activateJobs s
  | .reportResult id success => reportResult s id success
  | .requeue stale => requeue s stale
  | .removeJob id => removeJob s id
  | .resetBlackList => resetBlackList s

/-- A sequence of calls, first call first. -/
def run (s : HttpDownloadManager I) (calls : List (Call I)) : HttpDownloadManager I :=
  calls.foldl call s

/-- The invariant of the specification: no identifier is held twice (in one list or in two
of queue, waiting backlog, active list and blacklist), and the identifiers held are those of
the ledger. -/
def Consistent (s : HttpDownloadManager I) : Prop :=
  (heldIds s).Nodup ∧ ∀ i, i ∈ heldIds s ↔ i ∈ s.unresolved

/-- Whether a call is the reset of the blacklist. -/
def Call.isReset : Call I → Bool
  | .resetBlackList => true
  | _ => false

end HttpDownloadManager

/-! ## Square roots and the Mercator row

Two computations on `qreal` that consist of comparisons and field operations around one
call of a library function (`sqrt`, `gdInv`).  They are embedded in exact arithmetic over
an ordered field `K`, the library function is a parameter. -/

namespace SphericalScanlineTextureMapper

variable {G : Type}

/-- The radicand of `rx` on scanline `y` (lines 134 to 136 of the source), the integer
`radius * radius - ( y - m_imageHeight / 2 ) * ( y - m_imageHeight / 2 )` that is converted
to `qreal` and passed to `sqrt`; `scanline` takes the integer square root of it. -/
def rxRadicand (m : SphericalScanlineTextureMapper G) (vp : ViewParams G) (y : Int) : Int :=
  vp.radius * vp.radius
    - (y - Int.tdiv m.m_imageHeight 2) * (y - Int.tdiv m.m_imageHeight 2)

/-- The z coordinate of the position vector of the pixel `(x, y)` (lines 130, 131 and 205
to 210 of the source): `qy`, `qr`, `qx`, `qr2z` and
`qz = ( qr2z > 0.0 ) ? sqrt( qr2z ) : 0.0`.  The result is `qz` together with the list of
the arguments with which `sqrt` is called. -/
def positionZ {K : Type} [LinearOrderedField K] (sqrt : K → K) (inverseRadius : K)
    (imageWidth imageHeight x y : Int) : K × List K :=
  let qy := inverseRadius * ((Int.tdiv imageHeight 2 - y : Int) : K)
  let qr := 1 - qy * qy
  let qx := ((x - Int.tdiv imageWidth 2 : Int) : K) * inverseRadius
  let qr2z := qr - qx * qx
  if qr2z > 0 then (sqrt qr2z, [qr2z]) else (0, [])

end SphericalScanlineTextureMapper

namespace VectorTileModel

/-- The static method `VectorTileModel::lat2tileY` (lines 243 to 252 of the source).
`DEG2RAD` and `gdInv` come from a header that is not among the sources and are
parameters, and so is `toUInt`, the conversion `(unsigned int)` of the floor.  The
quotient `latitude / qAbs( latitude )` is evaluated only in the first branch of the
conditional; a division by zero there is `none`. -/
def lat2tileY {K : Type} [LinearOrderedField K] [FloorRing K] (pi DEG2RAD : K)
    (gdInv : K → K) (toUInt : Int → Nat) (latitude : K) (maxTileY : Nat) : Option Nat :=
  let maxAbsLat := 85 * DEG2RAD
  let lat : Option K :=
    if |latitude| > maxAbsLat then
      if |latitude| = 0 then none else some (latitude / |latitude| * maxAbsLat)
    else some latitude
  lat.map (fun lat => toUInt ⌊0.5 * (1 - gdInv lat / pi) * (maxTileY : K)⌋)

/-- The clamp of the specification: a latitude clamped to `[-85°, +85°]`, written from
the words of the specification for comparison with `lat2tileY`. -/
def clampedLatitude {K : Type} [LinearOrderedField K] (DEG2RAD latitude : K) : K :=
  max (-(85 * DEG2RAD)) (min (85 * DEG2RAD) latitude)

end VectorTileModel

/-! ## What the calls of `mapTexture` write -/

namespace MapperEvent

variable {G : Type}

/-- The columns of its row that a call writes on a mapper with stride `n`: `pixelValue`
writes the pixel `*scanLine`, `pixelValueApprox` writes the `n - 1` pixels from `scanLine`
on (its loops run for `j = 1, ..., n - 1` with `++scanLine`). -/
def columnsWritten (n : Int) : MapperEvent G → List Int
  | .pixelValue _ _ scanLine _ => [scanLine]
  | .pixelValueApprox _ _ _ scanLine _ => intRange scanLine (n - 1).toNat
  | _ => []

end MapperEvent

namespace SphericalScanlineTextureMapper

variable {G : Type}

/-- The stride `m_n` that `mapTexture` sets (lines 98 to 102 of the source). -/
def stride (m : SphericalScanlineTextureMapper G) (vp : ViewParams G) : Int :=
  if decide (vp.mapQuality = MapQuality.Print) then 1
  else if m.m_imageRadius < vp.radius * vp.radius then m.m_nBest else 8

/-- The mapper on which the loops of `mapTexture` run: `m_n` is set to the stride. -/
def strided (m : SphericalScanlineTextureMapper G) (vp : ViewParams G) :
    SphericalScanlineTextureMapper G :=
  { m with m_n := stride m vp }

/-- The flag `highQuality` of `mapTexture`. -/
def highQuality (vp : ViewParams G) : Bool :=
  decide (vp.mapQuality = MapQuality.High) || decide (vp.mapQuality = MapQuality.Print)

/-- The longitude and latitude that the column loop computes for column `x` of row `y`. -/
def pixelLonLat (m : SphericalScanlineTextureMapper G) (vp : ViewParams G) (x y : Int) : G :=
  vp.spherical (x - Int.tdiv m.m_imageWidth 2) (Int.tdiv m.m_imageHeight 2 - y)

/-- The test of the column loop at column `x`: the column lies in the interpolated range
and the pole test does not fire, so that the loop moves on to the next anchor. -/
def scanJump (m : SphericalScanlineTextureMapper G) (vp : ViewParams G) (sl : Scanline)
    (x ncount : Int) : Bool :=
  (decide (x ≥ sl.xIpLeft) && decide (x ≤ sl.xIpRight))
    && !(sl.crossingPoleArea
      && decide (Int.tdiv m.m_imageWidth 2 + vp.northPoleX ≥ sl.xIpLeft + ncount * m.m_n + m.m_n)
      && decide (Int.tdiv m.m_imageWidth 2 + vp.northPoleX
          < sl.xIpLeft + ncount * m.m_n + 2 * m.m_n)
      && decide (x < sl.xIpLeft + ncount * m.m_n + 3 * m.m_n))

/-- The invariant of the column loop at column `x` with counter `ncount`: the loop is left
of the interpolated range, or right of it, or at the start of the interval `ncount`, or
within three strides of that start while the pole test fires, or three strides behind the
start of its interval after the pole test has fired. -/
def ColumnInv (m : SphericalScanlineTextureMapper G) (vp : ViewParams G) (sl : Scanline)
    (x ncount : Int) : Prop :=
  (x < sl.xIpLeft ∧ ncount = 0) ∨ sl.xIpRight < x ∨
    (0 ≤ ncount ∧ x = sl.xIpLeft + ncount * m.m_n) ∨
    (0 ≤ ncount ∧ sl.crossingPoleArea = true ∧
      Int.tdiv m.m_imageWidth 2 + vp.northPoleX ≥ sl.xIpLeft + ncount * m.m_n + m.m_n ∧
      Int.tdiv m.m_imageWidth 2 + vp.northPoleX < sl.xIpLeft + ncount * m.m_n + 2 * m.m_n ∧
      sl.xIpLeft + ncount * m.m_n ≤ x ∧ x ≤ sl.xIpLeft + ncount * m.m_n + 3 * m.m_n) ∨
    (0 ≤ ncount ∧ x = sl.xIpLeft + ncount * m.m_n + 3 * m.m_n ∧
      Int.tdiv m.m_imageWidth 2 + vp.northPoleX < sl.xIpLeft + ncount * m.m_n + m.m_n)

end SphericalScanlineTextureMapper

/-! ## The smooth branch of `pixelValueApprox`

The branch `fabs( stepLon ) < M_PI`, `smooth` (lines 282 to 352 of the source).  Positions
are `qreal`, embedded as elements of an ordered field `K` (rounding is not modelled); a
colour `QRgb` is a value of a type `C`; `T` is the state of the base class and the tile
loader as far as the branch depends on it: the current tile `m_tile` and its offsets. -/

/-- What the smooth branch calls that is not among the sources: the tile size of the tile
loader, the offsets `m_toTileCoordinatesLon`, `m_toTileCoordinatesLat` of a tile state,
`nextTile( posX, posY )` as the tile state it leaves, `m_tile->pixel( x, y )`,
`m_tile->pixelF( x, y, colour )`, `rad2PixelX`, `rad2PixelY`, and `qRgb( 0, 0, 0 )`. -/
structure TileAccess (T K C : Type) where
  tileWidth : Int
  tileHeight : Int
  toTileCoordinatesLon : T → K
  toTileCoordinatesLat : T → K
  nextTile : T → K → K → T
  pixel : T → K → K → C
  pixelF : T → K → K → C → C
  rad2PixelX : K → K
  rad2PixelY : K → K
  black : C

/-- The variables of the loop of the smooth branch: the tile state, `itLon`, `itLat`,
`oldRgb`, `oldPosX`, `oldPosY`, the write position `scanLine` as a column index, and the
pixels of the row that is written. -/
structure SmoothState (T K C : Type) where
  tile : T
  itLon : K
  itLat : K
  oldRgb : C
  oldPosX : K
  oldPosY : K
  scanLine : Int
  canvas : Int → C

/-- What one pass of the loop of the smooth branch did: the pass number `j`, the tile state
before and after the test of the tile bounds, whether `nextTile` was called, the position
at which the tile was sampled, the column written, the raw sampled colour, `oldRgb` as it
was before the pass, whether the pixel was blended in this pass, and whether the pixel
before it was blended in this pass. -/
structure SmoothSample (T K C : Type) where
  j : Int
  tileBefore : T
  tile : T
  rebased : Bool
  posX : K
  posY : K
  scanLine : Int
  raw : C
  oldRgb : C
  blended : Bool
  blendedPrevious : Bool

namespace SphericalScanlineTextureMapper

/-- The assignment `*p = colour` for the pixel at column `i`. -/
def setPixel {C : Type} (canvas : Int → C) (i : Int) (colour : C) : Int → C :=
  fun x => if x = i then colour else canvas x

/-- The test `posX >= tileWidth || posX < 0.0 || posY >= tileHeight || posY < 0.0`: the
position lies outside the current tile. -/
def outsideTile {T K C : Type} [LinearOrderedField K] (A : TileAccess T K C) (posX posY : K) :
    Bool :=
  decide (posX ≥ (A.tileWidth : K)) || decide (posX < 0)
    || decide (posY ≥ (A.tileHeight : K)) || decide (posY < 0)

/-- One pass of the loop of the smooth branch (lines 312 to 350 of the source), for the
pass number `j`; `prevX`, `prevY` are `m_prevLon`, `m_prevLat` after their conversion to
pixel coordinates. -/
def smoothPass {T K C : Type} [LinearOrderedField K] [DecidableEq C] (A : TileAccess T K C)
    (prevX prevY itStepLon itStepLat : K) (j : Int) (s : SmoothState T K C) :
    SmoothState T K C × SmoothSample T K C :=
  let posX := s.itLon + itStepLon * (j : K)
  let posY := s.itLat + itStepLat * (j : K)
  let outside := outsideTile A posX posY
  let tile1 := if outside then A.nextTile s.tile posX posY else s.tile
  let itLon1 := if outside then prevX + A.toTileCoordinatesLon tile1 else s.itLon
  let itLat1 := if outside then prevY + A.toTileCoordinatesLat tile1 else s.itLat
  let posX1 := if outside then itLon1 + itStepLon * (j : K) else posX
  let posY1 := if outside then itLat1 + itStepLat * (j : K) else posY
  let oldPosX1 := if outside then -1 else s.oldPosX
  let raw := A.pixel tile1 posX1 posY1
  let canvas1 := setPixel s.canvas s.scanLine raw
  let blended := decide (canvas1 s.scanLine ≠ s.oldRgb)
  let blendedPrevious := blended && decide (oldPosX1 ≠ -1)
  let canvas2 := if blendedPrevious
    then setPixel canvas1 (s.scanLine - 1)
      (A.pixelF tile1 oldPosX1 s.oldPosY (canvas1 (s.scanLine - 1)))
    else canvas1
  let oldRgb1 := if blended then A.pixelF tile1 posX1 posY1 (canvas2 s.scanLine) else s.oldRgb
  let canvas3 := if blended then setPixel canvas2 s.scanLine oldRgb1 else canvas2
  ({ tile := tile1
     itLon := itLon1
     itLat := itLat1
     oldRgb := oldRgb1
     oldPosX := if blended then -1 else posX1
     oldPosY := if blended then s.oldPosY else posY1
     scanLine := s.scanLine + 1
     canvas := canvas3 },
   { j := j
     tileBefore := s.tile
     tile := tile1
     rebased := outside
     posX := posX1
     posY := posY1
     scanLine := s.scanLine
     raw := raw
     oldRgb := s.oldRgb
     blended := blended
     blendedPrevious := blendedPrevious })

/-- The loop `for ( int j = 1; j < jmax; ++j )` of the smooth branch with `passes` passes
left, the next being pass `j`: the state at the end and the passes made, in order. -/
def smoothLoop {T K C : Type} [LinearOrderedField K] [DecidableEq C] (A : TileAccess T K C)
    (prevX prevY itStepLon itStepLat : K) :
    Nat → Int → SmoothState T K C → SmoothState T K C × List (SmoothSample T K C)
  | 0, _, s => (s, [])
  | passes + 1, j, s =>
    let r := smoothPass A prevX prevY itStepLon itStepLat j s
    let r2 := smoothLoop A prevX prevY itStepLon itStepLat passes (j + 1) r.1
    (r2.1, r.2 :: r2.2)

/-- The smooth branch of `pixelValueApprox` for the stride `n = m_n`, the previous anchor
`(prevLon, prevLat)`, the anchor `(lon, lat)`, the tile state `tile`, the write position
`scanLine` and the row `canvas`: the state at the end and the passes made. -/
def pixelValueApproxSmooth {T K C : Type} [LinearOrderedField K] [DecidableEq C]
    (A : TileAccess T K C) (n : Int) (prevLon prevLat lon lat : K) (tile : T) (scanLine : Int)
    (canvas : Int → C) : SmoothState T K C × List (SmoothSample T K C) :=
  let prevX := A.rad2PixelX prevLon
  let prevY := A.rad2PixelY prevLat
  let nInverse := 1 / (n : K)
  let itStepLon := (A.rad2PixelX lon - prevX) * nInverse
  let itStepLat := (A.rad2PixelY lat - prevY) * nInverse
  smoothLoop A prevX prevY itStepLon itStepLat (n - 1).toNat 1
    { tile := tile
      itLon := prevX + A.toTileCoordinatesLon tile
      itLat := prevY + A.toTileCoordinatesLat tile
      oldRgb := A.black
      oldPosX := -1
      oldPosY := 0
      scanLine := scanLine
      canvas := canvas }

/-- A tile source for concrete runs over the rationals with one tile of 10 by 10 pixels:
the raw colour is 7 left of column 3 and 9 from there on, and blending adds 100 to a
colour at a position from column 2 on and changes nothing left of it. -/
def exampleTiles : TileAccess Unit ℚ Nat :=
  { tileWidth := 10
    tileHeight := 10
    toTileCoordinatesLon := fun _ => 0
    toTileCoordinatesLat := fun _ => 0
    nextTile := fun t _ _ => t
    pixel := fun _ x _ => if x < 3 then 7 else 9
    pixelF := fun _ x _ colour => if 2 ≤ x then colour + 100 else colour
    rad2PixelX := fun lon => lon
    rad2PixelY := fun lat => lat
    black := 0 }

end SphericalScanlineTextureMapper

namespace SphericalScanlineTextureMapper

/-- A tile source for concrete runs over the rationals with a row of tiles of 2 by 2 pixels:
tile `t` covers the global pixel columns `2 * t` and `2 * t + 1`, so its offset is
`-2 * t`; `nextTile` moves to the neighbour on the side on which the position left the
tile; a longitude of 1 is 4 pixels; the raw colour of a pixel is `10 * t` plus its local
column, and blending adds 100 to a colour. -/
def seamTiles : TileAccess Int ℚ ℚ :=
  { tileWidth := 2
    tileHeight := 2
    toTileCoordinatesLon := fun t => -2 * (t : ℚ)
    toTileCoordinatesLat := fun _ => 0
    nextTile := fun t posX _ => if posX ≥ 2 then t + 1 else t - 1
    pixel := fun t x _ => 10 * (t : ℚ) + x
    pixelF := fun _ _ _ colour => colour + 100
    rad2PixelX := fun lon => 4 * lon
    rad2PixelY := fun lat => lat
    black := 0 }

end SphericalScanlineTextureMapper

namespace VectorTileModel

variable {Box R : Type}

/-- The conversion `(int)( v )` of a `qreal` to `int`: the fraction is dropped, and the
behaviour is undefined, which is `none`, when the result is not a value of `int`. -/
def toInt {K : Type} [LinearOrderedField K] [FloorRing K] (v : K) : Option Int :=
  let t : Int := if 0 ≤ v then ⌊v⌋ else ⌈v⌉
  if -2147483648 ≤ t ∧ t ≤ 2147483647 then some t else none

/-- The value `levelZeroMinDimension` of `setViewport`: the smaller of the width and the
height of level zero in pixels. -/
def levelZeroMinDimension (L : Layer Box R) : Int :=
  let levelZeroWidth := L.tileWidth * L.levelZeroColumns
  let levelZeroHight := L.tileHeight * L.levelZeroRows
  min levelZeroWidth levelZeroHight

/-- Lines 79 to 88 of `setViewport`: the zoom level `(int)( tileLevelF * 1.00001 )` that is
stored in `m_tileZoomLevel`, for a radius and `levelZeroMinDimension`.  A `qreal` is an
element of an ordered field `K` (rounding is not modelled), the factor `1.00001` is
`100001 / 100000`, and `qLn`, the natural logarithm of Qt, is a parameter.  With
`levelZeroMinDimension` zero and a radius that is not negative the quotient is infinite or
not a number, and so is the value converted to `int`: that is `none`; with a negative
radius the quotient is below 1 and is replaced by 1, as every quotient below 1 is. -/
def zoomLevelOfRadius {K : Type} [LinearOrderedField K] [FloorRing K] (qLn : K → K)
    (radius levelZeroMinDimension : Int) : Option Int :=
  if levelZeroMinDimension = 0 ∧ 0 ≤ radius then none
  else
    let linearLevel : K := 4 * (radius : K) / (levelZeroMinDimension : K)
    let linearLevel : K := if linearLevel < 1 then 1 else linearLevel
    let tileLevelF := qLn linearLevel / qLn 2
    toInt (tileLevelF * (100001 / 100000))

end VectorTileModel

/-! ## Theorems -/

namespace SphericalScanlineTextureMapper

variable {G : Type}

theorem resizeMapStep_eval (W : Int) (hW : 1 ≤ W) (st : Int × Int) (it : Nat) :
    resizeMapStep W st it =
      if (W - 1) / (it : Int) + (W - 1) % (it : Int) < st.1
      then ((W - 1) / (it : Int) + (W - 1) % (it : Int), (it : Int)) else st := by
  have h0 : (0 : Int) ≤ W - 1 := by omega
  have hi : (0 : Int) ≤ (it : Int) := Int.ofNat_nonneg it
  simp only [resizeMapStep, Int.tdiv_eq_ediv h0 hi, Int.tmod_eq_emod h0 hi]

theorem strideInv_foldl (W : Int) (hW : 1 ≤ W) (l : List Nat) :
    ∀ (seen : Nat → Prop) (st : Int × Int), (∀ it ∈ l, 1 ≤ it ∧ it ≤ 47) →
      StrideInv (W - 1) seen st →
      StrideInv (W - 1) (fun it => seen it ∨ it ∈ l) (l.foldl (resizeMapStep W) st) := by
  induction l with
  | nil =>
    intro seen st _ h
    simpa [StrideInv] using h
  | cons a l ih =>
    intro seen st hl h
    have ha : 1 ≤ a ∧ a ≤ 47 := hl a (List.mem_cons_self a l)
    have hrest : ∀ it ∈ l, 1 ≤ it ∧ it ≤ 47 := fun it hit => hl it (List.mem_cons_of_mem a hit)
    have hstep : StrideInv (W - 1) (fun it => seen it ∨ it = a) (resizeMapStep W st a) := by
      obtain ⟨h1, h2, h3, h4, h5⟩ := h
      rw [resizeMapStep_eval W hW]
      by_cases hlt : (W - 1) / (a : Int) + (W - 1) % (a : Int) < st.1
      · rw [if_pos hlt]
        refine ⟨by simp only; omega, ?_, by simp only; omega, by simp only; omega, Or.inl rfl⟩
        intro it hit
        rcases hit with hit | rfl
        · have := h2 it hit
          simp only
          omega
        · exact le_refl _
      · rw [if_neg hlt]
        refine ⟨h1, ?_, h3, h4, h5⟩
        intro it hit
        rcases hit with hit | rfl
        · exact h2 it hit
        · omega
    have := ih (fun it => seen it ∨ it = a) (resizeMapStep W st a) hrest hstep
    simp only [List.foldl_cons]
    refine ⟨this.1, ?_, this.2.2⟩
    intro it hit
    apply this.2.1
    rcases hit with hit | hit
    · exact Or.inl (Or.inl hit)
    · rcases List.mem_cons.mp hit with rfl | hit
      · exact Or.inl (Or.inr rfl)
      · exact Or.inr hit

set_option maxRecDepth 100000 in
theorem resizeMap_scan_361 :
    ((List.range' 1 47).foldl (resizeMapStep 361) (361 - 1, 2)).2 = 45 := by
  decide

/-- C1: for every canvas width `W ≥ 1`, the stride `m_nBest` stored by `resizeMap` lies in
1..47 and minimises `((W-1) mod it) + ((W-1) div it)` over all `it` in 1..47; for
`W = 361` the stored stride is 45. -/
theorem resizeMap_nBest_minimises (m : SphericalScanlineTextureMapper G)
    (W H imageRadius : Int) (hW : 1 ≤ W) :
    1 ≤ (resizeMap m W H imageRadius).m_nBest ∧ (resizeMap m W H imageRadius).m_nBest ≤ 47 ∧
    (∀ it : Int, 1 ≤ it → it ≤ 47 →
      (W - 1) % (resizeMap m W H imageRadius).m_nBest
          + (W - 1) / (resizeMap m W H imageRadius).m_nBest
        ≤ (W - 1) % it + (W - 1) / it) ∧
    (resizeMap m 361 H imageRadius).m_nBest = 45 ∧
    (∀ it : Int, 1 ≤ it → it ≤ 47 → (360 : Int) % 45 + 360 / 45 ≤ 360 % it + 360 / it) := by
  have hinit : StrideInv (W - 1) (fun _ => False) (W - 1, 2) :=
    ⟨le_refl _, fun _ h => h.elim, by norm_num, by norm_num, Or.inr ⟨rfl, rfl⟩⟩
  have hmem : ∀ it ∈ List.range' 1 47, 1 ≤ it ∧ it ≤ 47 := by
    intro it hit
    rw [List.mem_range'_1] at hit
    omega
  have hinv := strideInv_foldl W hW (List.range' 1 47) (fun _ => False) (W - 1, 2) hmem hinit
  obtain ⟨h1, h2, h3, h4, h5⟩ := hinv
  have hbest : ∀ w : Int, (resizeMap m w H imageRadius).m_nBest
      = ((List.range' 1 47).foldl (resizeMapStep w) (w - 1, 2)).2 := by
    intro w
    simp only [resizeMap, resizeMapBase]
  rw [hbest W, hbest 361]
  set st := (List.range' 1 47).foldl (resizeMapStep W) (W - 1, 2) with hst
  have hall : ∀ it : Int, 1 ≤ it → it ≤ 47 → st.1 ≤ (W - 1) / it + (W - 1) % it := by
    intro it hlo hhi
    have hnat : ((it.toNat : Nat) : Int) = it := Int.toNat_of_nonneg (by omega)
    have := h2 it.toNat (Or.inr (by rw [List.mem_range'_1]; omega))
    rwa [hnat] at this
  have hattain : (W - 1) / st.2 + (W - 1) % st.2 = st.1 := by
    rcases h5 with h5 | ⟨h5, h6⟩
    · exact h5
    · have h2' := hall 2 (by norm_num) (by norm_num)
      rw [h5, h6] at *
      omega
  refine ⟨h3, h4, ?_, ?_, ?_⟩
  · intro it hlo hhi
    have := hall it hlo hhi
    omega
  · exact resizeMap_scan_361
  · intro it hlo hhi
    interval_cases it <;> decide

/-- C1 at the canvas width 361 of the spec's example. -/
theorem resizeMap_nBest_minimises_witness :
    (1 : Int) ≤ 361 ∧
    (resizeMap (@construct Unit ⟨0, 0, 0, false, none⟩) 361 181 0).m_nBest = 45 :=
  ⟨by decide,
    (resizeMap_nBest_minimises (@construct Unit ⟨0, 0, 0, false, none⟩) 361 181 0
      (by decide)).2.2.2.1⟩

theorem intRange_zero (lo : Int) : intRange lo 0 = [] := rfl

theorem intRange_succ (lo : Int) (len : Nat) :
    intRange lo (len + 1) = lo :: intRange (lo + 1) len := by
  simp only [intRange, List.range_succ_eq_map, List.map_cons, List.map_map]
  congr 1
  · simp
  · apply List.map_congr_left
    intro i _
    simp only [Function.comp, Nat.succ_eq_add_one, Int.ofNat_eq_coe, Nat.cast_add, Nat.cast_one]
    omega

theorem mem_intRange (lo : Int) (len : Nat) (x : Int) :
    x ∈ intRange lo len ↔ lo ≤ x ∧ x < lo + (len : Int) := by
  simp only [intRange, List.mem_map, List.mem_range, Int.ofNat_eq_coe]
  constructor
  · rintro ⟨i, hi, rfl⟩
    omega
  · intro h
    exact ⟨(x - lo).toNat, by omega, by omega⟩

/-- In a concatenation of lists indexed by a range, a filter that rejects everything
outside index `a` keeps exactly what it keeps of the list at `a`. -/
theorem filter_flatMap_intRange {α : Type} (q : α → Bool) (f : Int → List α) (a : Int)
    (hq : ∀ b, b ≠ a → (f b).filter q = []) :
    ∀ (len : Nat) (lo : Int), lo ≤ a → a < lo + (len : Int) →
      ((intRange lo len).flatMap f).filter q = (f a).filter q := by
  have hout : ∀ (len : Nat) (lo : Int), a < lo → ((intRange lo len).flatMap f).filter q = [] := by
    intro len
    induction len with
    | zero => intro lo _; simp [intRange_zero]
    | succ k ih =>
      intro lo hlo
      rw [intRange_succ, List.flatMap_cons, List.filter_append, hq lo (by omega),
        ih (lo + 1) (by omega)]
      rfl
  intro len
  induction len with
  | zero => intro lo h1 h2; simp at h2; omega
  | succ k ih =>
    intro lo h1 h2
    rw [intRange_succ, List.flatMap_cons, List.filter_append]
    by_cases hlo : lo = a
    · subst hlo
      rw [hout k (lo + 1) (by omega), List.append_nil]
    · rw [hq lo hlo, List.nil_append]
      exact ih (lo + 1) (by omega) (by push_cast at h2 ⊢; omega)

/-- With stride 1 and print quality the column loop computes every column exactly. -/
theorem scanColumns_print (m : SphericalScanlineTextureMapper G) (vp : ViewParams G) (y : Int)
    (sl : Scanline) (hn : m.m_n = 1) (hq : vp.mapQuality = MapQuality.Print) :
    ∀ (fuel : Nat) (x ncount : Int) (interpolate : Bool) (prev : Option G),
      (sl.xRight - x).toNat ≤ fuel →
      ∃ i p, scanColumns m vp y sl fuel x ncount x interpolate prev =
        some ((intRange x (sl.xRight - x).toNat).flatMap
          (fun x => if x < m.m_imageWidth
            then [MapperEvent.pixelValue
              (vp.spherical (x - Int.tdiv m.m_imageWidth 2) (Int.tdiv m.m_imageHeight 2 - y))
              y x true]
            else []), i, p) := by
  intro fuel
  induction fuel with
  | zero =>
    intro x ncount interpolate prev hfuel
    have hx : ¬ x < sl.xRight := by omega
    have h0 : (sl.xRight - x).toNat = 0 := by omega
    refine ⟨interpolate, prev, ?_⟩
    simp only [scanColumns, if_neg hx, h0, intRange_zero, List.flatMap_nil]
  | succ k ih =>
    intro x ncount interpolate prev hfuel
    by_cases hx : x < sl.xRight
    · obtain ⟨len, hlen⟩ : ∃ len, (sl.xRight - x).toNat = len + 1 :=
        ⟨(sl.xRight - x).toNat - 1, by omega⟩
      have hlen1 : (sl.xRight - (x + 1)).toNat = len := by omega
      have hstep : ∀ b : Bool, (if b = true then x + ((1 : Int) - 1) else x) = x := by
        intro b; cases b <;> simp
      simp only [scanColumns, if_pos hx, hn, hq, hstep, decide_True, Bool.not_true,
        Bool.or_true, ite_self, Bool.false_eq_true, if_false, List.nil_append]
      obtain ⟨i, p, hrec⟩ := ih (x + 1) (if (decide (x ≥ sl.xIpLeft) && decide (x ≤ sl.xIpRight) &&
        !(sl.crossingPoleArea && decide (Int.tdiv m.m_imageWidth 2 + vp.northPoleX
              ≥ sl.xIpLeft + ncount * 1 + 1)
          && decide (Int.tdiv m.m_imageWidth 2 + vp.northPoleX < sl.xIpLeft + ncount * 1 + 2 * 1)
          && decide (x < sl.xIpLeft + ncount * 1 + 3 * 1))) = true then ncount + 1 else ncount)
        false (some (vp.spherical (x - Int.tdiv m.m_imageWidth 2)
          (Int.tdiv m.m_imageHeight 2 - y))) (by omega)
      refine ⟨i, p, ?_⟩
      rw [hrec, hlen, hlen1, intRange_succ, List.flatMap_cons]
    · have h0 : (sl.xRight - x).toNat = 0 := by omega
      refine ⟨interpolate, prev, ?_⟩
      simp only [scanColumns, if_neg hx, h0, intRange_zero, List.flatMap_nil]

/-- With stride 1, print quality and no interlacing the row loop computes every scanline
exactly. -/
theorem scanRows_print (m : SphericalScanlineTextureMapper G) (vp : ViewParams G)
    (yBottom : Int) (hn : m.m_n = 1) (hq : vp.mapQuality = MapQuality.Print) :
    ∀ (fuel : Nat) (y : Int) (interpolate : Bool) (prev : Option G),
      (yBottom - y).toNat ≤ fuel →
      ∃ i p, scanRows m vp yBottom false fuel y interpolate prev =
        some ((intRange y (yBottom - y).toNat).flatMap (exactScanline m vp), i, p) := by
  intro fuel
  induction fuel with
  | zero =>
    intro y interpolate prev hfuel
    have hy : ¬ y < yBottom := by omega
    have h0 : (yBottom - y).toNat = 0 := by omega
    refine ⟨interpolate, prev, ?_⟩
    simp only [scanRows, if_neg hy, h0, intRange_zero, List.flatMap_nil]
  | succ k ih =>
    intro y interpolate prev hfuel
    by_cases hy : y < yBottom
    · obtain ⟨len, hlen⟩ : ∃ len, (yBottom - y).toNat = len + 1 :=
        ⟨(yBottom - y).toNat - 1, by omega⟩
      have hlen1 : (yBottom - (y + 1)).toNat = len := by omega
      obtain ⟨i1, p1, hcols⟩ := scanColumns_print m vp y (scanline m vp y) hn hq
        ((scanline m vp y).xRight - (scanline m vp y).xLeft).toNat (scanline m vp y).xLeft 0
        interpolate prev (le_refl _)
      obtain ⟨i2, p2, hrec⟩ := ih (y + 1) i1 p1 (by omega)
      refine ⟨i2, p2, ?_⟩
      simp only [scanRows, if_pos hy, hcols, Bool.false_and, Bool.false_eq_true, if_false,
        hrec, List.append_nil, hlen, intRange_succ, List.flatMap_cons, hlen1]
      rfl
    · have h0 : (yBottom - y).toNat = 0 := by omega
      refine ⟨interpolate, prev, ?_⟩
      simp only [scanRows, if_neg hy, h0, intRange_zero, List.flatMap_nil]

/-- The exact image does not depend on the stride stored in the mapper. -/
theorem exactImage_stride (m : SphericalScanlineTextureMapper G) (vp : ViewParams G) (n : Int) :
    exactImage { m with m_n := n } vp = exactImage m vp := rfl

/-- In print quality `mapTexture` returns, with stride 1, and its calls are the tile hash
reset, the level selection, the exact image and the tile hash clean-up. -/
theorem mapTexture_print_trace (m : SphericalScanlineTextureMapper G) (vp : ViewParams G)
    (hq : vp.mapQuality = MapQuality.Print) (hi : m.m_interlaced = false) :
    ∃ m1, mapTexture m vp = some (m1,
        [MapperEvent.resetTilehash, MapperEvent.selectTileLevel] ++ exactImage m vp
          ++ [MapperEvent.cleanupTilehash]) ∧ m1.m_n = 1 := by
  obtain ⟨i, p, hrows⟩ := scanRows_print { m with m_n := 1 } vp
    (yRange { m with m_n := 1 } vp.radius).2 rfl hq
    ((yRange { m with m_n := 1 } vp.radius).2 - (yRange { m with m_n := 1 } vp.radius).1).toNat
    (yRange { m with m_n := 1 } vp.radius).1 m.m_interpolate m.m_prev (le_refl _)
  refine ⟨{ m with m_n := 1, m_interpolate := i, m_prev := p }, ?_, rfl⟩
  have hlow : decide (MapQuality.Print = MapQuality.Low) = false := by decide
  simp only [mapTexture, hq, decide_True, if_true, one_ne_zero, if_false, hi, Bool.false_or,
    hlow, hrows]
  exact rfl

theorem exactScanline_mem (m : SphericalScanlineTextureMapper G) (vp : ViewParams G) (y : Int)
    (e : MapperEvent G) (he : e ∈ exactScanline m vp y) :
    ∃ x, e = MapperEvent.pixelValue
      (vp.spherical (x - Int.tdiv m.m_imageWidth 2) (Int.tdiv m.m_imageHeight 2 - y)) y x true := by
  simp only [exactScanline, List.mem_flatMap] at he
  obtain ⟨x, _, hx⟩ := he
  by_cases hw : x < m.m_imageWidth
  · rw [if_pos hw, List.mem_singleton] at hx
    exact ⟨x, hx⟩
  · rw [if_neg hw] at hx
    exact absurd hx (List.not_mem_nil e)

/-- The exact scanline `y` writes the pixel `(x, y)` exactly once when `x` lies in its
x-range and on the canvas, and no scanline writes a pixel of another row. -/
theorem exactScanline_filter (m : SphericalScanlineTextureMapper G) (vp : ViewParams G)
    (x y b : Int) :
    (exactScanline m vp b).filter (MapperEvent.writesExact x y) =
      if b = y ∧ (scanline m vp y).xLeft ≤ x ∧ x < (scanline m vp y).xRight ∧ x < m.m_imageWidth
      then [MapperEvent.pixelValue
        (vp.spherical (x - Int.tdiv m.m_imageWidth 2) (Int.tdiv m.m_imageHeight 2 - y)) y x true]
      else [] := by
  by_cases hb : b = y
  · subst hb
    by_cases hin : (scanline m vp b).xLeft ≤ x ∧ x < (scanline m vp b).xRight
    · have hcol := filter_flatMap_intRange (MapperEvent.writesExact x b)
        (fun x1 => if x1 < m.m_imageWidth
          then [MapperEvent.pixelValue
            (vp.spherical (x1 - Int.tdiv m.m_imageWidth 2) (Int.tdiv m.m_imageHeight 2 - b))
            b x1 true]
          else []) x
        (by
          intro c hc
          by_cases hw : c < m.m_imageWidth
          · simp [hw, MapperEvent.writesExact, hc]
          · simp [hw])
        ((scanline m vp b).xRight - (scanline m vp b).xLeft).toNat (scanline m vp b).xLeft
        hin.1 (by omega)
      simp only [exactScanline]
      rw [hcol]
      by_cases hw : x < m.m_imageWidth
      · simp [hw, hin.1, hin.2, MapperEvent.writesExact]
      · simp [hw]
    · have hnone : (exactScanline m vp b).filter (MapperEvent.writesExact x b) = [] := by
        rw [List.filter_eq_nil_iff]
        intro e he
        simp only [exactScanline, List.mem_flatMap, mem_intRange] at he
        obtain ⟨c, hc, hec⟩ := he
        by_cases hw : c < m.m_imageWidth
        · rw [if_pos hw, List.mem_singleton] at hec
          subst hec
          have hcx : c ≠ x := by
            intro h
            subst h
            exact hin ⟨hc.1, by omega⟩
          simp [MapperEvent.writesExact, hcx]
        · rw [if_neg hw] at hec
          exact absurd hec (List.not_mem_nil e)
      rw [hnone, if_neg]
      intro h
      exact hin ⟨h.2.1, h.2.2.1⟩
  · have hnone : (exactScanline m vp b).filter (MapperEvent.writesExact x y) = [] := by
      rw [List.filter_eq_nil_iff]
      intro e he
      obtain ⟨c, rfl⟩ := exactScanline_mem m vp b e he
      simp [MapperEvent.writesExact, hb]
    rw [hnone, if_neg]
    intro h
    exact hb h.1

/-- With stride 1 and print quality the row loop returns and never calls
`pixelValueApprox`, interlaced or not. -/
theorem scanRows_print_calls (m : SphericalScanlineTextureMapper G) (vp : ViewParams G)
    (yBottom : Int) (interlaced : Bool) (hn : m.m_n = 1)
    (hq : vp.mapQuality = MapQuality.Print) :
    ∀ (fuel : Nat) (y : Int) (interpolate : Bool) (prev : Option G),
      (yBottom - y).toNat ≤ fuel →
      ∃ events i p, scanRows m vp yBottom interlaced fuel y interpolate prev
          = some (events, i, p) ∧ ∀ e ∈ events, e.isApprox = false := by
  intro fuel
  induction fuel with
  | zero =>
    intro y interpolate prev hfuel
    have hy : ¬ y < yBottom := by omega
    refine ⟨[], interpolate, prev, ?_, fun e he => absurd he (List.not_mem_nil e)⟩
    simp only [scanRows, if_neg hy]
  | succ k ih =>
    intro y interpolate prev hfuel
    by_cases hy : y < yBottom
    · obtain ⟨i1, p1, hcols⟩ := scanColumns_print m vp y (scanline m vp y) hn hq
        ((scanline m vp y).xRight - (scanline m vp y).xLeft).toNat (scanline m vp y).xLeft 0
        interpolate prev (le_refl _)
      obtain ⟨events2, i2, p2, hrec, hno⟩ := ih
        ((if (interlaced && decide (y + 1 < yBottom)) = true then y + 1 else y) + 1) i1 p1
        (by split <;> omega)
      refine ⟨exactScanline m vp y
        ++ (if (interlaced && decide (y + 1 < yBottom)) = true
          then [MapperEvent.copyScanline y (scanline m vp y).xLeft (scanline m vp y).xRight]
          else [])
        ++ events2, i2, p2, ?_, ?_⟩
      · simp only [scanRows, if_pos hy, hcols, hrec]
        rfl
      · intro e he
        rcases List.mem_append.mp he with he | he
        · rcases List.mem_append.mp he with he | he
          · obtain ⟨c, rfl⟩ := exactScanline_mem m vp y e he
            rfl
          · by_cases hcopy : (interlaced && decide (y + 1 < yBottom)) = true
            · rw [if_pos hcopy, List.mem_singleton] at he
              rw [he]
              rfl
            · rw [if_neg hcopy] at he
              exact absurd he (List.not_mem_nil e)
        · exact hno e he
    · refine ⟨[], interpolate, prev, ?_, fun e he => absurd he (List.not_mem_nil e)⟩
      simp only [scanRows, if_neg hy]

/-- In print quality `mapTexture` returns with stride 1 and never calls
`pixelValueApprox`, interlaced or not. -/
theorem mapTexture_print_calls (m : SphericalScanlineTextureMapper G) (vp : ViewParams G)
    (hq : vp.mapQuality = MapQuality.Print) :
    ∃ m1 events, mapTexture m vp = some (m1, events) ∧ m1.m_n = 1 ∧
      ∀ e ∈ events, e.isApprox = false := by
  obtain ⟨events, i, p, hrows, hno⟩ := scanRows_print_calls { m with m_n := 1 } vp
    (yRange { m with m_n := 1 } vp.radius).2
    (m.m_interlaced || decide (vp.mapQuality = MapQuality.Low)) rfl hq
    ((yRange { m with m_n := 1 } vp.radius).2 - (yRange { m with m_n := 1 } vp.radius).1).toNat
    (yRange { m with m_n := 1 } vp.radius).1 m.m_interpolate m.m_prev (le_refl _)
  refine ⟨{ m with m_n := 1, m_interpolate := i, m_prev := p },
    [MapperEvent.resetTilehash, MapperEvent.selectTileLevel] ++ events
      ++ [MapperEvent.cleanupTilehash], ?_, rfl, ?_⟩
  · simp only [mapTexture, hq, decide_True, if_true, one_ne_zero, if_false]
    simp only [hq] at hrows
    rw [hrows]
  · intro e he
    simp only [List.mem_append, List.mem_cons, List.mem_singleton, List.not_mem_nil,
      or_false] at he
    rcases he with ((rfl | rfl) | he) | rfl
    · rfl
    · rfl
    · exact hno e he
    · rfl

/-- C2: with map quality Print, for every canvas size, radius `≥ 1` and orientation,
`mapTexture` returns with stride `m_n = 1` and never interpolates: `pixelValueApprox` is not
called.  On a mapper that is not interlaced (as the constructor leaves it) its calls are
exactly those of the exact per-pixel computation between the tile hash reset and clean-up,
so every pixel `(x, y)` with `yTop ≤ y < yBottom`, `xLeft(y) ≤ x < xRight(y)` and `x` below
the image width is written by exactly one `pixelValue` call, at column `x` of row `y`, with
the longitude and latitude computed from `(x, y)`. -/
theorem mapTexture_print_exact (m : SphericalScanlineTextureMapper G) (vp : ViewParams G)
    (hq : vp.mapQuality = MapQuality.Print) (_hr : 1 ≤ vp.radius) :
    ∃ m1 events, mapTexture m vp = some (m1, events) ∧ m1.m_n = 1 ∧
      (∀ e ∈ events, e.isApprox = false) ∧
      (m.m_interlaced = false →
        events = [MapperEvent.resetTilehash, MapperEvent.selectTileLevel] ++ exactImage m vp
          ++ [MapperEvent.cleanupTilehash] ∧
        ∀ x y : Int, (yRange m vp.radius).1 ≤ y → y < (yRange m vp.radius).2 →
          (scanline m vp y).xLeft ≤ x → x < (scanline m vp y).xRight → x < m.m_imageWidth →
          events.filter (MapperEvent.writesExact x y) =
            [MapperEvent.pixelValue
              (vp.spherical (x - Int.tdiv m.m_imageWidth 2) (Int.tdiv m.m_imageHeight 2 - y))
              y x true]) := by
  obtain ⟨m1, events, hret, hn, hno⟩ := mapTexture_print_calls m vp hq
  refine ⟨m1, events, hret, hn, hno, ?_⟩
  intro hi
  obtain ⟨m2, htrace, _⟩ := mapTexture_print_trace m vp hq hi
  have hev : events = [MapperEvent.resetTilehash, MapperEvent.selectTileLevel]
      ++ exactImage m vp ++ [MapperEvent.cleanupTilehash] := by
    rw [hret] at htrace
    exact congrArg Prod.snd (Option.some.inj htrace)
  refine ⟨hev, ?_⟩
  intro x y hy1 hy2 hx1 hx2 hw
  have hrows := filter_flatMap_intRange (MapperEvent.writesExact x y) (exactScanline m vp) y
    (by
      intro b hb
      rw [exactScanline_filter, if_neg]
      intro h
      exact hb h.1)
    ((yRange m vp.radius).2 - (yRange m vp.radius).1).toNat (yRange m vp.radius).1 hy1
    (by omega)
  rw [hev]
  simp only [List.filter_append, exactImage, hrows, exactScanline_filter]
  simp [MapperEvent.writesExact, hx1, hx2, hw]

theorem mapTexture_print_exact_witness :
    ∃ m1 events, mapTexture exampleMapper exampleView = some (m1, events) ∧ m1.m_n = 1 ∧
      (∀ e ∈ events, e.isApprox = false) ∧
      events = [MapperEvent.resetTilehash, MapperEvent.selectTileLevel]
        ++ exactImage exampleMapper exampleView ++ [MapperEvent.cleanupTilehash] :=
  match mapTexture_print_exact exampleMapper exampleView rfl (by decide) with
  | ⟨m1, events, h1, h2, h3, h4⟩ => ⟨m1, events, h1, h2, h3, (h4 rfl).1⟩

end SphericalScanlineTextureMapper

namespace VectorTileModel

variable {Box R : Type}

/-! ### The eviction loop -/

theorem eraseOutOfView_kept (L : Layer Box R) (ext : Box)
    (entries : List (TileId × CacheDocument Box)) :
    (eraseOutOfView L ext entries).1
      = entries.filter (fun e => L.intersects ext e.2.m_boundingBox) := by
  induction entries with
  | nil => rfl
  | cons e rest ih =>
    cases h : L.intersects ext e.2.m_boundingBox
    · simp only [eraseOutOfView, h, Bool.not_false, if_true, ih, List.filter_cons,
        Bool.false_eq_true, if_false]
    · simp only [eraseOutOfView, h, Bool.not_true, Bool.false_eq_true, if_false, ih,
        List.filter_cons, if_true]

theorem eraseOutOfView_erased (L : Layer Box R) (ext : Box)
    (entries : List (TileId × CacheDocument Box)) :
    (eraseOutOfView L ext entries).2
      = entries.filter (fun e => !L.intersects ext e.2.m_boundingBox) := by
  induction entries with
  | nil => rfl
  | cons e rest ih =>
    cases h : L.intersects ext e.2.m_boundingBox
    · simp only [eraseOutOfView, h, Bool.not_false, if_true, ih, List.filter_cons]
    · simp only [eraseOutOfView, h, Bool.not_true, Bool.false_eq_true, if_false, ih,
        List.filter_cons]

/-- C3: for every cache state and every box, after `removeTilesOutOfView( box )` the cache
consists of exactly the previously cached entries whose bounding box intersects
`box.scaled( 2, 2 )`, unaltered and in their order: every remaining entry intersects the
scaled box, no entry that fails to intersect it remains, and no intersecting entry is
evicted. -/
theorem removeTilesOutOfView_cache (L : Layer Box R) (s : VectorTileModel Box) (box : Box) :
    (removeTilesOutOfView L s box).m_documents
        = s.m_documents.filter (fun e => L.intersects (L.scaled box) e.2.m_boundingBox) ∧
    (∀ e ∈ (removeTilesOutOfView L s box).m_documents,
        e ∈ s.m_documents ∧ L.intersects (L.scaled box) e.2.m_boundingBox = true) ∧
    (∀ e ∈ s.m_documents, L.intersects (L.scaled box) e.2.m_boundingBox = false →
        e ∉ (removeTilesOutOfView L s box).m_documents) ∧
    (∀ e ∈ s.m_documents, L.intersects (L.scaled box) e.2.m_boundingBox = true →
        e ∈ (removeTilesOutOfView L s box).m_documents) := by
  have hkept : (removeTilesOutOfView L s box).m_documents
      = s.m_documents.filter (fun e => L.intersects (L.scaled box) e.2.m_boundingBox) :=
    eraseOutOfView_kept L (L.scaled box) s.m_documents
  refine ⟨hkept, ?_, ?_, ?_⟩
  · intro e he
    rw [hkept, List.mem_filter] at he
    exact he
  · intro e _ hout hin
    rw [hkept, List.mem_filter] at hin
    rw [hout] at hin
    exact Bool.false_ne_true hin.2
  · intro e he hin
    rw [hkept, List.mem_filter]
    exact ⟨he, hin⟩

/-! ### Delivery of a loaded tile -/

/-- C5: for every state, `updateTile( id, document )` with a null document, or with a
document while `id.zoomLevel()` differs from `m_tileLoadLevel`, discards the result: the
cache, the garbage queue, the deferred-invalidation flag, both levels and the jobs of the
pool are unchanged, nothing is emitted (no `tileAdded`), and the only change of the model
is that `id` is removed from the pending list; a stale document is freed, a null one has
nothing to free. -/
theorem updateTile_discards (L : Layer Box R) (s : VectorTileModel Box) (id : TileId)
    (document : Option GeoDataDocument)
    (h : document = none ∨ id.zoomLevel ≠ s.m_tileLoadLevel) :
    (updateTile L s id document).m_documents = s.m_documents ∧
    (updateTile L s id document).m_garbageQueue = s.m_garbageQueue ∧
    (updateTile L s id document).m_deleteDocumentsLater = s.m_deleteDocumentsLater ∧
    (updateTile L s id document).m_tileLoadLevel = s.m_tileLoadLevel ∧
    (updateTile L s id document).m_tileZoomLevel = s.m_tileZoomLevel ∧
    (updateTile L s id document).m_threadPool = s.m_threadPool ∧
    (updateTile L s id document).emitted = s.emitted ∧
    (updateTile L s id document).m_pendingDocuments
      = s.m_pendingDocuments.filter (fun t => decide (t ≠ id)) ∧
    id ∉ (updateTile L s id document).m_pendingDocuments ∧
    (updateTile L s id document).deleted = s.deleted ++ document.toList := by
  cases document with
  | none =>
    refine ⟨rfl, rfl, rfl, rfl, rfl, rfl, rfl, rfl, ?_, ?_⟩
    · simp [updateTile, List.mem_filter]
    · simp [updateTile]
  | some d =>
    have hne : s.m_tileLoadLevel ≠ id.zoomLevel := by
      rcases h with h | h
      · cases h
      · exact fun e => h e.symm
    simp only [updateTile, if_pos hne, Option.toList, List.mem_filter, decide_eq_true_eq,
      ne_eq, not_true_eq_false, and_false, not_false_eq_true, and_self]

theorem updateTile_discards_witness :
    (updateTile exampleLayer construct ⟨2, 1, 0⟩ (some 7)).m_documents = [] ∧
    (updateTile exampleLayer construct ⟨2, 1, 0⟩ (some 7)).deleted = [7] :=
  ⟨(updateTile_discards exampleLayer construct ⟨2, 1, 0⟩ (some 7) (Or.inr (by decide))).1,
    (updateTile_discards exampleLayer construct ⟨2, 1, 0⟩ (some 7)
      (Or.inr (by decide))).2.2.2.2.2.2.2.2.2⟩

/-- The shape of the state after `updateTile` has accepted a document. -/
theorem updateTile_accept_shape (L : Layer Box R) (s : VectorTileModel Box) (id : TileId)
    (d : GeoDataDocument) (h : id.zoomLevel = s.m_tileLoadLevel) :
    ∃ docs dropped : List (TileId × CacheDocument Box),
      (updateTile L s id (some d)).m_documents
        = docs.filter (fun e => decide (e.1 ≠ id))
          ++ [(id, { m_document := d, m_boundingBox := L.toLatLonBox id })] ∧
      (docs = s.m_documents ∨ docs = []) ∧
      (s.m_deleteDocumentsLater = true → docs = []) ∧
      (∀ e ∈ dropped, e ∈ s.m_documents) ∧
      (updateTile L s id (some d)).emitted
        = s.emitted ++ removeTile dropped ++ [Signal.tileAdded d] ∧
      (updateTile L s id (some d)).m_garbageQueue = s.m_garbageQueue ++ [d] ∧
      (updateTile L s id (some d)).m_pendingDocuments
        = s.m_pendingDocuments.filter (fun t => decide (t ≠ id)) ∧
      (updateTile L s id (some d)).deleted = s.deleted ∧
      (updateTile L s id (some d)).m_deleteDocumentsLater = false ∧
      (updateTile L s id (some d)).m_tileLoadLevel = s.m_tileLoadLevel ∧
      (updateTile L s id (some d)).m_tileZoomLevel = s.m_tileZoomLevel ∧
      (updateTile L s id (some d)).m_threadPool = s.m_threadPool := by
  have hne : ¬ s.m_tileLoadLevel ≠ id.zoomLevel := fun hc => hc h.symm
  have hff : ∀ l : List (TileId × CacheDocument Box),
      (l.filter (fun e => decide (e.1 ≠ id))).filter (fun e => decide (e.1 = id)) = [] := by
    intro l
    rw [List.filter_eq_nil_iff]
    intro e he
    rw [List.mem_filter] at he
    simpa using he.2
  cases hc : containsDocument s.m_documents id <;> cases hf : s.m_deleteDocumentsLater
  · refine ⟨s.m_documents, s.m_documents.filter (fun e => decide (e.1 = id)), ?_, Or.inl rfl,
      by simp, fun e he => (List.mem_filter.mp he).1, ?_, ?_, ?_, ?_, ?_, ?_, ?_, ?_⟩ <;>
    simp [updateTile, hne, hc, hf, clear]
  · refine ⟨[], s.m_documents, ?_, Or.inr rfl, fun _ => rfl, fun e he => he,
      ?_, ?_, ?_, ?_, ?_, ?_, ?_, ?_⟩ <;>
    simp [updateTile, hne, hc, hf, clear, removeTile]
  · refine ⟨s.m_documents, s.m_documents.filter (fun e => decide (e.1 = id)), ?_, Or.inl rfl,
      by simp, fun e he => (List.mem_filter.mp he).1, ?_, ?_, ?_, ?_, ?_, ?_, ?_, ?_⟩ <;>
    simp [updateTile, hne, hc, hf, clear, removeTile, hff, List.filter_filter]
  · refine ⟨[], s.m_documents.filter (fun e => decide (e.1 = id))
        ++ s.m_documents.filter (fun e => decide (e.1 ≠ id)), ?_, Or.inr rfl, fun _ => rfl,
      ?_, ?_, ?_, ?_, ?_, ?_, ?_, ?_, ?_⟩
    · simp [updateTile, hne, hc, hf, clear, removeTile]
    · intro e he
      rcases List.mem_append.mp he with he | he <;> exact (List.mem_filter.mp he).1
    all_goals simp [updateTile, hne, hc, hf, clear, removeTile]

theorem findDocument_assigned (docs : List (TileId × CacheDocument Box)) (id : TileId)
    (v : CacheDocument Box) :
    findDocument (docs.filter (fun e => decide (e.1 ≠ id)) ++ [(id, v)]) id = some v := by
  induction docs with
  | nil => simp [findDocument]
  | cons e rest ih =>
    by_cases he : e.1 = id
    · simpa [List.filter_cons, he] using ih
    · simp only [findDocument, List.filter_cons, ne_eq, he, not_false_eq_true, decide_True,
        if_true, List.cons_append, List.find?_cons, decide_False] at ih ⊢
      exact ih

theorem removeTile_count_tileAdded (dropped : List (TileId × CacheDocument Box))
    (d : GeoDataDocument) : (removeTile dropped).count (Signal.tileAdded d) = 0 := by
  rw [List.count_eq_zero]
  intro hmem
  simp only [removeTile, List.mem_map] at hmem
  obtain ⟨e, _, he⟩ := hmem
  cases he

/-- C6: for every state, `updateTile( id, document )` with a non-null document and
`id.zoomLevel()` equal to `m_tileLoadLevel` leaves the cache mapping `id` to an entry, the
only one under `id`, that owns `document` with bounding box `id.toLatLonBox( layer )`; the
document is in the garbage queue, `id` is absent from the pending list, and what the call
emits is `tileRemoved` for dropped entries followed by `tileAdded( document )`, which is
emitted exactly once. -/
theorem updateTile_accepts (L : Layer Box R) (s : VectorTileModel Box) (id : TileId)
    (d : GeoDataDocument) (h : id.zoomLevel = s.m_tileLoadLevel) :
    findDocument (updateTile L s id (some d)).m_documents id
      = some { m_document := d, m_boundingBox := L.toLatLonBox id } ∧
    (updateTile L s id (some d)).m_documents.filter (fun e => decide (e.1 = id))
      = [(id, { m_document := d, m_boundingBox := L.toLatLonBox id })] ∧
    d ∈ (updateTile L s id (some d)).m_garbageQueue ∧
    id ∉ (updateTile L s id (some d)).m_pendingDocuments ∧
    (∃ dropped : List (TileId × CacheDocument Box), (∀ e ∈ dropped, e ∈ s.m_documents) ∧
      (updateTile L s id (some d)).emitted
        = s.emitted ++ removeTile dropped ++ [Signal.tileAdded d]) ∧
    ((updateTile L s id (some d)).emitted.drop s.emitted.length).count (Signal.tileAdded d)
      = 1 := by
  obtain ⟨docs, dropped, hdocs, _, _, hdropped, hemit, hgarbage, hpending, _⟩ :=
    updateTile_accept_shape L s id d h
  refine ⟨?_, ?_, ?_, ?_, ⟨dropped, hdropped, hemit⟩, ?_⟩
  · rw [hdocs]
    exact findDocument_assigned docs id _
  · rw [hdocs, List.filter_append]
    have hnil : (docs.filter (fun e => decide (e.1 ≠ id))).filter (fun e => decide (e.1 = id))
        = [] := by
      rw [List.filter_eq_nil_iff]
      intro e he
      rw [List.mem_filter] at he
      simpa using he.2
    rw [hnil]
    simp
  · rw [hgarbage]
    simp
  · rw [hpending, List.mem_filter]
    simp
  · rw [hemit, List.append_assoc, List.drop_left, List.count_append,
      removeTile_count_tileAdded]
    simp

theorem updateTile_accepts_witness :
    findDocument (updateTile exampleLayer
        ({ construct with m_tileLoadLevel := 2 } : VectorTileModel (Int × Int)) ⟨2, 1, 0⟩
        (some 7)).m_documents ⟨2, 1, 0⟩
      = some { m_document := 7, m_boundingBox := (10, 20) } :=
  (updateTile_accepts exampleLayer
    ({ construct with m_tileLoadLevel := 2 } : VectorTileModel (Int × Int)) ⟨2, 1, 0⟩ 7 rfl).1

/-! ### Tile queries -/

theorem foldlM_some {σ α : Type} (f : σ → α → σ) (l : List α) (s : σ) :
    l.foldlM (fun s i => (some (f s i) : Option σ)) s = some (l.foldl f s) := by
  induction l generalizing s with
  | nil => rfl
  | cons a l ih => simp only [List.foldlM_cons, List.foldl_cons, Option.bind_eq_bind,
      Option.some_bind, ih]

theorem foldlM_none {σ α : Type} (l : List α) (hl : l ≠ []) (s : σ) :
    l.foldlM (fun _ _ => (none : Option σ)) s = none := by
  cases l with
  | nil => exact absurd rfl hl
  | cons a l => simp only [List.foldlM_cons, Option.bind_eq_bind, Option.none_bind]

/-- A counting loop over `unsigned int` whose body always returns: it never ends when it
is entered with the bound `UINT_MAX`, and runs through `lo, ..., hi` otherwise. -/
theorem forUInt_eq {σ : Type} (lo hi : Nat) (f : Nat → σ → σ) (s : σ) :
    forUInt lo hi (fun i s => some (f i s)) s =
      if lo ≤ hi ∧ UINT_MAX ≤ hi then none
      else some ((List.range' lo (hi + 1 - lo)).foldl (fun s i => f i s) s) := by
  unfold forUInt
  by_cases h1 : hi < lo
  · have h0 : hi + 1 - lo = 0 := by omega
    rw [if_pos h1, if_neg (by omega), h0]
    rfl
  · rw [if_neg h1]
    by_cases h2 : UINT_MAX ≤ hi
    · rw [if_pos h2, if_pos ⟨by omega, h2⟩]
    · rw [if_neg h2, if_neg (fun h => h2 h.2)]
      exact foldlM_some (fun s i => f i s) _ s

theorem foldl_flatMap {σ α β : Type} (f : σ → β → σ) (g : α → List β) (l : List α) (s : σ) :
    (l.flatMap g).foldl f s = l.foldl (fun s a => (g a).foldl f s) s := by
  induction l generalizing s with
  | nil => rfl
  | cons a l ih => simp only [List.flatMap_cons, List.foldl_append, List.foldl_cons, ih]

/-- What `queryTiles` does: it never returns when it enters a loop whose bound is
`UINT_MAX`, and otherwise visits the `TileId`s of the rectangle in order. -/
theorem queryTiles_eq (s : VectorTileModel Box) (lv : Int) (minX minY maxX maxY : Nat) :
    queryTiles s lv minX minY maxX maxY =
      if minX ≤ maxX ∧ (UINT_MAX ≤ maxX ∨ (minY ≤ maxY ∧ UINT_MAX ≤ maxY)) then none
      else some ((tileRange lv minX minY maxX maxY).foldl queryTile s) := by
  have hinner : (fun (x : Nat) (s : VectorTileModel Box) => forUInt minY maxY
        (fun y s => some (queryTile s { zoomLevel := lv, x := x, y := y })) s)
      = fun x s => if minY ≤ maxY ∧ UINT_MAX ≤ maxY then none
          else some ((List.range' minY (maxY + 1 - minY)).foldl
            (fun s y => queryTile s { zoomLevel := lv, x := x, y := y }) s) := by
    funext x s
    exact forUInt_eq minY maxY (fun y s => queryTile s { zoomLevel := lv, x := x, y := y }) s
  unfold queryTiles
  rw [hinner]
  by_cases hY : minY ≤ maxY ∧ UINT_MAX ≤ maxY
  · simp only [if_pos hY]
    unfold forUInt
    by_cases h1 : maxX < minX
    · have h0 : maxX + 1 - minX = 0 := by omega
      rw [if_pos h1, if_neg (by omega)]
      simp only [tileRange, h0, List.range'_zero, List.flatMap_nil, List.foldl_nil]
    · have hrhs : (if minX ≤ maxX ∧ (UINT_MAX ≤ maxX ∨ (minY ≤ maxY ∧ UINT_MAX ≤ maxY)) then none
          else some ((tileRange lv minX minY maxX maxY).foldl queryTile s)) = none :=
        if_pos ⟨by omega, Or.inr hY⟩
      rw [hrhs, if_neg h1]
      by_cases h2 : UINT_MAX ≤ maxX
      · rw [if_pos h2]
      · rw [if_neg h2]
        apply foldlM_none
        obtain ⟨k, hk⟩ : ∃ k, maxX + 1 - minX = k + 1 := ⟨maxX - minX, by omega⟩
        rw [hk, List.range'_succ]
        exact List.cons_ne_nil _ _
  · simp only [if_neg hY]
    rw [forUInt_eq minX maxX (fun x s => (List.range' minY (maxY + 1 - minY)).foldl
      (fun s y => queryTile s { zoomLevel := lv, x := x, y := y }) s) s]
    have hfold : (tileRange lv minX minY maxX maxY).foldl queryTile s
        = (List.range' minX (maxX + 1 - minX)).foldl
          (fun s x => (List.range' minY (maxY + 1 - minY)).foldl
            (fun s y => queryTile s { zoomLevel := lv, x := x, y := y }) s) s := by
      unfold tileRange
      rw [foldl_flatMap]
      congr 1
      funext s x
      rw [List.foldl_map]
    rw [hfold]
    by_cases hX : minX ≤ maxX ∧ UINT_MAX ≤ maxX
    · rw [if_pos hX, if_pos ⟨hX.1, Or.inl hX.2⟩]
    · rw [if_neg hX, if_neg]
      rintro ⟨h1, h2 | h2⟩
      · exact hX ⟨h1, h2⟩
      · exact hY h2

theorem mem_tileRange (lv : Int) (minX minY maxX maxY : Nat) (t : TileId) :
    t ∈ tileRange lv minX minY maxX maxY ↔
      t.zoomLevel = lv ∧ minX ≤ t.x ∧ t.x ≤ maxX ∧ minY ≤ t.y ∧ t.y ≤ maxY := by
  simp only [tileRange, List.mem_flatMap, List.mem_map, List.mem_range'_1]
  constructor
  · rintro ⟨x, ⟨hx1, hx2⟩, y, ⟨hy1, hy2⟩, rfl⟩
    refine ⟨rfl, hx1, ?_, hy1, ?_⟩
    · show x ≤ maxX
      omega
    · show y ≤ maxY
      omega
  · intro h
    refine ⟨t.x, by omega, t.y, by omega, ?_⟩
    cases t
    simp only at h
    simp [h.1]

theorem tileRange_nodup (lv : Int) (minX minY maxX maxY : Nat) :
    (tileRange lv minX minY maxX maxY).Nodup := by
  unfold tileRange
  rw [List.nodup_flatMap]
  constructor
  · intro x _
    apply List.Nodup.map
    · intro a b hab
      simpa using hab
    · exact List.nodup_range' _ _
  · have hlt := List.pairwise_lt_range' minX (maxX + 1 - minX)
    refine hlt.imp ?_
    intro a b hab
    simp only [Function.onFun, List.Disjoint, List.mem_map]
    rintro t ⟨y1, _, rfl⟩ ⟨y2, _, h2⟩
    have : b = a := congrArg TileId.x h2
    omega

/-- The fields that a tile query leaves alone. -/
theorem foldl_queryTile_frame (l : List TileId) (s : VectorTileModel Box) :
    (l.foldl queryTile s).m_documents = s.m_documents ∧
    (l.foldl queryTile s).m_garbageQueue = s.m_garbageQueue ∧
    (l.foldl queryTile s).m_tileLoadLevel = s.m_tileLoadLevel ∧
    (l.foldl queryTile s).m_tileZoomLevel = s.m_tileZoomLevel ∧
    (l.foldl queryTile s).m_deleteDocumentsLater = s.m_deleteDocumentsLater ∧
    (l.foldl queryTile s).emitted = s.emitted ∧
    (l.foldl queryTile s).deleted = s.deleted := by
  induction l generalizing s with
  | nil => exact ⟨rfl, rfl, rfl, rfl, rfl, rfl, rfl⟩
  | cons t l ih =>
    have hstep : (queryTile s t).m_documents = s.m_documents ∧
        (queryTile s t).m_garbageQueue = s.m_garbageQueue ∧
        (queryTile s t).m_tileLoadLevel = s.m_tileLoadLevel ∧
        (queryTile s t).m_tileZoomLevel = s.m_tileZoomLevel ∧
        (queryTile s t).m_deleteDocumentsLater = s.m_deleteDocumentsLater ∧
        (queryTile s t).emitted = s.emitted ∧
        (queryTile s t).deleted = s.deleted := by
      unfold queryTile
      split <;> exact ⟨rfl, rfl, rfl, rfl, rfl, rfl, rfl⟩
    obtain ⟨h1, h2, h3, h4, h5, h6, h7⟩ := ih (queryTile s t)
    obtain ⟨g1, g2, g3, g4, g5, g6, g7⟩ := hstep
    exact ⟨h1.trans g1, h2.trans g2, h3.trans g3, h4.trans g4, h5.trans g5, h6.trans g6,
      h7.trans g7⟩

/-- Querying a list of distinct tiles appends to the pending list and to the pool, in
order, exactly the tiles of the list that were neither cached nor pending. -/
theorem foldl_queryTile_jobs (l : List TileId) (hl : l.Nodup) (s : VectorTileModel Box) :
    (l.foldl queryTile s).m_pendingDocuments
      = s.m_pendingDocuments ++ l.filter (isMissing s.m_documents s.m_pendingDocuments) ∧
    (l.foldl queryTile s).m_threadPool
      = s.m_threadPool ++ l.filter (isMissing s.m_documents s.m_pendingDocuments) := by
  induction l generalizing s with
  | nil => simp
  | cons t l ih =>
    have hnd : l.Nodup := (List.nodup_cons.mp hl).2
    have ht : t ∉ l := (List.nodup_cons.mp hl).1
    obtain ⟨ih1, ih2⟩ := ih hnd (queryTile s t)
    simp only [List.foldl_cons]
    rw [ih1, ih2]
    cases hm : isMissing s.m_documents s.m_pendingDocuments t
    · have hq : queryTile s t = s := by simp [queryTile, hm]
      rw [hq]
      simp [List.filter_cons, hm]
    · have hdocs : (queryTile s t).m_documents = s.m_documents := by simp [queryTile, hm]
      have hpend : (queryTile s t).m_pendingDocuments = s.m_pendingDocuments ++ [t] := by
        simp [queryTile, hm]
      have hpool : (queryTile s t).m_threadPool = s.m_threadPool ++ [t] := by
        simp [queryTile, hm]
      have hfilter : l.filter (isMissing (queryTile s t).m_documents
            (queryTile s t).m_pendingDocuments)
          = l.filter (isMissing s.m_documents s.m_pendingDocuments) := by
        apply List.filter_congr
        intro u hu
        have hut : u ≠ t := fun h => ht (h ▸ hu)
        rw [hdocs, hpend]
        simp [isMissing, hut]
      rw [hfilter, hpend, hpool]
      simp [List.filter_cons, hm]

theorem isMissing_iff (documents : List (TileId × CacheDocument Box)) (pending : List TileId)
    (t : TileId) :
    isMissing documents pending t = true ↔ containsDocument documents t = false ∧ t ∉ pending := by
  simp [isMissing]

/-- C8, for index rectangles below `UINT_MAX`: for every zoom level and every index
rectangle with `maxTileX < UINT_MAX` and `maxTileY < UINT_MAX`, `queryTiles` returns, having
submitted exactly one load job for each `TileId (level, x, y)` of the rectangle that was
neither cached nor pending before the call, and no job for any other `TileId`; each
submitted id is appended to the pending list; afterwards every `TileId` of the rectangle is
cached or pending, and the cache itself is unchanged. -/
theorem queryTiles_submits_missing (s : VectorTileModel Box) (lv : Int)
    (minX minY maxX maxY : Nat) (hX : maxX < UINT_MAX) (hY : maxY < UINT_MAX) :
    ∃ (s1 : VectorTileModel Box) (jobs : List TileId),
      queryTiles s lv minX minY maxX maxY = some s1 ∧
      s1.m_threadPool = s.m_threadPool ++ jobs ∧
      s1.m_pendingDocuments = s.m_pendingDocuments ++ jobs ∧
      jobs.Nodup ∧
      (∀ t : TileId, t ∈ jobs ↔
        (t.zoomLevel = lv ∧ minX ≤ t.x ∧ t.x ≤ maxX ∧ minY ≤ t.y ∧ t.y ≤ maxY) ∧
          containsDocument s.m_documents t = false ∧ t ∉ s.m_pendingDocuments) ∧
      (∀ t : TileId, t.zoomLevel = lv → minX ≤ t.x → t.x ≤ maxX → minY ≤ t.y → t.y ≤ maxY →
        containsDocument s1.m_documents t = true ∨ t ∈ s1.m_pendingDocuments) ∧
      s1.m_documents = s.m_documents := by
  have hret : queryTiles s lv minX minY maxX maxY
      = some ((tileRange lv minX minY maxX maxY).foldl queryTile s) := by
    rw [queryTiles_eq, if_neg]
    rintro ⟨_, h | ⟨_, h⟩⟩ <;> omega
  obtain ⟨hpend, hpool⟩ := foldl_queryTile_jobs (tileRange lv minX minY maxX maxY)
    (tileRange_nodup lv minX minY maxX maxY) s
  have hdocs := (foldl_queryTile_frame (tileRange lv minX minY maxX maxY) s).1
  have hmem : ∀ t : TileId,
      t ∈ (tileRange lv minX minY maxX maxY).filter (isMissing s.m_documents s.m_pendingDocuments)
        ↔ (t.zoomLevel = lv ∧ minX ≤ t.x ∧ t.x ≤ maxX ∧ minY ≤ t.y ∧ t.y ≤ maxY) ∧
          containsDocument s.m_documents t = false ∧ t ∉ s.m_pendingDocuments := by
    intro t
    rw [List.mem_filter, mem_tileRange, isMissing_iff]
  refine ⟨_, _, hret, hpool, hpend, (tileRange_nodup lv minX minY maxX maxY).filter _, hmem,
    ?_, hdocs⟩
  intro t h1 h2 h3 h4 h5
  rw [hdocs, hpend]
  by_cases hc : containsDocument s.m_documents t = true
  · exact Or.inl hc
  · right
    by_cases hp : t ∈ s.m_pendingDocuments
    · exact List.mem_append_left _ hp
    · exact List.mem_append_right _
        ((hmem t).mpr ⟨⟨h1, h2, h3, h4, h5⟩, by simpa using hc, hp⟩)

theorem queryTiles_submits_missing_witness :
    ∃ (s1 : VectorTileModel Unit) (jobs : List TileId),
      queryTiles construct 3 2 3 3 4 = some s1 ∧ s1.m_threadPool = [] ++ jobs :=
  match queryTiles_submits_missing (construct : VectorTileModel Unit) 3 2 3 3 4
    (by decide) (by decide) with
  | ⟨s1, jobs, h1, h2, _⟩ => ⟨s1, jobs, h1, h2⟩

/-- C8 as stated fails for a rectangle that reaches `UINT_MAX`: the call
`queryTiles( 0, 0, 0, 4294967295, 0 )` on a new model never returns, because
`x <= maxTileX` holds for every `unsigned int`. -/
theorem queryTiles_uint_max_never_returns :
    (0 ≤ 4294967295 ∧ 0 ≤ 0) ∧
    ¬ ∃ s1 : VectorTileModel Unit, queryTiles construct 0 0 0 4294967295 0 = some s1 := by
  refine ⟨by decide, ?_⟩
  rintro ⟨s1, h⟩
  rw [queryTiles_eq, if_pos ⟨by decide, Or.inl (by decide)⟩] at h
  cases h

/-! ### The viewport -/

theorem qBound_le (v max : Nat) : qBound 0 v max ≤ max := by
  unfold qBound
  have h1 : Nat.min max v ≤ max := Nat.min_le_left max v
  have h2 : Nat.max 0 (Nat.min max v) = Nat.min max v := Nat.max_eq_right (Nat.zero_le _)
  omega

theorem queryTiles_some (s s1 : VectorTileModel Box) (lv : Int) (minX minY maxX maxY : Nat)
    (h : queryTiles s lv minX minY maxX maxY = some s1) :
    s1 = (tileRange lv minX minY maxX maxY).foldl queryTile s := by
  rw [queryTiles_eq] at h
  split at h
  · cases h
  · exact (Option.some.inj h).symm

/-- Whatever the tile queries of a viewport return is the state after querying some list of
tiles one by one. -/
theorem queryViewport_some (L : Layer Box R) (s s1 : VectorTileModel Box) (lv : Int) (box : Box)
    (h : queryViewport L s lv box = some s1) : ∃ l : List TileId, s1 = l.foldl queryTile s := by
  unfold queryViewport at h
  cases hc : L.crossesDateLine box
  · simp only [hc, Bool.not_false, if_true] at h
    exact ⟨_, queryTiles_some _ _ _ _ _ _ _ h⟩
  · simp only [hc, Bool.not_true, Bool.false_eq_true, if_false] at h
    cases hq : queryTiles s lv 0
        (qBound 0 (L.lat2tileY (L.north box) (maxTile lv L.levelZeroRows))
          (maxTile lv L.levelZeroRows))
        (qBound 0 (L.lon2tileX (L.east box) (maxTile lv L.levelZeroColumns))
          (maxTile lv L.levelZeroColumns))
        (qBound 0 (L.lat2tileY (L.south box) (maxTile lv L.levelZeroRows))
          (maxTile lv L.levelZeroRows)) with
    | none =>
      rw [hq] at h
      cases h
    | some s2 =>
      rw [hq] at h
      have h2 := queryTiles_some _ _ _ _ _ _ _ hq
      have h1 := queryTiles_some _ _ _ _ _ _ _ h
      rw [h2] at h1
      rw [h1, ← List.foldl_append]
      exact ⟨_, rfl⟩

/-- The tile queries of a viewport return when the grid of the load level has fewer than
`UINT_MAX` columns and rows. -/
theorem queryViewport_returns (L : Layer Box R) (s : VectorTileModel Box) (lv : Int) (box : Box)
    (hX : maxTile lv L.levelZeroColumns < UINT_MAX) (hY : maxTile lv L.levelZeroRows < UINT_MAX) :
    ∃ s1, queryViewport L s lv box = some s1 := by
  have hq : ∀ (t : VectorTileModel Box) (a b c d : Nat), c < UINT_MAX → d < UINT_MAX →
      queryTiles t lv a b c d = some ((tileRange lv a b c d).foldl queryTile t) := by
    intro t a b c d hc hd
    rw [queryTiles_eq, if_neg]
    rintro ⟨_, h | ⟨_, h⟩⟩ <;> omega
  have hbx := fun v => lt_of_le_of_lt (qBound_le v (maxTile lv L.levelZeroColumns)) hX
  have hby := fun v => lt_of_le_of_lt (qBound_le v (maxTile lv L.levelZeroRows)) hY
  unfold queryViewport
  cases L.crossesDateLine box
  · simp only [Bool.not_false, if_true]
    rw [hq _ _ _ _ _ (hbx _) (hby _)]
    exact ⟨_, rfl⟩
  · simp only [Bool.not_true, Bool.false_eq_true, if_false]
    rw [hq _ _ _ _ _ (hbx _) (hby _)]
    simp only
    rw [hq _ _ _ _ _ hX (hby _)]
    exact ⟨_, rfl⟩

theorem selectTileLevel_mem (d : Int) (rest : List Int) :
    ∀ tl : Int, selectTileLevel d tl rest ∈ tl :: rest := by
  induction rest with
  | nil => intro tl; simp [selectTileLevel]
  | cons l rest ih =>
    intro tl
    unfold selectTileLevel
    split
    · exact List.mem_cons_self _ _
    · exact List.mem_cons_of_mem _ (ih l)

/-- On an ascending list the level loop finds the greatest level that is at most the
desired one, and the first level when every level is above it. -/
theorem selectTileLevel_sorted (d : Int) (rest : List Int) :
    ∀ tl : Int, (tl :: rest).Pairwise (fun a b => a ≤ b) →
      (tl ≤ d → selectTileLevel d tl rest ≤ d ∧
        ∀ l ∈ tl :: rest, l ≤ d → l ≤ selectTileLevel d tl rest) ∧
      (d < tl → selectTileLevel d tl rest = tl) := by
  induction rest with
  | nil =>
    intro tl _
    refine ⟨fun h => ⟨h, ?_⟩, fun _ => rfl⟩
    intro l hl _
    rw [List.mem_singleton] at hl
    exact le_of_eq hl
  | cons l rest ih =>
    intro tl hs
    have hs1 : ∀ x ∈ l :: rest, tl ≤ x := (List.pairwise_cons.mp hs).1
    have hs2 : (l :: rest).Pairwise (fun a b => a ≤ b) := (List.pairwise_cons.mp hs).2
    have hs3 : ∀ x ∈ rest, l ≤ x := (List.pairwise_cons.mp hs2).1
    have htl : tl ≤ l := hs1 l (List.mem_cons_self _ _)
    unfold selectTileLevel
    by_cases hgt : l > d
    · rw [if_pos hgt]
      refine ⟨fun h => ⟨h, ?_⟩, fun _ => rfl⟩
      intro x hx hxd
      rcases List.mem_cons.mp hx with rfl | hx
      · exact le_refl _
      · rcases List.mem_cons.mp hx with rfl | hx
        · omega
        · have := hs3 x hx
          omega
    · rw [if_neg hgt]
      obtain ⟨ih1, _⟩ := ih l hs2
      have hld : l ≤ d := by omega
      obtain ⟨hle, hmax⟩ := ih1 hld
      refine ⟨fun _ => ⟨hle, ?_⟩, fun h => by omega⟩
      intro x hx hxd
      rcases List.mem_cons.mp hx with rfl | hx
      · exact le_trans htl (hmax l (List.mem_cons_self _ _) hld)
      · exact hmax x hx hxd

theorem changeLoadLevel_fields (s : VectorTileModel Box) (lv : Int) :
    (changeLoadLevel s lv).m_tileLoadLevel = lv ∧
    (changeLoadLevel s lv).m_documents = s.m_documents ∧
    (changeLoadLevel s lv).m_pendingDocuments = s.m_pendingDocuments ∧
    (changeLoadLevel s lv).m_threadPool = s.m_threadPool ∧
    (changeLoadLevel s lv).m_garbageQueue = s.m_garbageQueue ∧
    (changeLoadLevel s lv).emitted = s.emitted ∧
    (changeLoadLevel s lv).deleted = s.deleted ∧
    (changeLoadLevel s lv).m_tileZoomLevel = s.m_tileZoomLevel := by
  unfold changeLoadLevel
  by_cases h : lv ≠ s.m_tileLoadLevel
  · rw [if_pos h]
    exact ⟨rfl, rfl, rfl, rfl, rfl, rfl, rfl, rfl⟩
  · rw [if_neg h]
    exact ⟨(not_not.mp h).symm, rfl, rfl, rfl, rfl, rfl, rfl, rfl⟩

theorem setViewport_nil (L : Layer Box R) (s : VectorTileModel Box) (box : Box) (radius : Int)
    (hl : L.tileLevels = []) :
    setViewport L s box radius
      = some (clear { s with m_tileZoomLevel := desiredZoomLevel L radius }) := by
  simp only [setViewport, hl]

theorem setViewport_cons (L : Layer Box R) (s : VectorTileModel Box) (box : Box) (radius : Int)
    (first : Int) (rest : List Int) (hl : L.tileLevels = first :: rest) :
    setViewport L s box radius
      = (queryViewport L
          (changeLoadLevel { s with m_tileZoomLevel := desiredZoomLevel L radius }
            (selectTileLevel (desiredZoomLevel L radius) first rest))
          (selectTileLevel (desiredZoomLevel L radius) first rest) box).map
        (fun s3 => removeTilesOutOfView L s3 box) := by
  simp only [setViewport, hl]
  cases queryViewport L
    (changeLoadLevel { s with m_tileZoomLevel := desiredZoomLevel L radius }
      (selectTileLevel (desiredZoomLevel L radius) first rest))
    (selectTileLevel (desiredZoomLevel L radius) first rest) box <;> rfl

/-- With a non-empty level list, what `setViewport` returns is the state after the level
change, a number of tile queries and the eviction. -/
theorem setViewport_cons_some (L : Layer Box R) (s s1 : VectorTileModel Box) (box : Box)
    (radius : Int) (first : Int) (rest : List Int) (hl : L.tileLevels = first :: rest)
    (h : setViewport L s box radius = some s1) :
    ∃ l : List TileId, s1 = removeTilesOutOfView L
      (l.foldl queryTile
        (changeLoadLevel { s with m_tileZoomLevel := desiredZoomLevel L radius }
          (selectTileLevel (desiredZoomLevel L radius) first rest))) box := by
  rw [setViewport_cons L s box radius first rest hl] at h
  cases hq : queryViewport L
    (changeLoadLevel { s with m_tileZoomLevel := desiredZoomLevel L radius }
      (selectTileLevel (desiredZoomLevel L radius) first rest))
    (selectTileLevel (desiredZoomLevel L radius) first rest) box with
  | none =>
    rw [hq] at h
    cases h
  | some s3 =>
    rw [hq] at h
    obtain ⟨l, hl3⟩ := queryViewport_some L _ s3 _ box hq
    refine ⟨l, ?_⟩
    rw [← hl3]
    exact (Option.some.inj h).symm

/-- On a dataset whose grids fit, `setViewport` returns. -/
theorem setViewport_returns (L : Layer Box R) (s : VectorTileModel Box) (box : Box) (radius : Int)
    (hgrid : gridFits L) : ∃ s1, setViewport L s box radius = some s1 := by
  cases hl : L.tileLevels with
  | nil => exact ⟨_, setViewport_nil L s box radius hl⟩
  | cons first rest =>
    have hmem : selectTileLevel (desiredZoomLevel L radius) first rest ∈ L.tileLevels := by
      rw [hl]
      exact selectTileLevel_mem _ _ _
    obtain ⟨hX, hY⟩ := hgrid _ hmem
    obtain ⟨s3, hq⟩ := queryViewport_returns L
      (changeLoadLevel { s with m_tileZoomLevel := desiredZoomLevel L radius }
        (selectTileLevel (desiredZoomLevel L radius) first rest))
      (selectTileLevel (desiredZoomLevel L radius) first rest) box hX hY
    rw [setViewport_cons L s box radius first rest hl, hq]
    exact ⟨_, rfl⟩

theorem exampleLayer_gridFits : gridFits exampleLayer := by
  intro lv hlv
  have h : lv = 2 ∨ lv = 4 := by simpa [exampleLayer] using hlv
  rcases h with rfl | rfl <;> decide

/-- C4: for every cache state, every radius and every viewport box whose 2x-scaled box
intersects the bounding box of no cached entry, the cache is empty, `cachedDocuments() = 0`,
when `setViewport( box, radius )` returns, whether or not the dataset has any tile levels;
and `setViewport` does return on every dataset whose grids fit `unsigned int`. -/
theorem setViewport_disjoint_empties (L : Layer Box R) (s : VectorTileModel Box) (box : Box)
    (radius : Int)
    (hdisj : ∀ e ∈ s.m_documents, L.intersects (L.scaled box) e.2.m_boundingBox = false) :
    (∀ s1, setViewport L s box radius = some s1 → cachedDocuments s1 = 0) ∧
    (gridFits L → ∃ s1, setViewport L s box radius = some s1 ∧ cachedDocuments s1 = 0) := by
  have hempty : ∀ s1, setViewport L s box radius = some s1 → cachedDocuments s1 = 0 := by
    intro s1 hs1
    cases hl : L.tileLevels with
    | nil =>
      rw [setViewport_nil L s box radius hl] at hs1
      rw [← Option.some.inj hs1]
      rfl
    | cons first rest =>
      obtain ⟨l, hshape⟩ := setViewport_cons_some L s s1 box radius first rest hl hs1
      have hdocs : s1.m_documents
          = s.m_documents.filter (fun e => L.intersects (L.scaled box) e.2.m_boundingBox) := by
        rw [hshape]
        show (eraseOutOfView L (L.scaled box) _).1 = _
        rw [eraseOutOfView_kept, (foldl_queryTile_frame l _).1, (changeLoadLevel_fields _ _).2.1]
      have hnil : s1.m_documents = [] := by
        rw [hdocs, List.filter_eq_nil_iff]
        intro e he
        rw [hdisj e he]
        exact Bool.false_ne_true
      unfold cachedDocuments
      rw [hnil]
      rfl
  refine ⟨hempty, ?_⟩
  intro hgrid
  obtain ⟨s1, hs1⟩ := setViewport_returns L s box radius hgrid
  exact ⟨s1, hs1, hempty s1 hs1⟩

theorem setViewport_disjoint_empties_witness :
    ∃ s1, setViewport exampleLayer exampleModel (0, 10) 100 = some s1 ∧ cachedDocuments s1 = 0 :=
  (setViewport_disjoint_empties exampleLayer exampleModel (0, 10) 100 (by decide)).2
    exampleLayer_gridFits

/-- The load level after `setViewport` on a dataset with levels is the level that the level
loop selects. -/
theorem setViewport_tileLoadLevel (L : Layer Box R) (s s1 : VectorTileModel Box) (box : Box)
    (radius : Int) (first : Int) (rest : List Int) (hl : L.tileLevels = first :: rest)
    (h : setViewport L s box radius = some s1) :
    s1.m_tileLoadLevel = selectTileLevel (desiredZoomLevel L radius) first rest ∧
    s1.m_tileZoomLevel = desiredZoomLevel L radius := by
  obtain ⟨l, hshape⟩ := setViewport_cons_some L s s1 box radius first rest hl h
  rw [hshape]
  constructor
  · show (l.foldl queryTile _).m_tileLoadLevel = _
    rw [(foldl_queryTile_frame l _).2.2.1, (changeLoadLevel_fields _ _).1]
  · show (l.foldl queryTile _).m_tileZoomLevel = _
    rw [(foldl_queryTile_frame l _).2.2.2.1, (changeLoadLevel_fields _ _).2.2.2.2.2.2.2]

/-- C10, amended: for every non-empty ascending list of supported tile levels and every
desired zoom level `d` computed from the radius, the level `setViewport` resolves and loads
at, `m_tileLoadLevel` afterwards, is a member of the list; when the first level is at most
`d` it is the greatest supported level that is at most `d`, and when every supported level
is above `d` it is the first, lowest level, which is greater than `d`.  This holds whenever
`setViewport` returns, and it does return on every dataset whose grids fit `unsigned int`. -/
theorem setViewport_resolves_level (L : Layer Box R) (s : VectorTileModel Box) (box : Box)
    (radius : Int) (first : Int) (rest : List Int) (hl : L.tileLevels = first :: rest)
    (hasc : L.tileLevels.Pairwise (fun a b => a ≤ b)) :
    (∀ s1, setViewport L s box radius = some s1 →
      s1.m_tileLoadLevel ∈ L.tileLevels ∧
      (first ≤ desiredZoomLevel L radius →
        s1.m_tileLoadLevel ≤ desiredZoomLevel L radius ∧
        ∀ l ∈ L.tileLevels, l ≤ desiredZoomLevel L radius → l ≤ s1.m_tileLoadLevel) ∧
      (desiredZoomLevel L radius < first →
        s1.m_tileLoadLevel = first ∧ desiredZoomLevel L radius < s1.m_tileLoadLevel)) ∧
    (gridFits L → ∃ s1, setViewport L s box radius = some s1) := by
  refine ⟨?_, setViewport_returns L s box radius⟩
  intro s1 hs1
  have hlevel := (setViewport_tileLoadLevel L s s1 box radius first rest hl hs1).1
  rw [hl] at hasc
  obtain ⟨hle, hgt⟩ := selectTileLevel_sorted (desiredZoomLevel L radius) rest first hasc
  refine ⟨?_, ?_, ?_⟩
  · rw [hlevel, hl]
    exact selectTileLevel_mem _ _ _
  · intro h
    rw [hlevel, hl]
    exact hle h
  · intro h
    rw [hlevel, hgt h]
    exact ⟨rfl, h⟩

theorem setViewport_resolves_level_witness :
    ∃ s1, setViewport exampleLayer exampleModel (0, 10) 600 = some s1 ∧
      s1.m_tileLoadLevel ∈ exampleLayer.tileLevels ∧
      s1.m_tileLoadLevel ≤ desiredZoomLevel exampleLayer 600 :=
  have h := setViewport_resolves_level exampleLayer exampleModel (0, 10) 600 2 [4] rfl
    (by decide)
  match h.2 exampleLayer_gridFits with
  | ⟨s1, h1⟩ => ⟨s1, h1, (h.1 s1 h1).1, ((h.1 s1 h1).2.1 (by decide)).1⟩

/-- C10 as stated fails: with the supported levels 2 and 4 and a radius whose desired zoom
level is 0, `setViewport` loads at level 2, which is greater than the desired level. -/
theorem setViewport_loads_above_desired :
    desiredZoomLevel exampleLayer 100 = 0 ∧
    (setViewport exampleLayer construct (0, 25) 100).map (fun s1 => s1.m_tileLoadLevel)
      = some 2 ∧
    ¬ ((2 : Int) ≤ desiredZoomLevel exampleLayer 100) := by
  refine ⟨by decide, by decide, by decide⟩

/-! ### Pending jobs -/

theorem exampleQueried_eq :
    setViewport exampleLayer construct (0, 25) 100 = some exampleQueried := by
  rfl

/-- What `updateTile` does to the pending list and to the pool, whatever it is given. -/
theorem updateTile_pending_pool (L : Layer Box R) (s : VectorTileModel Box) (id : TileId)
    (document : Option GeoDataDocument) :
    (updateTile L s id document).m_pendingDocuments
      = s.m_pendingDocuments.filter (fun t => decide (t ≠ id)) ∧
    (updateTile L s id document).m_threadPool = s.m_threadPool := by
  cases document with
  | none => exact ⟨rfl, rfl⟩
  | some d =>
    by_cases hlv : id.zoomLevel = s.m_tileLoadLevel
    · obtain ⟨_, _, _, _, _, _, _, _, hp, _, _, _, _, hpool⟩ :=
        updateTile_accept_shape L s id d hlv
      exact ⟨hp, hpool⟩
    · have hne : s.m_tileLoadLevel ≠ id.zoomLevel := fun e => hlv e.symm
      simp only [updateTile, if_pos hne, and_self]

/-- The invariant of the pending list: no `TileId` occurs twice, and the jobs of the pool
are the pending ids. -/
theorem queryTile_pending_inv (s : VectorTileModel Box) (t : TileId)
    (h : s.m_pendingDocuments.Nodup ∧ s.m_threadPool = s.m_pendingDocuments) :
    (queryTile s t).m_pendingDocuments.Nodup ∧
      (queryTile s t).m_threadPool = (queryTile s t).m_pendingDocuments := by
  unfold queryTile
  cases hm : isMissing s.m_documents s.m_pendingDocuments t
  · simpa using h
  · have hnot : t ∉ s.m_pendingDocuments := ((isMissing_iff _ _ _).mp hm).2
    simp only [if_true]
    refine ⟨?_, by rw [h.2]⟩
    rw [List.nodup_append]
    refine ⟨h.1, List.nodup_singleton t, ?_⟩
    intro u hu hu1
    rw [List.mem_singleton] at hu1
    exact hnot (hu1 ▸ hu)

theorem foldl_queryTile_pending_inv (l : List TileId) :
    ∀ s : VectorTileModel Box,
      s.m_pendingDocuments.Nodup ∧ s.m_threadPool = s.m_pendingDocuments →
      (l.foldl queryTile s).m_pendingDocuments.Nodup ∧
        (l.foldl queryTile s).m_threadPool = (l.foldl queryTile s).m_pendingDocuments := by
  induction l with
  | nil => intro s h; exact h
  | cons t l ih =>
    intro s h
    exact ih (queryTile s t) (queryTile_pending_inv s t h)

/-- C7: in every state reachable from the initial model through `setViewport`,
`removeTilesOutOfView`, `clear`, `cleanupTile` and `updateTile` delivered once per
submitted job, no `TileId` occurs more than once in the pending list; the jobs of the pool
whose result is outstanding are exactly the pending ids, so no two load jobs for the same
`TileId` are ever outstanding at the same time. -/
theorem reachable_pending_nodup (L : Layer Box R) (s : VectorTileModel Box)
    (h : Reachable L s) :
    s.m_pendingDocuments.Nodup ∧ s.m_threadPool = s.m_pendingDocuments ∧
      ∀ id : TileId, s.m_threadPool.count id ≤ 1 := by
  have hinv : s.m_pendingDocuments.Nodup ∧ s.m_threadPool = s.m_pendingDocuments := by
    induction h with
    | construct => exact ⟨List.nodup_nil, rfl⟩
    | setViewport s s1 box radius _ hs1 ih =>
      cases hl : L.tileLevels with
      | nil =>
        rw [setViewport_nil L s box radius hl] at hs1
        rw [← Option.some.inj hs1]
        exact ih
      | cons first rest =>
        obtain ⟨l, hshape⟩ := setViewport_cons_some L s s1 box radius first rest hl hs1
        rw [hshape]
        have hc := changeLoadLevel_fields
          { s with m_tileZoomLevel := desiredZoomLevel L radius }
          (selectTileLevel (desiredZoomLevel L radius) first rest)
        exact foldl_queryTile_pending_inv l _ ⟨by rw [hc.2.2.1]; exact ih.1,
          by rw [hc.2.2.1, hc.2.2.2.1]; exact ih.2⟩
    | removeTilesOutOfView s box _ ih => exact ih
    | clear s _ ih => exact ih
    | documentLoaded s id document _ _ ih =>
      obtain ⟨hp, hpool⟩ := updateTile_pending_pool L
        { s with m_threadPool := s.m_threadPool.erase id } id document
      rw [hp, hpool]
      refine ⟨ih.1.filter _, ?_⟩
      show s.m_threadPool.erase id = s.m_pendingDocuments.filter (fun t => decide (t ≠ id))
      rw [ih.2, ih.1.erase_eq_filter]
      apply List.filter_congr
      intro t _
      by_cases hti : t = id <;> simp [hti]
    | cleanupTile s object _ ih =>
      cases object with
      | document d =>
        by_cases hc : s.m_garbageQueue.contains d = true
        · simpa only [VectorTileModel.cleanupTile, if_pos hc] using ih
        · simpa only [VectorTileModel.cleanupTile, if_neg hc] using ih
      | other a => exact ih
  refine ⟨hinv.1, hinv.2, ?_⟩
  intro id
  rw [hinv.2]
  exact List.nodup_iff_count_le_one.mp hinv.1 id

theorem reachable_pending_nodup_witness :
    exampleQueried.m_pendingDocuments.Nodup ∧
      exampleQueried.m_threadPool = exampleQueried.m_pendingDocuments :=
  have h := reachable_pending_nodup exampleLayer exampleQueried
    (Reachable.setViewport construct exampleQueried (0, 25) 100 Reachable.construct
      exampleQueried_eq)
  ⟨h.1, h.2.1⟩

/-! ### Two-phase delete -/

theorem count_singleton_ne (d d1 : GeoDataDocument) (h : d1 ≠ d) : List.count d [d1] = 0 := by
  rw [List.count_eq_zero, List.mem_singleton]
  exact fun e => h e.symm

theorem setViewport_deleted_garbage (L : Layer Box R) (s s1 : VectorTileModel Box) (box : Box)
    (radius : Int) (h : setViewport L s box radius = some s1) :
    s1.deleted = s.deleted ∧ s1.m_garbageQueue = s.m_garbageQueue := by
  cases hl : L.tileLevels with
  | nil =>
    rw [setViewport_nil L s box radius hl] at h
    rw [← Option.some.inj h]
    exact ⟨rfl, rfl⟩
  | cons first rest =>
    obtain ⟨l, hshape⟩ := setViewport_cons_some L s s1 box radius first rest hl h
    have hf := foldl_queryTile_frame l
      (changeLoadLevel { s with m_tileZoomLevel := desiredZoomLevel L radius }
        (selectTileLevel (desiredZoomLevel L radius) first rest))
    have hc := changeLoadLevel_fields
      { s with m_tileZoomLevel := desiredZoomLevel L radius }
      (selectTileLevel (desiredZoomLevel L radius) first rest)
    rw [hshape]
    constructor
    · show (l.foldl queryTile _).deleted = _
      rw [hf.2.2.2.2.2.2, hc.2.2.2.2.2.2.1]
    · show (l.foldl queryTile _).m_garbageQueue = _
      rw [hf.2.1, hc.2.2.2.2.1]

theorem updateTile_deleted_garbage (L : Layer Box R) (s : VectorTileModel Box) (id : TileId)
    (d1 : GeoDataDocument) :
    ((updateTile L s id (some d1)).deleted = s.deleted ++ [d1] ∧
      (updateTile L s id (some d1)).m_garbageQueue = s.m_garbageQueue) ∨
    ((updateTile L s id (some d1)).deleted = s.deleted ∧
      (updateTile L s id (some d1)).m_garbageQueue = s.m_garbageQueue ++ [d1]) := by
  by_cases hlv : id.zoomLevel = s.m_tileLoadLevel
  · obtain ⟨_, _, _, _, _, _, _, hg, _, hd, _⟩ := updateTile_accept_shape L s id d1 hlv
    exact Or.inr ⟨hd, hg⟩
  · have hne : s.m_tileLoadLevel ≠ id.zoomLevel := fun e => hlv e.symm
    left
    simp only [updateTile, if_pos hne, and_self]

theorem cleanupTile_document (s : VectorTileModel Box) (d : GeoDataDocument) :
    (d ∈ s.m_garbageQueue →
      cleanupTile s (GeoDataObject.document d)
        = { s with
            m_garbageQueue := s.m_garbageQueue.filter (fun x => decide (x ≠ d))
            deleted := s.deleted ++ [d] }) ∧
    (d ∉ s.m_garbageQueue → cleanupTile s (GeoDataObject.document d) = s) := by
  constructor
  · intro h
    have hc : s.m_garbageQueue.contains d = true := by simpa using h
    simp only [cleanupTile, if_pos hc]
  · intro h
    have hc : ¬ s.m_garbageQueue.contains d = true := by simpa using h
    simp only [cleanupTile, if_neg hc]

/-- One call other than the delivery of `d` itself either frees `d` not at all and leaves its
membership in the garbage queue as it is, or is `cleanupTile` on `d` while `d` is in the
garbage queue, which frees `d` once and takes it out of the queue. -/
theorem call_frees (L : Layer Box R) (s s1 : VectorTileModel Box) (c : Call Box)
    (d : GeoDataDocument) (hc : ∀ id, c ≠ Call.updateTile id (some d))
    (h : call L s c = some s1) :
    (s1.deleted.count d = s.deleted.count d ∧ (d ∈ s1.m_garbageQueue ↔ d ∈ s.m_garbageQueue)) ∨
    (c = Call.cleanupTile (GeoDataObject.document d) ∧ d ∈ s.m_garbageQueue ∧
      s1.deleted.count d = s.deleted.count d + 1 ∧ d ∉ s1.m_garbageQueue) := by
  cases c with
  | setViewport box radius =>
    obtain ⟨h1, h2⟩ := setViewport_deleted_garbage L s s1 box radius h
    exact Or.inl ⟨by rw [h1], by rw [h2]⟩
  | removeTilesOutOfView box =>
    rw [← Option.some.inj h]
    exact Or.inl ⟨rfl, Iff.rfl⟩
  | clear =>
    rw [← Option.some.inj h]
    exact Or.inl ⟨rfl, Iff.rfl⟩
  | updateTile id document =>
    rw [← Option.some.inj h]
    cases document with
    | none => exact Or.inl ⟨rfl, Iff.rfl⟩
    | some d1 =>
      have hne : d1 ≠ d := fun e => hc id (by rw [e])
      left
      rcases updateTile_deleted_garbage L s id d1 with ⟨h1, h2⟩ | ⟨h1, h2⟩
      · rw [h1, h2, List.count_append, count_singleton_ne d d1 hne]
        simp
      · rw [h1, h2]
        simp [hne.symm]
  | cleanupTile object =>
    rw [← Option.some.inj h]
    cases object with
    | other a => exact Or.inl ⟨rfl, Iff.rfl⟩
    | document d1 =>
      by_cases hd1 : d1 ∈ s.m_garbageQueue
      · have heq : cleanupTile s (GeoDataObject.document d1) = _ :=
          (cleanupTile_document s d1).1 hd1
        by_cases hdd : d1 = d
        · subst hdd
          right
          refine ⟨rfl, hd1, ?_, ?_⟩
          · rw [heq]
            simp [List.count_append]
          · rw [heq]
            simp [List.mem_filter]
        · left
          rw [heq]
          constructor
          · simp [List.count_append, count_singleton_ne d d1 hdd]
          · simp only [List.mem_filter, decide_eq_true_eq, ne_eq]
            constructor
            · exact fun hx => hx.1
            · exact fun hx => ⟨hx, fun e => hdd e.symm⟩
      · rw [(cleanupTile_document s d1).2 hd1]
        exact Or.inl ⟨rfl, Iff.rfl⟩

/-- Along a sequence of calls that does not deliver `d` again, `d` is freed at most once,
only by `cleanupTile` on `d` while `d` is in the garbage queue, and not at all when it is
not in the garbage queue at the start. -/
theorem run_frees (L : Layer Box R) (d : GeoDataDocument) (calls : List (Call Box)) :
    ∀ s s1 : VectorTileModel Box, run L s calls = some s1 →
      (∀ id, Call.updateTile id (some d) ∉ calls) →
      (d ∉ s.m_garbageQueue → s1.deleted.count d = s.deleted.count d ∧ d ∉ s1.m_garbageQueue) ∧
      s1.deleted.count d ≤ s.deleted.count d + 1 ∧
      (s1.deleted.count d = s.deleted.count d + 1 →
        Call.cleanupTile (GeoDataObject.document d) ∈ calls ∧ d ∈ s.m_garbageQueue ∧
          d ∉ s1.m_garbageQueue) := by
  induction calls with
  | nil =>
    intro s s1 h _
    rw [← Option.some.inj h]
    exact ⟨fun hg => ⟨rfl, hg⟩, Nat.le_succ _, fun hc => absurd hc (by omega)⟩
  | cons c rest ih =>
    intro s s1 h hcalls
    have hc : ∀ id, c ≠ Call.updateTile id (some d) :=
      fun id e => hcalls id (e ▸ List.mem_cons_self _ _)
    have hrest : ∀ id, Call.updateTile id (some d) ∉ rest :=
      fun id hm => hcalls id (List.mem_cons_of_mem _ hm)
    cases hstep : call L s c with
    | none =>
      simp only [run, hstep] at h
      cases h
    | some s2 =>
      simp only [run, hstep] at h
      obtain ⟨ihA, ihB, ihC⟩ := ih s2 s1 h hrest
      rcases call_frees L s s2 c d hc hstep with ⟨hcount, hmem⟩ | ⟨hce, hin, hcount, hout⟩
      · refine ⟨?_, by omega, ?_⟩
        · intro hg
          obtain ⟨h1, h2⟩ := ihA (fun hx => hg (hmem.mp hx))
          exact ⟨by omega, h2⟩
        · intro hx
          obtain ⟨h1, h2, h3⟩ := ihC (by omega)
          exact ⟨List.mem_cons_of_mem _ h1, hmem.mp h2, h3⟩
      · obtain ⟨h1, h2⟩ := ihA hout
        refine ⟨fun hg => absurd hin hg, by omega, ?_⟩
        intro _
        exact ⟨hce ▸ List.mem_cons_self _ _, hin, h2⟩

/-- The signals of an accepting `updateTile`: `tileRemoved` for the entry cached under the
same id, if there is one, then, when the cache is marked for deferred invalidation,
`tileRemoved` for every other entry, and `tileAdded` for the new document last. -/
theorem updateTile_emitted (L : Layer Box R) (s : VectorTileModel Box) (id : TileId)
    (d : GeoDataDocument) (h : id.zoomLevel = s.m_tileLoadLevel) :
    (updateTile L s id (some d)).emitted
      = s.emitted
        ++ ((s.m_documents.filter (fun e => decide (e.1 = id)))
          ++ (if s.m_deleteDocumentsLater
              then s.m_documents.filter (fun e => decide (e.1 ≠ id)) else [])).map
            (fun e => Signal.tileRemoved e.2.m_document)
        ++ [Signal.tileAdded d] := by
  have hne : ¬ s.m_tileLoadLevel ≠ id.zoomLevel := fun hc => hc h.symm
  have hff : ∀ l : List (TileId × CacheDocument Box),
      (l.filter (fun e => decide (e.1 ≠ id))).filter (fun e => decide (e.1 = id)) = [] := by
    intro l
    rw [List.filter_eq_nil_iff]
    intro e he
    rw [List.mem_filter] at he
    simpa using he.2
  cases hc : containsDocument s.m_documents id <;> cases hf : s.m_deleteDocumentsLater
  · have h0 : s.m_documents.filter (fun e => decide (e.1 = id)) = [] := by
      rw [List.filter_eq_nil_iff]
      intro e he hx
      have : containsDocument s.m_documents id = true := by
        simp only [containsDocument, List.any_eq_true]
        exact ⟨e, he, hx⟩
      rw [hc] at this
      cases this
    simp [updateTile, hne, hc, hf, clear, removeTile, h0]
  · have h0 : s.m_documents.filter (fun e => decide (e.1 = id)) = [] := by
      rw [List.filter_eq_nil_iff]
      intro e he hx
      have : containsDocument s.m_documents id = true := by
        simp only [containsDocument, List.any_eq_true]
        exact ⟨e, he, hx⟩
      rw [hc] at this
      cases this
    have h1 : s.m_documents.filter (fun e => decide (e.1 ≠ id)) = s.m_documents := by
      rw [List.filter_eq_self]
      intro e he
      by_contra hx
      have hx2 : e.1 = id := by simpa using hx
      have : containsDocument s.m_documents id = true := by
        simp only [containsDocument, List.any_eq_true]
        exact ⟨e, he, by simpa using hx2⟩
      rw [hc] at this
      cases this
    have h2 : s.m_documents.filter (fun e => !decide (e.1 = id)) = s.m_documents := by
      simpa using h1
    simp [updateTile, hne, hc, hf, clear, removeTile, h0, h2]
  · simp [updateTile, hne, hc, hf, clear, removeTile, hff, List.filter_filter]
  · simp [updateTile, hne, hc, hf, clear, removeTile, hff, List.filter_filter]

/-- C9: a document accepted by `updateTile` is freed at most once and only by `cleanupTile`
on that document.  Dropping cache entries emits `tileRemoved( document )` for the document
of every dropped entry, in the order of the drops, and frees nothing: eviction emits it for
the entries out of view, `clear` for every entry, and an accepting `updateTile` for the
entry it replaces and, when the cache is marked for invalidation, for every other entry,
before it emits `tileAdded` for the accepted document, which it puts in the garbage queue.
`cleanupTile( object )` frees `object` only if it is a document that is in the garbage
queue, and removes it from the queue as it does; for any other object it changes nothing.
Hence along every sequence of calls in which the document is not delivered again, it is
freed at most once, and when it is freed the sequence contains `cleanupTile` on it and the
document has left the garbage queue. -/
theorem two_phase_delete (L : Layer Box R) :
    (∀ entries : List (TileId × CacheDocument Box),
      removeTile entries = entries.map (fun e => Signal.tileRemoved e.2.m_document)) ∧
    (∀ (s : VectorTileModel Box) (box : Box),
      (removeTilesOutOfView L s box).deleted = s.deleted ∧
      (removeTilesOutOfView L s box).m_garbageQueue = s.m_garbageQueue ∧
      (removeTilesOutOfView L s box).emitted = s.emitted ++
        (s.m_documents.filter (fun e => !L.intersects (L.scaled box) e.2.m_boundingBox)).map
          (fun e => Signal.tileRemoved e.2.m_document)) ∧
    (∀ s : VectorTileModel Box,
      (clear s).deleted = s.deleted ∧ (clear s).m_garbageQueue = s.m_garbageQueue ∧
      (clear s).emitted
        = s.emitted ++ s.m_documents.map (fun e => Signal.tileRemoved e.2.m_document)) ∧
    (∀ (s : VectorTileModel Box) (id : TileId) (d : GeoDataDocument),
      id.zoomLevel = s.m_tileLoadLevel →
      (updateTile L s id (some d)).deleted = s.deleted ∧
      d ∈ (updateTile L s id (some d)).m_garbageQueue ∧
      (updateTile L s id (some d)).emitted
        = s.emitted
          ++ ((s.m_documents.filter (fun e => decide (e.1 = id)))
            ++ (if s.m_deleteDocumentsLater
                then s.m_documents.filter (fun e => decide (e.1 ≠ id)) else [])).map
              (fun e => Signal.tileRemoved e.2.m_document)
          ++ [Signal.tileAdded d]) ∧
    (∀ (s : VectorTileModel Box) (d : GeoDataDocument), d ∈ s.m_garbageQueue →
      cleanupTile s (GeoDataObject.document d)
        = { s with
            m_garbageQueue := s.m_garbageQueue.filter (fun x => decide (x ≠ d))
            deleted := s.deleted ++ [d] } ∧
      d ∉ (cleanupTile s (GeoDataObject.document d)).m_garbageQueue) ∧
    (∀ (s : VectorTileModel Box) (d : GeoDataDocument), d ∉ s.m_garbageQueue →
      cleanupTile s (GeoDataObject.document d) = s) ∧
    (∀ (s : VectorTileModel Box) (address : Nat),
      cleanupTile s (GeoDataObject.other address) = s) ∧
    (∀ (s s1 : VectorTileModel Box) (d : GeoDataDocument) (calls : List (Call Box)),
      run L s calls = some s1 → (∀ id, Call.updateTile id (some d) ∉ calls) →
      s1.deleted.count d ≤ s.deleted.count d + 1 ∧
      (s1.deleted.count d = s.deleted.count d + 1 →
        Call.cleanupTile (GeoDataObject.document d) ∈ calls ∧ d ∈ s.m_garbageQueue ∧
          d ∉ s1.m_garbageQueue) ∧
      (d ∉ s.m_garbageQueue → s1.deleted.count d = s.deleted.count d)) := by
  refine ⟨fun _ => rfl, ?_, ?_, ?_, ?_, ?_, ?_, ?_⟩
  · intro s box
    refine ⟨rfl, rfl, ?_⟩
    show s.emitted ++ removeTile (eraseOutOfView L (L.scaled box) s.m_documents).2 = _
    rw [eraseOutOfView_erased]
    rfl
  · intro s
    exact ⟨rfl, rfl, rfl⟩
  · intro s id d hlv
    obtain ⟨_, _, _, _, _, _, _, hg, _, hd, _⟩ := updateTile_accept_shape L s id d hlv
    refine ⟨hd, ?_, updateTile_emitted L s id d hlv⟩
    rw [hg]
    simp
  · intro s d hd
    have heq := (cleanupTile_document s d).1 hd
    refine ⟨heq, ?_⟩
    rw [heq]
    simp [List.mem_filter]
  · intro s d hd
    exact (cleanupTile_document s d).2 hd
  · intro s address
    rfl
  · intro s s1 d calls hrun hcalls
    obtain ⟨hA, hB, hC⟩ := run_frees L d calls s s1 hrun hcalls
    exact ⟨hB, hC, fun hg => (hA hg).1⟩

/-- Witness for C9 on `exampleModel`, which caches document 7: `clear` drops the entry and
emits `tileRemoved( 7 )` without freeing the document; the first `cleanupTile` on it frees
it and the second changes nothing. -/
theorem two_phase_delete_witness :
    (clear exampleModel).emitted = [Signal.tileAdded 7, Signal.tileRemoved 7] ∧
      (clear exampleModel).deleted = [] ∧
      (updateTile exampleLayer exampleModel { zoomLevel := 2, x := 9, y := 0 } (some 8)).emitted
        = [Signal.tileAdded 7, Signal.tileRemoved 7, Signal.tileAdded 8] ∧
      ∃ s1, run exampleLayer exampleModel
          [Call.clear, Call.cleanupTile (GeoDataObject.document 7),
            Call.cleanupTile (GeoDataObject.document 7)] = some s1 ∧
        s1.emitted = [Signal.tileAdded 7, Signal.tileRemoved 7] ∧ s1.deleted = [7] ∧
        s1.deleted.count 7 ≤ exampleModel.deleted.count 7 + 1 :=
  ⟨((two_phase_delete exampleLayer).2.2.1 exampleModel).2.2,
    ((two_phase_delete exampleLayer).2.2.1 exampleModel).1,
    ((two_phase_delete exampleLayer).2.2.2.1 exampleModel { zoomLevel := 2, x := 9, y := 0 } 8
      rfl).2.2,
    _, rfl, rfl, rfl, ((two_phase_delete exampleLayer).2.2.2.2.2.2.2 exampleModel _ 7
      [Call.clear, Call.cleanupTile (GeoDataObject.document 7),
        Call.cleanupTile (GeoDataObject.document 7)] rfl
      (by intro id h; simp at h)).1⟩

end VectorTileModel

namespace VectorTileModel

variable {Box R : Type}

/-! ### Deferred invalidation -/

theorem tileAddedCount_append_removeTile (s : VectorTileModel Box) (emitted : List Signal)
    (dropped : List (TileId × CacheDocument Box)) (h : emitted = s.emitted ++ removeTile dropped) :
    (emitted.filter (fun e => match e with
      | Signal.tileAdded _ => true
      | Signal.tileRemoved _ => false)).length = tileAddedCount s := by
  have hnil : (removeTile dropped).filter (fun e => match e with
      | Signal.tileAdded _ => true
      | Signal.tileRemoved _ => false) = [] := by
    rw [List.filter_eq_nil_iff]
    intro e he
    simp only [removeTile, List.mem_map] at he
    obtain ⟨x, _, rfl⟩ := he
    simp
  rw [h, List.filter_append, hnil, List.append_nil]
  rfl

/-- What `setViewport` does to the load level, the flag and the signals, on a dataset with
tile levels. -/
theorem setViewport_flag (L : Layer Box R) (s s1 : VectorTileModel Box) (box : Box)
    (radius : Int) (first : Int) (rest : List Int) (hl : L.tileLevels = first :: rest)
    (h : setViewport L s box radius = some s1) :
    s1.m_tileLoadLevel = selectTileLevel (desiredZoomLevel L radius) first rest ∧
    s1.m_deleteDocumentsLater
      = (if selectTileLevel (desiredZoomLevel L radius) first rest ≠ s.m_tileLoadLevel
          then true else s.m_deleteDocumentsLater) ∧
    tileAddedCount s1 = tileAddedCount s := by
  obtain ⟨l, hshape⟩ := setViewport_cons_some L s s1 box radius first rest hl h
  have hf := foldl_queryTile_frame l
    (changeLoadLevel { s with m_tileZoomLevel := desiredZoomLevel L radius }
      (selectTileLevel (desiredZoomLevel L radius) first rest))
  have hc := changeLoadLevel_fields
    { s with m_tileZoomLevel := desiredZoomLevel L radius }
    (selectTileLevel (desiredZoomLevel L radius) first rest)
  rw [hshape]
  refine ⟨?_, ?_, ?_⟩
  · show (l.foldl queryTile _).m_tileLoadLevel = _
    rw [hf.2.2.1, hc.1]
  · show (l.foldl queryTile _).m_deleteDocumentsLater = _
    rw [hf.2.2.2.2.1]
    unfold changeLoadLevel
    by_cases hne : selectTileLevel (desiredZoomLevel L radius) first rest ≠ s.m_tileLoadLevel
    · rw [if_pos hne, if_pos hne]
    · rw [if_neg hne, if_neg hne]
  · apply tileAddedCount_append_removeTile s _
      (eraseOutOfView L (L.scaled box) (l.foldl queryTile
        (changeLoadLevel { s with m_tileZoomLevel := desiredZoomLevel L radius }
          (selectTileLevel (desiredZoomLevel L radius) first rest))).m_documents).2
    show (l.foldl queryTile _).emitted ++ _ = _
    rw [hf.2.2.2.2.2.1, hc.2.2.2.2.2.1]

/-- One call either accepts a document, which emits one more `tileAdded`, or emits no
`tileAdded` and leaves a set flag set. -/
theorem call_flag (L : Layer Box R) (s s1 : VectorTileModel Box) (c : Call Box)
    (h : call L s c = some s1) :
    tileAddedCount s ≤ tileAddedCount s1 ∧
    (s.m_deleteDocumentsLater = true → tileAddedCount s1 = tileAddedCount s →
      s1.m_deleteDocumentsLater = true) := by
  cases c with
  | setViewport box radius =>
    cases hl : L.tileLevels with
    | nil =>
      rw [show call L s (Call.setViewport box radius) = setViewport L s box radius from rfl,
        setViewport_nil L s box radius hl] at h
      rw [← Option.some.inj h]
      have hcount : tileAddedCount
          (clear { s with m_tileZoomLevel := desiredZoomLevel L radius }) = tileAddedCount s :=
        tileAddedCount_append_removeTile s _ s.m_documents rfl
      exact ⟨le_of_eq hcount.symm, fun hf _ => hf⟩
    | cons first rest =>
      obtain ⟨_, hflag, hcount⟩ := setViewport_flag L s s1 box radius first rest hl h
      refine ⟨le_of_eq hcount.symm, fun hf _ => ?_⟩
      rw [hflag, hf]
      simp
  | removeTilesOutOfView box =>
    rw [← Option.some.inj h]
    have hcount : tileAddedCount (removeTilesOutOfView L s box) = tileAddedCount s :=
      tileAddedCount_append_removeTile s _
        (eraseOutOfView L (L.scaled box) s.m_documents).2 rfl
    exact ⟨le_of_eq hcount.symm, fun hf _ => hf⟩
  | clear =>
    rw [← Option.some.inj h]
    have hcount : tileAddedCount (clear s) = tileAddedCount s :=
      tileAddedCount_append_removeTile s _ s.m_documents rfl
    exact ⟨le_of_eq hcount.symm, fun hf _ => hf⟩
  | updateTile id document =>
    rw [← Option.some.inj h]
    cases document with
    | none => exact ⟨le_refl _, fun hf _ => hf⟩
    | some d =>
      by_cases hlv : id.zoomLevel = s.m_tileLoadLevel
      · obtain ⟨_, dropped, _, _, _, _, hemit, _⟩ := updateTile_accept_shape L s id d hlv
        have hcount : tileAddedCount (updateTile L s id (some d)) = tileAddedCount s + 1 := by
          unfold tileAddedCount
          rw [hemit, List.filter_append, List.length_append,
            tileAddedCount_append_removeTile s _ dropped rfl]
          rfl
        exact ⟨by omega, fun _ hc => absurd hc (by omega)⟩
      · have hne : s.m_tileLoadLevel ≠ id.zoomLevel := fun e => hlv e.symm
        have hsame : (updateTile L s id (some d)).emitted = s.emitted ∧
            (updateTile L s id (some d)).m_deleteDocumentsLater = s.m_deleteDocumentsLater := by
          simp only [updateTile, if_pos hne, and_self]
        refine ⟨le_of_eq ?_, fun hf _ => hsame.2.trans hf⟩
        unfold tileAddedCount
        rw [hsame.1]
  | cleanupTile object =>
    rw [← Option.some.inj h]
    cases object with
    | other a => exact ⟨le_refl _, fun hf _ => hf⟩
    | document d =>
      by_cases hd : d ∈ s.m_garbageQueue
      · rw [(cleanupTile_document s d).1 hd]
        exact ⟨le_refl _, fun hf _ => hf⟩
      · rw [(cleanupTile_document s d).2 hd]
        exact ⟨le_refl _, fun hf _ => hf⟩

/-- Along a sequence of calls in which no document is accepted, a set flag stays set. -/
theorem run_flag (L : Layer Box R) (calls : List (Call Box)) :
    ∀ s t : VectorTileModel Box, run L s calls = some t →
      tileAddedCount s ≤ tileAddedCount t ∧
      (s.m_deleteDocumentsLater = true → tileAddedCount t = tileAddedCount s →
        t.m_deleteDocumentsLater = true) := by
  induction calls with
  | nil =>
    intro s t h
    rw [← Option.some.inj h]
    exact ⟨le_refl _, fun hf _ => hf⟩
  | cons c rest ih =>
    intro s t h
    cases hstep : call L s c with
    | none =>
      simp only [run, hstep] at h
      cases h
    | some s2 =>
      simp only [run, hstep] at h
      obtain ⟨h1, h2⟩ := call_flag L s s2 c hstep
      obtain ⟨h3, h4⟩ := ih s2 t h
      exact ⟨le_trans h1 h3, fun hf hc => h4 (h2 hf (by omega)) (by omega)⟩

/-- C11: whenever `setViewport` resolves a level different from `m_tileLoadLevel`, it sets
`m_tileLoadLevel` to the new level and sets the deferred-invalidation flag; when the
resolved level equals `m_tileLoadLevel` the flag is left as it was.  A set flag stays set
along every sequence of calls in which no document is accepted (no `tileAdded` is emitted),
and the next `updateTile` that accepts a document then drops every previously cached entry:
immediately afterwards the cache holds exactly that one tile and the flag is cleared. -/
theorem setViewport_defers_invalidation (L : Layer Box R) :
    (∀ (s s1 : VectorTileModel Box) (box : Box) (radius : Int) (first : Int) (rest : List Int),
      L.tileLevels = first :: rest → setViewport L s box radius = some s1 →
      (selectTileLevel (desiredZoomLevel L radius) first rest ≠ s.m_tileLoadLevel →
        s1.m_tileLoadLevel = selectTileLevel (desiredZoomLevel L radius) first rest ∧
        s1.m_deleteDocumentsLater = true) ∧
      (selectTileLevel (desiredZoomLevel L radius) first rest = s.m_tileLoadLevel →
        s1.m_tileLoadLevel = s.m_tileLoadLevel ∧
        s1.m_deleteDocumentsLater = s.m_deleteDocumentsLater)) ∧
    (∀ (s t : VectorTileModel Box) (calls : List (Call Box)) (id : TileId)
      (d : GeoDataDocument),
      s.m_deleteDocumentsLater = true → run L s calls = some t →
      tileAddedCount t = tileAddedCount s → id.zoomLevel = t.m_tileLoadLevel →
      t.m_deleteDocumentsLater = true ∧
      (updateTile L t id (some d)).m_documents
        = [(id, { m_document := d, m_boundingBox := L.toLatLonBox id })] ∧
      cachedDocuments (updateTile L t id (some d)) = 1 ∧
      (updateTile L t id (some d)).m_deleteDocumentsLater = false) := by
  constructor
  · intro s s1 box radius first rest hl h
    obtain ⟨hlevel, hflag, _⟩ := setViewport_flag L s s1 box radius first rest hl h
    constructor
    · intro hne
      rw [hflag, if_pos hne]
      exact ⟨hlevel, rfl⟩
    · intro heq
      rw [hflag, if_neg (not_not.mpr heq)]
      exact ⟨hlevel.trans heq, rfl⟩
  · intro s t calls id d hflag hrun hcount hlv
    have ht : t.m_deleteDocumentsLater = true := (run_flag L calls s t hrun).2 hflag hcount
    obtain ⟨docs, _, hdocs, _, hnil, _, _, _, _, _, hcleared, _⟩ :=
      updateTile_accept_shape L t id d hlv
    have hone : (updateTile L t id (some d)).m_documents
        = [(id, { m_document := d, m_boundingBox := L.toLatLonBox id })] := by
      rw [hdocs, hnil ht]
      rfl
    refine ⟨ht, hone, ?_, hcleared⟩
    unfold cachedDocuments
    rw [hone]
    rfl

theorem setViewport_defers_invalidation_witness :
    exampleQueried.m_deleteDocumentsLater = true ∧
    (updateTile exampleLayer (clear exampleQueried) ⟨2, 1, 0⟩ (some 7)).m_documents
      = [(⟨2, 1, 0⟩, { m_document := 7, m_boundingBox := (10, 20) })] :=
  ⟨((setViewport_defers_invalidation exampleLayer).1 construct exampleQueried (0, 25) 100 2 [4]
      rfl exampleQueried_eq).1 (by decide) |>.2,
    ((setViewport_defers_invalidation exampleLayer).2 exampleQueried (clear exampleQueried)
      [Call.clear] ⟨2, 1, 0⟩ 7 rfl rfl rfl rfl).2.1⟩

end VectorTileModel

namespace VectorTileModel

variable {Box R : Type}

/-! ### The tile ranges of a viewport -/

/-- The tile queries of a viewport in terms of its tile indices: one query over the
columns `[westX, eastX]`, or, across the date line, a query over `[0, eastX]` followed by
one over `[westX, maxTileX]`, all over the rows `[northY, southY]`. -/
theorem queryViewport_eq (L : Layer Box R) (s : VectorTileModel Box) (lv : Int) (box : Box) :
    queryViewport L s lv box =
      if L.crossesDateLine box = true then
        (queryTiles s lv 0 (viewportTiles L lv box).2.2.1 (viewportTiles L lv box).2.2.2.1
          (viewportTiles L lv box).2.2.2.2).bind
          (fun s1 => queryTiles s1 lv (viewportTiles L lv box).2.1 (viewportTiles L lv box).2.2.1
            (viewportTiles L lv box).1 (viewportTiles L lv box).2.2.2.2)
      else
        queryTiles s lv (viewportTiles L lv box).2.1 (viewportTiles L lv box).2.2.1
          (viewportTiles L lv box).2.2.2.1 (viewportTiles L lv box).2.2.2.2 := by
  unfold queryViewport viewportTiles
  cases hc : L.crossesDateLine box
  · simp only [Bool.not_false, if_true, Bool.false_eq_true, if_false]
  · simp only [Bool.not_true, Bool.false_eq_true, if_false, if_true]
    cases queryTiles s lv 0
      (qBound 0 (L.lat2tileY (L.north box) (maxTile lv L.levelZeroRows))
        (maxTile lv L.levelZeroRows))
      (qBound 0 (L.lon2tileX (L.east box) (maxTile lv L.levelZeroColumns))
        (maxTile lv L.levelZeroColumns))
      (qBound 0 (L.lat2tileY (L.south box) (maxTile lv L.levelZeroRows))
        (maxTile lv L.levelZeroRows)) <;> rfl

theorem viewportTiles_le (L : Layer Box R) (lv : Int) (box : Box) :
    (viewportTiles L lv box).2.1 ≤ (viewportTiles L lv box).1 ∧
    (viewportTiles L lv box).2.2.2.1 ≤ (viewportTiles L lv box).1 ∧
    (viewportTiles L lv box).2.2.1 ≤ maxTile lv L.levelZeroRows ∧
    (viewportTiles L lv box).2.2.2.2 ≤ maxTile lv L.levelZeroRows :=
  ⟨qBound_le _ _, qBound_le _ _, qBound_le _ _, qBound_le _ _⟩

/-- On a grid that fits, the tile queries of a viewport return the state after visiting
the tiles of one range, or of the two ranges of a box across the date line, in order. -/
theorem queryViewport_ranges (L : Layer Box R) (s : VectorTileModel Box) (lv : Int) (box : Box)
    (hX : maxTile lv L.levelZeroColumns < UINT_MAX)
    (hY : maxTile lv L.levelZeroRows < UINT_MAX) :
    queryViewport L s lv box =
      if L.crossesDateLine box = true then
        some ((tileRange lv (viewportTiles L lv box).2.1 (viewportTiles L lv box).2.2.1
            (viewportTiles L lv box).1 (viewportTiles L lv box).2.2.2.2).foldl queryTile
          ((tileRange lv 0 (viewportTiles L lv box).2.2.1 (viewportTiles L lv box).2.2.2.1
            (viewportTiles L lv box).2.2.2.2).foldl queryTile s))
      else
        some ((tileRange lv (viewportTiles L lv box).2.1 (viewportTiles L lv box).2.2.1
          (viewportTiles L lv box).2.2.2.1 (viewportTiles L lv box).2.2.2.2).foldl
            queryTile s) := by
  have hq : ∀ (t : VectorTileModel Box) (a b c d : Nat), c < UINT_MAX → d < UINT_MAX →
      queryTiles t lv a b c d = some ((tileRange lv a b c d).foldl queryTile t) := by
    intro t a b c d hc hd
    rw [queryTiles_eq, if_neg]
    rintro ⟨_, h | ⟨_, h⟩⟩ <;> omega
  obtain ⟨h1, h2, _, h4⟩ := viewportTiles_le L lv box
  have hmx : (viewportTiles L lv box).1 < UINT_MAX := hX
  rw [queryViewport_eq]
  by_cases hc : L.crossesDateLine box = true
  · rw [if_pos hc, if_pos hc, hq _ _ _ _ _ (by omega) (by omega)]
    simp only [Option.some_bind]
    rw [hq _ _ _ _ _ hmx (by omega)]
  · rw [if_neg hc, if_neg hc, hq _ _ _ _ _ (by omega) (by omega)]

end VectorTileModel

namespace VectorTileModel

variable {Box R : Type}

/-- C14, amended: on a dataset with tile levels whose grids fit `unsigned int`, for every
viewport box with `crossesDateLine()` true `setViewport` issues exactly two tile-range
queries over the same rows `[northY, southY]`, first one over the columns `[0, eastX]` and
then one over the columns `[westX, maxTileX]`; the two column ranges are disjoint (no
`TileId` lies in both) when `eastX < westX`, and when `westX ≤ eastX` every tile of the
columns `[westX, eastX]` lies in both.  For a box that does not cross the date line it
issues exactly one query, over the columns `[westX, eastX]`. -/
theorem setViewport_tile_queries (L : Layer Box R) (s : VectorTileModel Box) (box : Box)
    (radius : Int) (first : Int) (rest : List Int) (hl : L.tileLevels = first :: rest)
    (hgrid : gridFits L) :
    ∀ (lv : Int) (s2 : VectorTileModel Box) (maxTileX westX northY eastX southY : Nat),
      lv = selectTileLevel (desiredZoomLevel L radius) first rest →
      s2 = changeLoadLevel { s with m_tileZoomLevel := desiredZoomLevel L radius } lv →
      (maxTileX, westX, northY, eastX, southY) = viewportTiles L lv box →
      (L.crossesDateLine box = true →
        setViewport L s box radius = some (removeTilesOutOfView L
          ((tileRange lv westX northY maxTileX southY).foldl queryTile
            ((tileRange lv 0 northY eastX southY).foldl queryTile s2)) box) ∧
        (eastX < westX → ∀ t : TileId,
          ¬ (t ∈ tileRange lv 0 northY eastX southY ∧
            t ∈ tileRange lv westX northY maxTileX southY)) ∧
        (∀ x y : Nat, westX ≤ x → x ≤ eastX → northY ≤ y → y ≤ southY →
          ({ zoomLevel := lv, x := x, y := y } : TileId) ∈ tileRange lv 0 northY eastX southY ∧
          ({ zoomLevel := lv, x := x, y := y } : TileId)
            ∈ tileRange lv westX northY maxTileX southY)) ∧
      (L.crossesDateLine box = false →
        setViewport L s box radius = some (removeTilesOutOfView L
          ((tileRange lv westX northY eastX southY).foldl queryTile s2) box)) := by
  intro lv s2 maxTileX westX northY eastX southY hlv hs2 hv
  have hmem : lv ∈ L.tileLevels := by
    rw [hlv, hl]
    exact selectTileLevel_mem _ _ _
  obtain ⟨hX, hY⟩ := hgrid lv hmem
  have hq := queryViewport_ranges L s2 lv box hX hY
  rw [← hv] at hq
  simp only at hq
  have hset : setViewport L s box radius
      = (queryViewport L s2 lv box).map (fun s3 => removeTilesOutOfView L s3 box) := by
    rw [setViewport_cons L s box radius first rest hl, hs2, hlv]
  have hle := viewportTiles_le L lv box
  rw [← hv] at hle
  simp only at hle
  constructor
  · intro hc
    rw [if_pos hc] at hq
    refine ⟨by rw [hset, hq]; rfl, ?_, ?_⟩
    · intro hlt t ht
      rw [mem_tileRange, mem_tileRange] at ht
      omega
    · intro x y hx1 hx2 hy1 hy2
      rw [mem_tileRange, mem_tileRange]
      refine ⟨⟨rfl, Nat.zero_le _, hx2, hy1, hy2⟩, ⟨rfl, hx1, ?_, hy1, hy2⟩⟩
      show x ≤ maxTileX
      omega
  · intro hc
    rw [if_neg (by rw [hc]; exact Bool.false_ne_true)] at hq
    rw [hset, hq]
    rfl

theorem setViewport_tile_queries_witness :
    setViewport exampleLayer construct (30, 5) 100 = some (removeTilesOutOfView exampleLayer
      ((tileRange 2 3 0 4 0).foldl queryTile
        ((tileRange 2 0 0 0 0).foldl queryTile
          (changeLoadLevel { (construct : VectorTileModel (Int × Int)) with
            m_tileZoomLevel := desiredZoomLevel exampleLayer 100 } 2))) (30, 5)) :=
  ((setViewport_tile_queries exampleLayer construct (30, 5) 100 2 [4] rfl exampleLayer_gridFits
    2 _ 4 3 0 0 0 rfl rfl rfl).1 rfl).1

/-- C14 as stated fails: the box `(12, 11)` crosses the date line and both of its edges
fall in tile column 1, so the tile `(2, 1, 0)` lies in the column range `[0, eastX]` of
the first query and in the column range `[westX, maxTileX]` of the second. -/
theorem setViewport_ranges_overlap :
    exampleLayer.crossesDateLine (12, 11) = true ∧
    viewportTiles exampleLayer 2 (12, 11) = (4, 1, 0, 1, 0) ∧
    ({ zoomLevel := 2, x := 1, y := 0 } : TileId) ∈ tileRange 2 0 0 1 0 ∧
    ({ zoomLevel := 2, x := 1, y := 0 } : TileId) ∈ tileRange 2 1 0 4 0 := by
  refine ⟨by decide, by decide, by decide, by decide⟩

end VectorTileModel

namespace VectorTileModel

variable {Box R : Type}

/-! ### Tiles outside the grid -/

theorem queryTile_pending_mono (s : VectorTileModel Box) (t u : TileId)
    (h : u ∈ s.m_pendingDocuments) : u ∈ (queryTile s t).m_pendingDocuments := by
  unfold queryTile
  split
  · exact List.mem_append_left _ h
  · exact h

theorem foldl_queryTile_pending_mono (l : List TileId) :
    ∀ (s : VectorTileModel Box) (u : TileId), u ∈ s.m_pendingDocuments →
      u ∈ (l.foldl queryTile s).m_pendingDocuments := by
  induction l with
  | nil => intro s u h; exact h
  | cons t l ih =>
    intro s u h
    exact ih (queryTile s t) u (queryTile_pending_mono s t u h)

/-- After a list of tiles has been queried, each of them is cached or pending. -/
theorem foldl_queryTile_covered (l : List TileId) :
    ∀ (s : VectorTileModel Box) (t : TileId), t ∈ l →
      containsDocument s.m_documents t = true ∨ t ∈ (l.foldl queryTile s).m_pendingDocuments := by
  induction l with
  | nil => intro s t h; exact absurd h (List.not_mem_nil t)
  | cons a l ih =>
    intro s t h
    rcases List.mem_cons.mp h with rfl | h
    · by_cases hc : containsDocument s.m_documents t = true
      · exact Or.inl hc
      · right
        rw [List.foldl_cons]
        apply foldl_queryTile_pending_mono
        by_cases hp : t ∈ s.m_pendingDocuments
        · exact queryTile_pending_mono s t t hp
        · have hm : isMissing s.m_documents s.m_pendingDocuments t = true :=
            (isMissing_iff _ _ _).mpr ⟨by simpa using hc, hp⟩
          simp [queryTile, hm]
    · have hdocs : (queryTile s a).m_documents = s.m_documents :=
        (foldl_queryTile_frame [a] s).1
      rcases ih (queryTile s a) t h with h1 | h1
      · exact Or.inl (hdocs ▸ h1)
      · exact Or.inr h1

/-- For every viewport box across the date line, on a grid that fits, the tile of column
`maxTileX` in row `northY` is cached or pending after `setViewport`, that is, it is
requested unless it is already there, although the columns of the grid end at
`maxTileX - 1`. -/
theorem setViewport_crossing_covers_maxTileX (L : Layer Box R) (s s1 : VectorTileModel Box)
    (box : Box) (radius : Int) (first : Int) (rest : List Int)
    (hl : L.tileLevels = first :: rest) (hgrid : gridFits L)
    (hc : L.crossesDateLine box = true) (lv : Int) (maxTileX westX northY eastX southY : Nat)
    (hlv : lv = selectTileLevel (desiredZoomLevel L radius) first rest)
    (hv : (maxTileX, westX, northY, eastX, southY) = viewportTiles L lv box)
    (hrows : northY ≤ southY) (h : setViewport L s box radius = some s1) :
    maxTileX = maxTile lv L.levelZeroColumns ∧
    (containsDocument s.m_documents { zoomLevel := lv, x := maxTileX, y := northY } = true ∨
      ({ zoomLevel := lv, x := maxTileX, y := northY } : TileId) ∈ s1.m_pendingDocuments) := by
  have hmem : lv ∈ L.tileLevels := by
    rw [hlv, hl]
    exact selectTileLevel_mem _ _ _
  obtain ⟨hX, hY⟩ := hgrid lv hmem
  have hq := queryViewport_ranges L
    (changeLoadLevel { s with m_tileZoomLevel := desiredZoomLevel L radius } lv) lv box hX hY
  have hle := viewportTiles_le L lv box
  have hmax : maxTileX = maxTile lv L.levelZeroColumns := congrArg Prod.fst hv
  rw [← hv] at hq hle
  simp only at hq hle
  rw [if_pos hc] at hq
  rw [setViewport_cons L s box radius first rest hl, ← hlv, hq] at h
  refine ⟨hmax, ?_⟩
  rw [← Option.some.inj h]
  have hin : ({ zoomLevel := lv, x := maxTileX, y := northY } : TileId)
      ∈ tileRange lv westX northY maxTileX southY := by
    rw [mem_tileRange]
    exact ⟨rfl, hle.1, le_refl _, le_refl _, hrows⟩
  rcases foldl_queryTile_covered _
      ((tileRange lv 0 northY eastX southY).foldl queryTile
        (changeLoadLevel { s with m_tileZoomLevel := desiredZoomLevel L radius } lv))
      _ hin with h1 | h1
  · left
    rw [(foldl_queryTile_frame _ _).1, (changeLoadLevel_fields _ _).2.1] at h1
    exact h1
  · exact Or.inr h1

/-- C13, at a failing input: on the dataset `exampleLayer` (one column and one row at level
zero, load level 2, a grid of 4 columns) `setViewport` with the box `(30, 5)`, which
crosses the date line, submits load jobs for the columns 0, 3 and 4, and column 4 is not a
column of the grid. -/
theorem setViewport_requests_column_outside_grid :
    (setViewport exampleLayer construct (30, 5) 100).map (fun s1 => s1.m_threadPool)
      = some [{ zoomLevel := 2, x := 0, y := 0 }, { zoomLevel := 2, x := 3, y := 0 },
        { zoomLevel := 2, x := 4, y := 0 }] ∧
    exampleLayer.levelZeroColumns * 2 ^ 2 = 4 := by
  refine ⟨by decide, by decide⟩

end VectorTileModel

namespace SphericalScanlineTextureMapper

variable {G : Type}

/-! ### The loops of `mapTexture` for every stride -/

/-- The column loop, one pass unfolded: for `x < xRight` the body runs once and the loop
goes on behind the column the body has reached. -/
theorem scanColumns_succ (m : SphericalScanlineTextureMapper G) (vp : ViewParams G) (y : Int)
    (sl : Scanline) (fuel : Nat) (x ncount scanLine : Int) (interpolate : Bool)
    (prev : Option G) :
    scanColumns m vp y sl (fuel + 1) x ncount scanLine interpolate prev =
      if x < sl.xRight then
        match scanColumns m vp y sl fuel ((scanStep m vp y sl x ncount scanLine prev).x + 1)
            (scanStep m vp y sl x ncount scanLine prev).ncount
            ((scanStep m vp y sl x ncount scanLine prev).scanLine + 1)
            (scanStep m vp y sl x ncount scanLine prev).interpolate
            (some (scanStep m vp y sl x ncount scanLine prev).lonLat) with
        | none => none
        | some (events, interpolate2, prev2) =>
          some ((scanStep m vp y sl x ncount scanLine prev).events ++ events, interpolate2, prev2)
      else some ([], interpolate, prev) := by
  rfl

end SphericalScanlineTextureMapper

namespace SphericalScanlineTextureMapper

variable {G : Type}

/-- After `resizeMap`, whatever the canvas size, the stored stride is at least 1. -/
theorem resizeMap_nBest_pos (m : SphericalScanlineTextureMapper G) (W H imageRadius : Int) :
    1 ≤ (resizeMap m W H imageRadius).m_nBest := by
  have hfold : ∀ (l : List Nat) (st : Int × Int), (∀ it ∈ l, 1 ≤ it) → 1 ≤ st.2 →
      1 ≤ (l.foldl (resizeMapStep W) st).2 := by
    intro l
    induction l with
    | nil => intro st _ h; exact h
    | cons a l ih =>
      intro st hl h
      apply ih _ (fun it hit => hl it (List.mem_cons_of_mem _ hit))
      have ha : 1 ≤ a := hl a (List.mem_cons_self _ _)
      unfold resizeMapStep
      simp only
      split
      · show (1 : Int) ≤ (a : Int)
        omega
      · exact h
  have hbest : (resizeMap m W H imageRadius).m_nBest
      = ((List.range' 1 47).foldl (resizeMapStep W) (W - 1, 2)).2 := by
    simp only [resizeMap, resizeMapBase]
  rw [hbest]
  apply hfold
  · intro it hit
    rw [List.mem_range'_1] at hit
    omega
  · norm_num

end SphericalScanlineTextureMapper

namespace SphericalScanlineTextureMapper

/-! ### The pole in the first interpolation interval -/

theorem poleMapper_fields :
    poleMapper.m_imageWidth = 40 ∧ poleMapper.m_imageHeight = 1 ∧ poleMapper.m_imageRadius = 400 ∧
    poleMapper.m_interlaced = false ∧ poleMapper.m_interpolate = false ∧ poleMapper.m_prev = none :=
  ⟨rfl, rfl, rfl, rfl, rfl, rfl⟩

theorem pole_scanline :
    scanline { poleMapper with m_n := 8 } poleView 0
      = { xLeft := 10, xRight := 30, xIpLeft := 16, xIpRight := 16, crossingPoleArea := true } := by
  have hs : Nat.sqrt 100 = 10 := Nat.sqrt_eq 10
  have hrad : (poleView.radius * poleView.radius - (0 - Int.tdiv (1 : Int) 2) * (0 - Int.tdiv (1 : Int) 2)).toNat = 100 := by
    decide
  simp only [scanline, poleMapper_fields.1, poleMapper_fields.2.1, hrad, hs]
  decide

theorem pole_columns :
    scanColumns { poleMapper with m_n := 8 } poleView 0
        { xLeft := 10, xRight := 30, xIpLeft := 16, xIpRight := 16, crossingPoleArea := true }
        20 10 0 10 false none
      = some ([MapperEvent.pixelValue (-10, 0) 0 10 true, MapperEvent.pixelValue (-9, 0) 0 11 true,
          MapperEvent.pixelValue (-8, 0) 0 12 true, MapperEvent.pixelValue (-7, 0) 0 13 true,
          MapperEvent.pixelValue (-6, 0) 0 14 true, MapperEvent.pixelValue (-5, 0) 0 15 true,
          MapperEvent.pixelValueApprox (some (-5, 0)) (3, 0) 0 16 true,
          MapperEvent.pixelValue (3, 0) 0 23 true, MapperEvent.pixelValue (4, 0) 0 24 true,
          MapperEvent.pixelValue (5, 0) 0 25 true, MapperEvent.pixelValue (6, 0) 0 26 true,
          MapperEvent.pixelValue (7, 0) 0 27 true, MapperEvent.pixelValue (8, 0) 0 28 true,
          MapperEvent.pixelValue (9, 0) 0 29 true], false, some (9, 0)) := by
  rfl

/-- C20, at a failing input: a canvas of 40 by 1 pixels, radius 10, quality High (stride 8),
the north pole front-facing on column 16 of row 0.  On scanline 0 the interpolated range
is `[xIpLeft, xIpRight] = [16, 16]`, the scanline crosses the pole area and the pole column
16 lies in the range, yet the columns 16 to 22 are filled by one `pixelValueApprox` call
and no `pixelValue` call writes column 16: the pole test looks one interval ahead and
never fires for a pole in the first interval. -/
theorem mapTexture_pole_column_interpolated :
    (mapTexture poleMapper poleView).map (fun r => (r.1.m_n, r.2))
      = some (8, [MapperEvent.resetTilehash, MapperEvent.selectTileLevel,
          MapperEvent.pixelValue (-10, 0) 0 10 true, MapperEvent.pixelValue (-9, 0) 0 11 true,
          MapperEvent.pixelValue (-8, 0) 0 12 true, MapperEvent.pixelValue (-7, 0) 0 13 true,
          MapperEvent.pixelValue (-6, 0) 0 14 true, MapperEvent.pixelValue (-5, 0) 0 15 true,
          MapperEvent.pixelValueApprox (some (-5, 0)) (3, 0) 0 16 true,
          MapperEvent.pixelValue (3, 0) 0 23 true, MapperEvent.pixelValue (4, 0) 0 24 true,
          MapperEvent.pixelValue (5, 0) 0 25 true, MapperEvent.pixelValue (6, 0) 0 26 true,
          MapperEvent.pixelValue (7, 0) 0 27 true, MapperEvent.pixelValue (8, 0) 0 28 true,
          MapperEvent.pixelValue (9, 0) 0 29 true, MapperEvent.cleanupTilehash]) ∧
    scanline { poleMapper with m_n := 8 } poleView 0
      = { xLeft := 10, xRight := 30, xIpLeft := 16, xIpRight := 16, crossingPoleArea := true } ∧
    Int.tdiv poleMapper.m_imageWidth 2 + poleView.northPoleX = 16 := by
  have hn : (if decide (poleView.mapQuality = MapQuality.Print) = true then (1 : Int)
      else if poleMapper.m_imageRadius < poleView.radius * poleView.radius
        then poleMapper.m_nBest else 8) = 8 := by
    rw [poleMapper_fields.2.2.1]
    decide
  have hrange : yRange { poleMapper with m_n := 8 } poleView.radius = (0, 1) := by
    decide
  have hrows : scanRows { poleMapper with m_n := 8 } poleView 1 false 1 0 false none
      = some ([MapperEvent.pixelValue (-10, 0) 0 10 true, MapperEvent.pixelValue (-9, 0) 0 11 true,
          MapperEvent.pixelValue (-8, 0) 0 12 true, MapperEvent.pixelValue (-7, 0) 0 13 true,
          MapperEvent.pixelValue (-6, 0) 0 14 true, MapperEvent.pixelValue (-5, 0) 0 15 true,
          MapperEvent.pixelValueApprox (some (-5, 0)) (3, 0) 0 16 true,
          MapperEvent.pixelValue (3, 0) 0 23 true, MapperEvent.pixelValue (4, 0) 0 24 true,
          MapperEvent.pixelValue (5, 0) 0 25 true, MapperEvent.pixelValue (6, 0) 0 26 true,
          MapperEvent.pixelValue (7, 0) 0 27 true, MapperEvent.pixelValue (8, 0) 0 28 true,
          MapperEvent.pixelValue (9, 0) 0 29 true], false, some (9, 0)) := by
    have hlt : (0 : Int) < 1 := by decide
    simp only [scanRows, if_pos hlt, pole_scanline]
    have hfuel : ((30 : Int) - 10).toNat = 20 := by decide
    rw [hfuel, pole_columns]
    rfl
  have hi : (poleMapper.m_interlaced || decide (poleView.mapQuality = MapQuality.Low)) = false := by
    decide
  have hf : ((1 : Int) - 0).toNat = 1 := by decide
  have h8 : ¬ (8 : Int) = 0 := by decide
  have hrows1 : scanRows { poleMapper with m_n := 8 } poleView 1 false 1 0
      poleMapper.m_interpolate poleMapper.m_prev = _ := hrows
  refine ⟨?_, pole_scanline, by decide⟩
  simp only [mapTexture, hn, hrange, hi, hf, if_neg h8, hrows1]
  rfl


end SphericalScanlineTextureMapper

namespace SphericalScanlineTextureMapper

/-! ### The date-line branch of the interpolation (C15) -/

theorem datelineEastToWest_length {K : Type} [LinearOrderedField K] (pi stepLon stepLat : K)
    (passes : Nat) : ∀ prevLon prevLat : K,
      (datelineEastToWest pi stepLon stepLat passes prevLon prevLat).length = passes := by
  induction passes with
  | zero => intro _ _; rfl
  | succ k ih =>
    intro prevLon prevLat
    simp only [datelineEastToWest, List.length_cons, ih]

theorem datelineWestToEast_length {K : Type} [LinearOrderedField K] (pi stepLon stepLat : K)
    (passes : Nat) : ∀ curStepLon prevLat : K,
      (datelineWestToEast pi stepLon stepLat passes curStepLon prevLat).length = passes := by
  induction passes with
  | zero => intro _ _; rfl
  | succ k ih =>
    intro curStepLon prevLat
    simp only [datelineWestToEast, List.length_cons, ih]

/-- East to west: the longitude of pass `j` is `j` steps below the start, up to one turn,
as long as a wrapped longitude stays above `-pi`. -/
theorem datelineEastToWest_lons {K : Type} [LinearOrderedField K] (pi s stepLat base : K)
    (n : Nat) (hs : 0 ≤ s) (hend : -pi < base - (n : K) * s + 2 * pi) (passes : Nat) :
    ∀ (i : Nat) (prevLon prevLat : K), i + passes ≤ n →
      (prevLon = base - (i : K) * s ∨ prevLon = base - (i : K) * s + 2 * pi) →
      ∀ (j : Nat) (v : K),
        ((datelineEastToWest pi s stepLat passes prevLon prevLat).map Prod.fst)[j]? = some v →
        v = base - ((i + j + 1 : Nat) : K) * s ∨ v = base - ((i + j + 1 : Nat) : K) * s + 2 * pi := by
  induction passes with
  | zero =>
    intro i prevLon prevLat _ _ j v hv
    simp [datelineEastToWest] at hv
  | succ k ih =>
    intro i prevLon prevLat hik hp j v hv
    have hnext : (if prevLon - s ≤ -pi then prevLon - s + 2 * pi else prevLon - s)
          = base - ((i + 1 : Nat) : K) * s ∨
        (if prevLon - s ≤ -pi then prevLon - s + 2 * pi else prevLon - s)
          = base - ((i + 1 : Nat) : K) * s + 2 * pi := by
      have hcast : ((i + 1 : Nat) : K) = (i : K) + 1 := by push_cast; ring
      rcases hp with hp | hp
      · by_cases hw : prevLon - s ≤ -pi
        · right
          rw [if_pos hw, hp, hcast]
          ring
        · left
          rw [if_neg hw, hp, hcast]
          ring
      · right
        have hle : ((i + 1 : Nat) : K) ≤ (n : K) := by
          exact_mod_cast (show i + 1 ≤ n by omega)
        have hmono : base - (n : K) * s + 2 * pi ≤ base - ((i + 1 : Nat) : K) * s + 2 * pi := by
          have := mul_le_mul_of_nonneg_right hle hs
          linarith
        have hw : ¬ prevLon - s ≤ -pi := by
          rw [hp]
          rw [hcast] at hmono
          intro hcon
          linarith
        rw [if_neg hw, hp, hcast]
        ring
    cases j with
    | zero =>
      simp only [datelineEastToWest, List.map_cons, List.getElem?_cons_zero,
        Option.some.injEq] at hv
      rw [← hv]
      exact hnext
    | succ j =>
      simp only [datelineEastToWest, List.map_cons, List.getElem?_cons_succ] at hv
      have := ih (i + 1) _ _ (by omega) hnext j v hv
      have hidx : i + 1 + j + 1 = i + (j + 1) + 1 := by omega
      rw [hidx] at this
      exact this

/-- West to east: the longitude of pass `j` is `j` steps above the start, up to one
turn. -/
theorem datelineWestToEast_lons {K : Type} [LinearOrderedField K] (pi s stepLat start : K)
    (passes : Nat) :
    ∀ (i : Nat) (curStepLon prevLat : K), curStepLon = start + (i : K) * s →
      ∀ (j : Nat) (v : K),
        ((datelineWestToEast pi s stepLat passes curStepLon prevLat).map Prod.fst)[j]? = some v →
        v = start + ((i + j + 1 : Nat) : K) * s ∨
          v = start + ((i + j + 1 : Nat) : K) * s + 2 * pi := by
  induction passes with
  | zero =>
    intro i curStepLon prevLat _ j v hv
    simp [datelineWestToEast] at hv
  | succ k ih =>
    intro i curStepLon prevLat hc j v hv
    have hcast : ((i + 1 : Nat) : K) = (i : K) + 1 := by push_cast; ring
    have hnext : curStepLon + s = start + ((i + 1 : Nat) : K) * s := by
      rw [hc, hcast]
      ring
    cases j with
    | zero =>
      simp only [datelineWestToEast, List.map_cons, List.getElem?_cons_zero,
        Option.some.injEq] at hv
      rw [← hv, hnext]
      by_cases hw : start + ((i + 1 : Nat) : K) * s ≤ -pi
      · right
        rw [if_pos hw]
      · left
        rw [if_neg hw]
    | succ j =>
      simp only [datelineWestToEast, List.map_cons, List.getElem?_cons_succ] at hv
      have := ih (i + 1) _ _ hnext j v hv
      have hidx : i + 1 + j + 1 = i + (j + 1) + 1 := by omega
      rw [hidx] at this
      exact this

/-- C15. In the date-line branch of `pixelValueApprox` (stride `n >= 2`, both anchor
longitudes in `[-pi, pi]`, `|lon - prevLon| >= pi`), with the step
`s = (2 * pi - |lon - prevLon|) / n`: there are `n - 1` calls of `pixelValue`;
`0 <= s <= 2 * pi / n`; when `prevLon < lon` the longitude of call `j` is `prevLon - j * s`
or that plus one turn, and `lon` is `prevLon - n * s` plus one turn; otherwise the
longitude of call `j` is `prevLon + j * s` or that minus one turn, and `lon` is
`prevLon + n * s` minus one turn.  So the longitudes move in one direction modulo
`2 * pi`, by `s` from each to the next, from `prevLon` to the first and from the last to
`lon`. -/
theorem pixelValueApproxDateline_steps {K : Type} [LinearOrderedField K] (pi : K)
    (hpi : 0 < pi) (n : Nat) (hn : 2 ≤ n) (prevLon prevLat lon lat : K)
    (hp1 : -pi ≤ prevLon) (hp2 : prevLon ≤ pi) (hl1 : -pi ≤ lon) (hl2 : lon ≤ pi)
    (hd : pi ≤ |lon - prevLon|) :
    ((pixelValueApproxDateline pi (n : Int) prevLon prevLat lon lat).map Prod.fst).length
        = n - 1 ∧
      0 ≤ (2 * pi - |lon - prevLon|) / (n : K) ∧
      (2 * pi - |lon - prevLon|) / (n : K) ≤ 2 * pi / (n : K) ∧
      (prevLon < lon →
        lon = prevLon - (n : K) * ((2 * pi - |lon - prevLon|) / (n : K)) + 2 * pi ∧
        ∀ (j : Nat) (v : K),
          ((pixelValueApproxDateline pi (n : Int) prevLon prevLat lon lat).map Prod.fst)[j]?
            = some v →
          v = prevLon - ((j + 1 : Nat) : K) * ((2 * pi - |lon - prevLon|) / (n : K)) ∨
          v = prevLon - ((j + 1 : Nat) : K) * ((2 * pi - |lon - prevLon|) / (n : K))
                + 2 * pi) ∧
      (¬ prevLon < lon →
        lon = prevLon + (n : K) * ((2 * pi - |lon - prevLon|) / (n : K)) - 2 * pi ∧
        ∀ (j : Nat) (v : K),
          ((pixelValueApproxDateline pi (n : Int) prevLon prevLat lon lat).map Prod.fst)[j]?
            = some v →
          v = prevLon + ((j + 1 : Nat) : K) * ((2 * pi - |lon - prevLon|) / (n : K)) ∨
          v = prevLon + ((j + 1 : Nat) : K) * ((2 * pi - |lon - prevLon|) / (n : K))
                - 2 * pi) := by
  have hnK : (0 : K) < (n : K) := by exact_mod_cast (show 0 < n by omega)
  have hnK0 : (n : K) ≠ 0 := ne_of_gt hnK
  have habs : |lon - prevLon| ≤ 2 * pi := by
    rw [abs_le]
    constructor <;> linarith
  have habs0 : 0 ≤ |lon - prevLon| := abs_nonneg _
  have hs0 : 0 ≤ (2 * pi - |lon - prevLon|) / (n : K) :=
    div_nonneg (by linarith) (le_of_lt hnK)
  have hcancel : (n : K) * ((2 * pi - |lon - prevLon|) / (n : K))
      = 2 * pi - |lon - prevLon| := by
    field_simp
  have hpass : ((n : Int) - 1).toNat = n - 1 := by omega
  refine ⟨?_, hs0, ?_, ?_, ?_⟩
  · rw [List.length_map]
    unfold pixelValueApproxDateline
    simp only [hpass]
    split
    · exact datelineEastToWest_length _ _ _ _ _ _
    · exact datelineWestToEast_length _ _ _ _ _ _
  · exact div_le_div_of_nonneg_right (by linarith) (le_of_lt hnK)
  · intro hlt
    have hab : |lon - prevLon| = lon - prevLon := abs_of_pos (by linarith)
    have hend : lon = prevLon - (n : K) * ((2 * pi - |lon - prevLon|) / (n : K)) + 2 * pi := by
      rw [hcancel, hab]
      ring
    refine ⟨hend, ?_⟩
    intro j v hv
    unfold pixelValueApproxDateline at hv
    simp only [hpass, Int.cast_natCast, mul_one_div, if_pos hlt] at hv
    have hlon0 : -pi < lon := by
      rw [hab] at hd
      linarith
    have := datelineEastToWest_lons pi ((2 * pi - |lon - prevLon|) / (n : K))
      _ prevLon n hs0 (by rw [← hend]; exact hlon0)
      (n - 1) 0 prevLon prevLat (by omega) (by left; simp) j v hv
    simpa using this
  · intro hlt
    have hle : lon - prevLon ≤ 0 := by
      have := not_lt.mp hlt
      linarith
    have hab : |lon - prevLon| = -(lon - prevLon) := abs_of_nonpos hle
    have hend : lon = prevLon + (n : K) * ((2 * pi - |lon - prevLon|) / (n : K)) - 2 * pi := by
      rw [hcancel, hab]
      ring
    refine ⟨hend, ?_⟩
    intro j v hv
    unfold pixelValueApproxDateline at hv
    simp only [hpass, Int.cast_natCast, mul_one_div, if_neg hlt] at hv
    have hstart : lon - (n : K) * ((2 * pi - |lon - prevLon|) / (n : K))
        = (prevLon - 2 * pi) + ((0 : Nat) : K) * ((2 * pi - |lon - prevLon|) / (n : K)) := by
      rw [hcancel, hab]
      push_cast
      ring
    have := datelineWestToEast_lons pi ((2 * pi - |lon - prevLon|) / (n : K))
      _ (prevLon - 2 * pi) (n - 1) 0 _ prevLat
      hstart j v hv
    rcases this with h | h
    · right
      rw [h]
      simp only [Nat.zero_add]
      ring
    · left
      rw [h]
      simp only [Nat.zero_add]
      ring

/-- Witness for C15 over the rationals with `22 / 7` in the place of `pi`: stride 4,
from longitude 3 to longitude -3. -/
theorem pixelValueApproxDateline_steps_witness :
    ((pixelValueApproxDateline (22 / 7 : ℚ) ((4 : Nat) : Int) 3 0 (-3) 1).map Prod.fst).length
        = 4 - 1 ∧
      (pixelValueApproxDateline (22 / 7 : ℚ) 4 3 0 (-3) 1).map Prod.fst
        = [43 / 14, 22 / 7, -43 / 14] ∧
      (2 * (22 / 7 : ℚ) - |(-3 : ℚ) - 3|) / ((4 : Nat) : ℚ) = 1 / 14 :=
  ⟨(pixelValueApproxDateline_steps (22 / 7 : ℚ) (by norm_num) 4 (by decide) 3 0 (-3) 1
      (by norm_num) (by norm_num) (by norm_num) (by norm_num)
      (by norm_num [abs_of_neg])).1,
    by norm_num [pixelValueApproxDateline, datelineEastToWest, datelineWestToEast],
    by norm_num [abs_of_neg]⟩

end SphericalScanlineTextureMapper

namespace HttpDownloadManager

variable {I : Type} [DecidableEq I]

/-! ### The download scheduler: the active-jobs limit -/

theorem activateLoop_length {J : Type} (limit : Nat) (queue : List (HttpJob J)) :
    ∀ active : List (HttpJob J), active.length ≤ limit →
      (activateLoop limit queue active).2.length ≤ limit := by
  induction queue with
  | nil => intro active h; exact h
  | cons j queue ih =>
    intro active h
    unfold activateLoop
    split
    · apply ih
      rw [List.length_append, List.length_singleton]
      omega
    · exact h

theorem enqueue_active {J : Type} (s : HttpDownloadManager J) (j : HttpJob J) :
    (enqueue s j).m_activatedJobList = s.m_activatedJobList ∧
      (enqueue s j).m_activatedJobsLimit = s.m_activatedJobsLimit := by
  unfold enqueue
  split <;> exact ⟨rfl, rfl⟩

theorem call_activatedJobsLimit (s : HttpDownloadManager I) (c : Call I) :
    (call s c).m_activatedJobsLimit = s.m_activatedJobsLimit := by
  cases c with
  | addJob id =>
    simp only [call, addJob]
    by_cases he : s.m_downloadEnabled = true
    · rw [if_pos he]
      by_cases ha : acceptJob s id = true
      · rw [if_pos ha]
        exact (enqueue_active (noteSubmission s id) _).2
      · rw [if_neg ha]
        rfl
    · rw [if_neg he]
  | activateJobs => rfl
  | reportResult id success =>
    simp only [call, reportResult]
    cases s.m_activatedJobList.find? (fun j => decide (j.id = id)) with
    | none => rfl
    | some j =>
      simp only
      by_cases hs : success = true
      · rw [if_pos hs]
      · rw [if_neg hs]
        by_cases hr : j.failureCount + 1 < s.retryBound
        · rw [if_pos hr]
          exact (enqueue_active _ _).2
        · rw [if_neg hr]
  | requeue stale => rfl
  | removeJob id => rfl
  | resetBlackList => rfl

theorem call_active_le (s : HttpDownloadManager I) (c : Call I)
    (h : s.m_activatedJobList.length ≤ s.m_activatedJobsLimit) :
    (call s c).m_activatedJobList.length ≤ s.m_activatedJobsLimit := by
  cases c with
  | addJob id =>
    simp only [call, addJob]
    by_cases he : s.m_downloadEnabled = true
    · rw [if_pos he]
      by_cases ha : acceptJob s id = true
      · rw [if_pos ha]
        have h1 := enqueue_active (noteSubmission s id) { id := id, failureCount := 0 }
        simp only [activateJobs, h1.1, h1.2]
        exact activateLoop_length _ _ _ h
      · rw [if_neg ha]
        exact h
    · rw [if_neg he]
      exact h
  | activateJobs =>
    simp only [call, activateJobs]
    exact activateLoop_length _ _ _ h
  | reportResult id success =>
    have hf : (s.m_activatedJobList.filter (fun k => !decide (k.id = id))).length
        ≤ s.m_activatedJobsLimit :=
      le_trans (List.length_filter_le _ _) h
    simp only [call, reportResult]
    cases s.m_activatedJobList.find? (fun j => decide (j.id = id)) with
    | none => exact h
    | some j =>
      simp only
      by_cases hs : success = true
      · rw [if_pos hs]
        exact hf
      · rw [if_neg hs]
        by_cases hr : j.failureCount + 1 < s.retryBound
        · rw [if_pos hr, (enqueue_active _ _).1]
          exact hf
        · rw [if_neg hr]
          exact hf
  | requeue stale => exact h
  | removeJob id =>
    exact le_trans (List.length_filter_le _ _) h
  | resetBlackList => exact h

theorem run_active_le (calls : List (Call I)) :
    ∀ s : HttpDownloadManager I, s.m_activatedJobList.length ≤ s.m_activatedJobsLimit →
      (run s calls).m_activatedJobList.length ≤ s.m_activatedJobsLimit := by
  induction calls with
  | nil => intro s h; exact h
  | cons c calls ih =>
    intro s h
    have h1 := call_active_le s c h
    rw [← call_activatedJobsLimit s c] at h1
    have := ih (call s c) h1
    rw [call_activatedJobsLimit s c] at this
    exact this

end HttpDownloadManager

namespace HttpDownloadManager

variable {I : Type} [DecidableEq I]

/-- C17. After every sequence of calls on a new scheduler (submissions, activations,
result reports, requeues, removals, resets of the blacklist) the active list has at most
`m_activatedJobsLimit` jobs.  With active limit 2 and queue limit 5, submitting six jobs
with distinct identifiers `a, b, c, d, e, f` in this order leaves exactly the two jobs
`a, b` active, the jobs `f, e, d, c` in the queue (top first) and nothing in the waiting
backlog, so every one of the six identifiers is in queue, waiting backlog or active
list. -/
theorem activated_jobs_within_limit :
    (∀ (downloadEnabled : Bool) (activatedJobsLimit jobQueueLimit retryBound : Nat)
        (calls : List (Call I)),
        (run (construct downloadEnabled activatedJobsLimit jobQueueLimit retryBound)
          calls).m_activatedJobList.length ≤ activatedJobsLimit) ∧
      (∀ (a b c d e f : I) (retryBound : Nat), [a, b, c, d, e, f].Nodup →
        (run (construct true 2 5 retryBound)
            ([a, b, c, d, e, f].map Call.addJob)).m_activatedJobList.length = 2 ∧
          jobIds (run (construct true 2 5 retryBound)
            ([a, b, c, d, e, f].map Call.addJob)).m_activatedJobList = [a, b] ∧
          jobIds (run (construct true 2 5 retryBound)
            ([a, b, c, d, e, f].map Call.addJob)).m_jobQueue = [f, e, d, c] ∧
          jobIds (run (construct true 2 5 retryBound)
            ([a, b, c, d, e, f].map Call.addJob)).m_waitingQueue = [] ∧
          ∀ i ∈ [a, b, c, d, e, f],
            i ∈ jobIds
              ((run (construct true 2 5 retryBound)
                  ([a, b, c, d, e, f].map Call.addJob)).m_jobQueue ++
                (run (construct true 2 5 retryBound)
                  ([a, b, c, d, e, f].map Call.addJob)).m_waitingQueue ++
                (run (construct true 2 5 retryBound)
                  ([a, b, c, d, e, f].map Call.addJob)).m_activatedJobList)) := by
  constructor
  · intro downloadEnabled activatedJobsLimit jobQueueLimit retryBound calls
    exact run_active_le calls (construct downloadEnabled activatedJobsLimit jobQueueLimit
      retryBound) (Nat.zero_le _)
  · intro a b c d e f retryBound h
    simp only [List.nodup_cons, List.mem_cons, List.mem_singleton, not_or, List.not_mem_nil,
      not_false_eq_true, List.nodup_nil, and_true] at h
    obtain ⟨⟨h1, h2, h3, h4, h5⟩, ⟨h6, h7, h8, h9⟩, ⟨h10, h11, h12⟩, ⟨h13, h14⟩, h15⟩ := h
    have hrun : run (construct true 2 5 retryBound) ([a, b, c, d, e, f].map Call.addJob)
        = { m_downloadEnabled := true
            m_jobQueue := [⟨f, 0⟩, ⟨e, 0⟩, ⟨d, 0⟩, ⟨c, 0⟩]
            m_waitingQueue := []
            m_activatedJobList := [⟨a, 0⟩, ⟨b, 0⟩]
            m_jobBlackList := []
            m_activatedJobsLimit := 2
            m_jobQueueLimit := 5
            retryBound := retryBound
            unresolved := [a, b, c, d, e, f] } := by
      simp [run, call, construct, addJob, acceptJob, heldIds, held, jobIds, noteSubmission,
        enqueue, activateJobs, activateLoop, Ne.symm h1, Ne.symm h2, Ne.symm h3, Ne.symm h4,
        Ne.symm h5, Ne.symm h6, Ne.symm h7, Ne.symm h8, Ne.symm h9, Ne.symm h10, Ne.symm h11,
        Ne.symm h12, Ne.symm h13, Ne.symm h14, Ne.symm h15]
    rw [hrun]
    simp [jobIds]

/-- Witness for C17: the six jobs 1, ..., 6. -/
theorem activated_jobs_within_limit_witness :
    [1, 2, 3, 4, 5, 6].Nodup ∧
      jobIds (run (@construct Nat true 2 5 3)
        ([1, 2, 3, 4, 5, 6].map Call.addJob)).m_activatedJobList = [1, 2] ∧
      jobIds (run (@construct Nat true 2 5 3)
        ([1, 2, 3, 4, 5, 6].map Call.addJob)).m_jobQueue = [6, 5, 4, 3] :=
  ⟨by decide,
    ((@activated_jobs_within_limit Nat _).2 1 2 3 4 5 6 3 (by decide)).2.1,
    ((@activated_jobs_within_limit Nat _).2 1 2 3 4 5 6 3 (by decide)).2.2.1⟩

end HttpDownloadManager

namespace HttpDownloadManager
variable {I : Type} [DecidableEq I]

/-! ### The download scheduler: exclusive membership -/

theorem heldIds_eq {J : Type} (s : HttpDownloadManager J) :
    heldIds s = jobIds s.m_jobQueue ++ jobIds s.m_waitingQueue ++ jobIds s.m_activatedJobList
      ++ jobIds s.m_jobBlackList := by
  simp only [heldIds, held, jobIds, List.map_append]

theorem jobIds_filter {J : Type} (p : J → Bool) (l : List (HttpJob J)) :
    jobIds (l.filter (fun j => p j.id)) = (jobIds l).filter p := by
  simp only [jobIds, List.filter_map]
  rfl

theorem activateLoop_count (limit : Nat) (x : I) (queue : List (HttpJob I)) :
    ∀ active : List (HttpJob I),
      (jobIds (activateLoop limit queue active).1).count x
        + (jobIds (activateLoop limit queue active).2).count x
        = (jobIds queue).count x + (jobIds active).count x := by
  induction queue with
  | nil => intro active; simp [activateLoop, jobIds]
  | cons j queue ih =>
    intro active
    unfold activateLoop
    split
    · rw [ih]
      simp only [jobIds, List.map_append, List.map_cons, List.map_nil, List.count_append,
        List.count_cons, List.count_nil]
      omega
    · rfl

theorem migrate_count (limit : Nat) (x : I) (waiting : List (HttpJob I)) :
    ∀ queue : List (HttpJob I),
      (jobIds (migrate limit waiting queue).1).count x
        + (jobIds (migrate limit waiting queue).2).count x
        = (jobIds waiting).count x + (jobIds queue).count x := by
  induction waiting with
  | nil => intro queue; simp [migrate, jobIds]
  | cons j waiting ih =>
    intro queue
    unfold migrate
    split
    · rw [ih]
      simp only [jobIds, List.map_cons, List.count_cons]
      omega
    · rfl

theorem heldIds_exclusive {J : Type} (s : HttpDownloadManager J) (h : (heldIds s).Nodup)
    (i : J) :
    (i ∈ jobIds s.m_jobQueue →
        i ∉ jobIds s.m_waitingQueue ∧ i ∉ jobIds s.m_activatedJobList ∧
          i ∉ jobIds s.m_jobBlackList) ∧
      (i ∈ jobIds s.m_waitingQueue →
        i ∉ jobIds s.m_activatedJobList ∧ i ∉ jobIds s.m_jobBlackList) ∧
      (i ∈ jobIds s.m_activatedJobList → i ∉ jobIds s.m_jobBlackList) := by
  rw [heldIds_eq] at h
  simp only [List.nodup_append, List.disjoint_left, List.mem_append] at h
  obtain ⟨⟨⟨_, _, hqw⟩, _, hqwa⟩, _, hqwab⟩ := h
  refine ⟨fun hq => ⟨hqw hq, hqwa (Or.inl hq), hqwab (Or.inl (Or.inl hq))⟩,
    fun hw => ⟨hqwa (Or.inr hw), hqwab (Or.inl (Or.inr hw))⟩, fun ha => hqwab (Or.inr ha)⟩

theorem consistent_of_perm {J : Type} (s t : HttpDownloadManager J)
    (hp : (heldIds t).Perm (heldIds s)) (hu : t.unresolved = s.unresolved)
    (h : Consistent s) : Consistent t :=
  ⟨hp.nodup_iff.mpr h.1, fun i => by rw [hp.mem_iff, hu]; exact h.2 i⟩

theorem activateJobs_consistent (s : HttpDownloadManager I) (h : Consistent s) :
    Consistent (activateJobs s) := by
  refine consistent_of_perm s (activateJobs s) ?_ rfl h
  rw [List.perm_iff_count]
  intro x
  have := activateLoop_count s.m_activatedJobsLimit x s.m_jobQueue s.m_activatedJobList
  simp only [heldIds_eq, activateJobs, List.count_append]
  omega

theorem enqueue_heldIds (s : HttpDownloadManager I) (j : HttpJob I) :
    (heldIds (enqueue s j)).Perm (j.id :: heldIds s) ∧
      (enqueue s j).unresolved = s.unresolved := by
  unfold enqueue
  split
  · refine ⟨?_, rfl⟩
    rw [List.perm_iff_count]
    intro x
    simp only [heldIds_eq, jobIds, List.map_cons, List.count_append, List.count_cons]
    omega
  · refine ⟨?_, rfl⟩
    rw [List.perm_iff_count]
    intro x
    simp only [heldIds_eq, jobIds, List.map_cons, List.map_append, List.map_nil,
      List.count_append, List.count_cons, List.count_nil]
    omega

end HttpDownloadManager

namespace HttpDownloadManager
variable {I : Type} [DecidableEq I]

theorem contains_iff_mem (l : List I) (x : I) : l.contains x = true ↔ x ∈ l := by
  simp

theorem mem_noteSubmission (s : HttpDownloadManager I) (id i : I) :
    i ∈ (noteSubmission s id).unresolved ↔ i ∈ s.unresolved ∨ i = id := by
  show i ∈ (if s.unresolved.contains id = true then s.unresolved else s.unresolved ++ [id])
    ↔ _
  by_cases h : s.unresolved.contains id = true
  · rw [if_pos h]
    constructor
    · exact Or.inl
    · rintro (h1 | h1)
      · exact h1
      · rw [h1]
        exact (contains_iff_mem _ _).mp h
  · rw [if_neg h, List.mem_append, List.mem_singleton]

theorem mem_jobIds_remove (l : List (HttpJob I)) (id i : I) :
    i ∈ jobIds (l.filter (fun j => !decide (j.id = id))) ↔ i ∈ jobIds l ∧ i ≠ id := by
  rw [jobIds_filter (fun i => !decide (i = id)), List.mem_filter]
  simp

theorem mem_removeJob_unresolved (s : HttpDownloadManager I) (id i : I) :
    i ∈ (removeJob s id).unresolved ↔
      i ∈ s.unresolved ∧
        (i = id → id ∉ jobIds s.m_jobQueue ∧ id ∉ jobIds s.m_waitingQueue ∧
          id ∉ jobIds s.m_activatedJobList) := by
  show i ∈ (if (jobIds (s.m_jobQueue ++ s.m_waitingQueue ++ s.m_activatedJobList)).contains id
      = true then s.unresolved.filter (fun i => !decide (i = id)) else s.unresolved) ↔ _
  by_cases hc : (jobIds (s.m_jobQueue ++ s.m_waitingQueue ++ s.m_activatedJobList)).contains id
      = true
  · rw [if_pos hc, List.mem_filter]
    rw [contains_iff_mem] at hc
    simp only [jobIds, List.map_append, List.mem_append] at hc ⊢
    simp only [Bool.not_eq_true', decide_eq_false_iff_not]
    tauto
  · rw [if_neg hc]
    rw [contains_iff_mem] at hc
    simp only [jobIds, List.map_append, List.mem_append] at hc ⊢
    tauto

theorem addJob_consistent (s : HttpDownloadManager I) (id : I) (h : Consistent s) :
    Consistent (addJob s id) := by
  unfold addJob
  by_cases he : s.m_downloadEnabled = true
  · rw [if_pos he]
    by_cases ha : acceptJob s id = true
    · rw [if_pos ha]
      apply activateJobs_consistent
      have hid : id ∉ heldIds s := by
        simpa [acceptJob] using ha
      have hp := enqueue_heldIds (noteSubmission s id) { id := id, failureCount := 0 }
      have hh : heldIds (noteSubmission s id) = heldIds s := rfl
      rw [hh] at hp
      refine ⟨hp.1.nodup_iff.mpr (List.nodup_cons.mpr ⟨hid, h.1⟩), fun i => ?_⟩
      rw [hp.1.mem_iff, hp.2, mem_noteSubmission, List.mem_cons, h.2 i]
      tauto
    · rw [if_neg ha]
      have hid : id ∈ heldIds s := by
        simpa [acceptJob] using ha
      refine ⟨h.1, fun i => ?_⟩
      rw [mem_noteSubmission]
      have hh : heldIds (noteSubmission s id) = heldIds s := rfl
      rw [hh]
      constructor
      · intro hi
        exact Or.inl ((h.2 i).mp hi)
      · rintro (hi | hi)
        · exact (h.2 i).mpr hi
        · rw [hi]
          exact hid
  · rw [if_neg he]
    exact h

theorem consistent_of_sublist {J : Type} (s t : HttpDownloadManager J)
    (hsub : (heldIds t).Sublist (heldIds s)) (hmem : ∀ i, i ∈ heldIds t ↔ i ∈ t.unresolved)
    (h : Consistent s) : Consistent t :=
  ⟨h.1.sublist hsub, hmem⟩

theorem mem_heldIds {J : Type} (s : HttpDownloadManager J) (i : J) :
    i ∈ heldIds s ↔ i ∈ jobIds s.m_jobQueue ∨ i ∈ jobIds s.m_waitingQueue ∨
      i ∈ jobIds s.m_activatedJobList ∨ i ∈ jobIds s.m_jobBlackList := by
  rw [heldIds_eq]
  simp only [List.mem_append, or_assoc]

theorem removeJob_consistent (s : HttpDownloadManager I) (id : I) (h : Consistent s) :
    Consistent (removeJob s id) := by
  have hx := heldIds_exclusive s h.1
  refine consistent_of_sublist s _ ?_ ?_ h
  · rw [heldIds_eq, heldIds_eq]
    simp only [removeJob, jobIds_filter (fun i => !decide (i = id))]
    exact ((((List.filter_sublist _).append (List.filter_sublist _)).append
      (List.filter_sublist _)).append (List.Sublist.refl _))
  · intro i
    have hi := h.2 i
    rw [mem_heldIds] at hi
    rw [mem_heldIds, mem_removeJob_unresolved]
    show i ∈ jobIds (s.m_jobQueue.filter (fun j => !decide (j.id = id))) ∨
      i ∈ jobIds (s.m_waitingQueue.filter (fun j => !decide (j.id = id))) ∨
      i ∈ jobIds (s.m_activatedJobList.filter (fun j => !decide (j.id = id))) ∨
      i ∈ jobIds s.m_jobBlackList ↔ _
    rw [mem_jobIds_remove, mem_jobIds_remove, mem_jobIds_remove]
    have hxi := hx i
    by_cases hii : i = id
    · subst hii
      tauto
    · tauto

end HttpDownloadManager

namespace HttpDownloadManager
variable {I : Type} [DecidableEq I]

/-- The active list without the job `id`, when `id` is active: the identifiers held are
those of the ledger apart from `id`, each once. -/
theorem active_removed (s : HttpDownloadManager I) (id : I) (h : Consistent s)
    (hid : id ∈ jobIds s.m_activatedJobList) :
    (heldIds { s with
        m_activatedJobList := s.m_activatedJobList.filter (fun k => !decide (k.id = id)) }).Nodup ∧
      ∀ i, i ∈ heldIds { s with
          m_activatedJobList := s.m_activatedJobList.filter (fun k => !decide (k.id = id)) } ↔
        i ∈ s.unresolved ∧ i ≠ id := by
  have hx := heldIds_exclusive s h.1
  constructor
  · apply h.1.sublist
    rw [heldIds_eq, heldIds_eq]
    simp only [jobIds_filter (fun i => !decide (i = id))]
    exact (((List.Sublist.refl _).append (List.Sublist.refl _)).append
      (List.filter_sublist _)).append (List.Sublist.refl _)
  · intro i
    have hi := h.2 i
    rw [mem_heldIds] at hi
    rw [mem_heldIds]
    show i ∈ jobIds s.m_jobQueue ∨ i ∈ jobIds s.m_waitingQueue ∨
      i ∈ jobIds (s.m_activatedJobList.filter (fun j => !decide (j.id = id))) ∨
      i ∈ jobIds s.m_jobBlackList ↔ _
    rw [mem_jobIds_remove]
    have hxi := hx i
    by_cases hii : i = id
    · subst hii
      tauto
    · tauto

theorem reportResult_consistent (s : HttpDownloadManager I) (id : I) (success : Bool)
    (h : Consistent s) : Consistent (reportResult s id success) := by
  unfold reportResult
  cases hf : s.m_activatedJobList.find? (fun j => decide (j.id = id)) with
  | none => exact h
  | some j =>
    have hj : j.id = id := by
      have := List.find?_some hf
      simpa using this
    have hmem : id ∈ jobIds s.m_activatedJobList := by
      rw [← hj]
      exact List.mem_map_of_mem _ (List.mem_of_find?_eq_some hf)
    have hA := active_removed s id h hmem
    have hu : id ∈ s.unresolved := by
      rw [← h.2 id, mem_heldIds]
      exact Or.inr (Or.inr (Or.inl hmem))
    have hnot : id ∉ heldIds { s with
        m_activatedJobList := s.m_activatedJobList.filter (fun k => !decide (k.id = id)) } :=
      fun hc => ((hA.2 id).mp hc).2 rfl
    simp only
    by_cases hs : success = true
    · rw [if_pos hs]
      refine ⟨hA.1, fun i => (hA.2 i).trans ?_⟩
      show _ ↔ i ∈ s.unresolved.filter (fun i => !decide (i = id))
      rw [List.mem_filter]
      simp
    · rw [if_neg hs]
      by_cases hr : j.failureCount + 1 < s.retryBound
      · rw [if_pos hr]
        have hp := enqueue_heldIds { s with
          m_activatedJobList := s.m_activatedJobList.filter (fun k => !decide (k.id = id)) }
          { j with failureCount := j.failureCount + 1 }
        have hnotj : j.id ∉ heldIds { s with
            m_activatedJobList :=
              s.m_activatedJobList.filter (fun k => !decide (k.id = id)) } := by
          rw [hj]
          exact hnot
        refine ⟨hp.1.nodup_iff.mpr (List.nodup_cons.mpr ⟨hnotj, hA.1⟩), fun i => ?_⟩
        rw [hp.1.mem_iff, hp.2, List.mem_cons, hA.2 i]
        show i = j.id ∨ _ ↔ i ∈ s.unresolved
        rw [hj]
        by_cases hii : i = id
        · subst hii
          tauto
        · tauto
      · rw [if_neg hr]
        have hp : (heldIds { s with
            m_activatedJobList := s.m_activatedJobList.filter (fun k => !decide (k.id = id))
            m_jobBlackList :=
              s.m_jobBlackList ++ [{ j with failureCount := j.failureCount + 1 }] }).Perm
            (id :: heldIds { s with
              m_activatedJobList :=
                s.m_activatedJobList.filter (fun k => !decide (k.id = id)) }) := by
          rw [List.perm_iff_count]
          intro x
          simp only [heldIds_eq, jobIds, List.map_cons, List.map_append, List.map_nil,
            List.count_append, List.count_cons, List.count_nil, hj]
          omega
        refine ⟨hp.nodup_iff.mpr (List.nodup_cons.mpr ⟨hnot, hA.1⟩), fun i => ?_⟩
        rw [hp.mem_iff, List.mem_cons, hA.2 i]
        by_cases hii : i = id
        · subst hii
          tauto
        · tauto

end HttpDownloadManager

namespace HttpDownloadManager
variable {I : Type} [DecidableEq I]

theorem mem_jobIds_fresh {J : Type} (stale : J → Bool) (l : List (HttpJob J)) (i : J) :
    i ∈ jobIds (l.filter (fun j => !stale j.id)) ↔ i ∈ jobIds l ∧ stale i = false := by
  rw [jobIds_filter (fun i => !stale i), List.mem_filter]
  simp

/-- The purge of `requeue` alone. -/
theorem purge_consistent (s : HttpDownloadManager I) (stale : I → Bool)
    (h : Consistent s) :
    Consistent { s with
      m_jobQueue := s.m_jobQueue.filter (fun j => !stale j.id)
      m_waitingQueue := s.m_waitingQueue.filter (fun j => !stale j.id)
      unresolved := s.unresolved.filter (fun i =>
        !(stale i && (jobIds (s.m_jobQueue ++ s.m_waitingQueue)).contains i)) } := by
  have hx := heldIds_exclusive s h.1
  refine consistent_of_sublist s _ ?_ ?_ h
  · rw [heldIds_eq, heldIds_eq]
    simp only [jobIds_filter (fun i => !stale i)]
    exact ((((List.filter_sublist _).append (List.filter_sublist _)).append
      (List.Sublist.refl _)).append (List.Sublist.refl _))
  · intro i
    have hi := h.2 i
    rw [mem_heldIds] at hi
    rw [mem_heldIds]
    show i ∈ jobIds (s.m_jobQueue.filter (fun j => !stale j.id)) ∨
        i ∈ jobIds (s.m_waitingQueue.filter (fun j => !stale j.id)) ∨
        i ∈ jobIds s.m_activatedJobList ∨ i ∈ jobIds s.m_jobBlackList ↔
      i ∈ s.unresolved.filter (fun i =>
        !(stale i && (jobIds (s.m_jobQueue ++ s.m_waitingQueue)).contains i))
    rw [mem_jobIds_fresh, mem_jobIds_fresh, List.mem_filter]
    have hxi := hx i
    have hc : (jobIds (s.m_jobQueue ++ s.m_waitingQueue)).contains i = true ↔
        i ∈ jobIds s.m_jobQueue ∨ i ∈ jobIds s.m_waitingQueue := by
      rw [contains_iff_mem]
      simp only [jobIds, List.map_append, List.mem_append]
    have hk : ∀ a c : Bool, (!(a && c)) = true ↔ (a = false ∨ ¬ c = true) := by
      intro a c
      cases a <;> cases c <;> simp
    rw [hk, hc]
    generalize stale i = a at *
    clear hk hc hx
    tauto

theorem requeue_consistent (s : HttpDownloadManager I) (stale : I → Bool)
    (h : Consistent s) : Consistent (requeue s stale) := by
  have hm : Consistent { s with
      m_jobQueue := (migrate s.m_jobQueueLimit s.m_waitingQueue s.m_jobQueue).2
      m_waitingQueue := (migrate s.m_jobQueueLimit s.m_waitingQueue s.m_jobQueue).1 } := by
    refine consistent_of_perm s _ ?_ rfl h
    rw [List.perm_iff_count]
    intro x
    have := migrate_count s.m_jobQueueLimit x s.m_waitingQueue s.m_jobQueue
    simp only [heldIds_eq, List.count_append]
    omega
  exact purge_consistent _ stale hm

theorem resetBlackList_consistent (s : HttpDownloadManager I) (h : Consistent s) :
    Consistent (resetBlackList s) := by
  have hx := heldIds_exclusive s h.1
  refine consistent_of_sublist s _ ?_ ?_ h
  · rw [heldIds_eq, heldIds_eq]
    exact (List.Sublist.refl _).append (List.nil_sublist _)
  · intro i
    have hi := h.2 i
    rw [mem_heldIds] at hi
    rw [mem_heldIds]
    show i ∈ jobIds s.m_jobQueue ∨ i ∈ jobIds s.m_waitingQueue ∨
        i ∈ jobIds s.m_activatedJobList ∨ i ∈ jobIds ([] : List (HttpJob I)) ↔
      i ∈ s.unresolved.filter (fun i => !(jobIds s.m_jobBlackList).contains i)
    rw [List.mem_filter]
    have hxi := hx i
    have hc := contains_iff_mem (jobIds s.m_jobBlackList) i
    have hnil : i ∉ jobIds ([] : List (HttpJob I)) := by simp [jobIds]
    simp only [Bool.not_eq_true', ← Bool.not_eq_true, hc]
    tauto

theorem construct_consistent (downloadEnabled : Bool)
    (activatedJobsLimit jobQueueLimit retryBound : Nat) :
    Consistent (@construct I downloadEnabled activatedJobsLimit jobQueueLimit retryBound) := by
  have _hd : DecidableEq I := inferInstance
  constructor
  · simp [heldIds, held, jobIds, construct]
  · intro i
    simp [heldIds, held, jobIds, construct]

theorem call_consistent (s : HttpDownloadManager I) (c : Call I) (h : Consistent s) :
    Consistent (call s c) := by
  cases c with
  | addJob id => exact addJob_consistent s id h
  | activateJobs => exact activateJobs_consistent s h
  | reportResult id success => exact reportResult_consistent s id success h
  | requeue stale => exact requeue_consistent s stale h
  | removeJob id => exact removeJob_consistent s id h
  | resetBlackList => exact resetBlackList_consistent s h

theorem run_consistent (calls : List (Call I)) :
    ∀ s : HttpDownloadManager I, Consistent s → Consistent (run s calls) := by
  induction calls with
  | nil => intro s h; exact h
  | cons c calls ih =>
    intro s h
    exact ih (call s c) (call_consistent s c h)

end HttpDownloadManager

namespace HttpDownloadManager
variable {I : Type} [DecidableEq I]

/-- C18. After every sequence of calls on a new scheduler, the identifiers of job queue,
waiting queue, active list and blacklist, written one after the other, have no duplicate:
no identifier is in two of the four lists (nor twice in one); and an identifier is in one
of the four lists exactly when it is in the ledger of the identifiers submitted and not
yet resolved. -/
theorem job_membership_exclusive (downloadEnabled : Bool)
    (activatedJobsLimit jobQueueLimit retryBound : Nat) (calls : List (Call I)) :
    (jobIds (run (construct downloadEnabled activatedJobsLimit jobQueueLimit retryBound)
          calls).m_jobQueue ++
        jobIds (run (construct downloadEnabled activatedJobsLimit jobQueueLimit retryBound)
          calls).m_waitingQueue ++
        jobIds (run (construct downloadEnabled activatedJobsLimit jobQueueLimit retryBound)
          calls).m_activatedJobList ++
        jobIds (run (construct downloadEnabled activatedJobsLimit jobQueueLimit retryBound)
          calls).m_jobBlackList).Nodup ∧
      (∀ i : I,
        (i ∈ jobIds (run (construct downloadEnabled activatedJobsLimit jobQueueLimit
              retryBound) calls).m_jobQueue →
          i ∉ jobIds (run (construct downloadEnabled activatedJobsLimit jobQueueLimit
              retryBound) calls).m_waitingQueue ∧
          i ∉ jobIds (run (construct downloadEnabled activatedJobsLimit jobQueueLimit
              retryBound) calls).m_activatedJobList ∧
          i ∉ jobIds (run (construct downloadEnabled activatedJobsLimit jobQueueLimit
              retryBound) calls).m_jobBlackList) ∧
        (i ∈ jobIds (run (construct downloadEnabled activatedJobsLimit jobQueueLimit
              retryBound) calls).m_waitingQueue →
          i ∉ jobIds (run (construct downloadEnabled activatedJobsLimit jobQueueLimit
              retryBound) calls).m_activatedJobList ∧
          i ∉ jobIds (run (construct downloadEnabled activatedJobsLimit jobQueueLimit
              retryBound) calls).m_jobBlackList) ∧
        (i ∈ jobIds (run (construct downloadEnabled activatedJobsLimit jobQueueLimit
              retryBound) calls).m_activatedJobList →
          i ∉ jobIds (run (construct downloadEnabled activatedJobsLimit jobQueueLimit
              retryBound) calls).m_jobBlackList)) ∧
      (∀ i : I,
        (i ∈ jobIds (run (construct downloadEnabled activatedJobsLimit jobQueueLimit
              retryBound) calls).m_jobQueue ∨
          i ∈ jobIds (run (construct downloadEnabled activatedJobsLimit jobQueueLimit
              retryBound) calls).m_waitingQueue ∨
          i ∈ jobIds (run (construct downloadEnabled activatedJobsLimit jobQueueLimit
              retryBound) calls).m_activatedJobList ∨
          i ∈ jobIds (run (construct downloadEnabled activatedJobsLimit jobQueueLimit
              retryBound) calls).m_jobBlackList) ↔
        i ∈ (run (construct downloadEnabled activatedJobsLimit jobQueueLimit retryBound)
          calls).unresolved) := by
  have h := run_consistent calls _
    (@construct_consistent I _ downloadEnabled activatedJobsLimit jobQueueLimit retryBound)
  refine ⟨?_, heldIds_exclusive _ h.1, fun i => ?_⟩
  · rw [← heldIds_eq]
    exact h.1
  · rw [← mem_heldIds]
    exact h.2 i

/-! ### The download scheduler: the blacklist -/

theorem enqueue_blackList {J : Type} (s : HttpDownloadManager J) (j : HttpJob J) :
    (enqueue s j).m_jobBlackList = s.m_jobBlackList := by
  unfold enqueue
  split <;> rfl

theorem call_blackList_mono (s : HttpDownloadManager I) (c : Call I)
    (hc : c.isReset = false) (i : I) (hi : i ∈ jobIds s.m_jobBlackList) :
    i ∈ jobIds (call s c).m_jobBlackList := by
  cases c with
  | addJob id =>
    simp only [call, addJob]
    by_cases he : s.m_downloadEnabled = true
    · rw [if_pos he]
      by_cases ha : acceptJob s id = true
      · rw [if_pos ha]
        show i ∈ jobIds (enqueue (noteSubmission s id) _).m_jobBlackList
        rw [enqueue_blackList]
        exact hi
      · rw [if_neg ha]
        exact hi
    · rw [if_neg he]
      exact hi
  | activateJobs => exact hi
  | reportResult id success =>
    simp only [call, reportResult]
    cases s.m_activatedJobList.find? (fun j => decide (j.id = id)) with
    | none => exact hi
    | some j =>
      simp only
      by_cases hs : success = true
      · rw [if_pos hs]
        exact hi
      · rw [if_neg hs]
        by_cases hr : j.failureCount + 1 < s.retryBound
        · rw [if_pos hr, enqueue_blackList]
          exact hi
        · rw [if_neg hr]
          simp only [jobIds, List.map_append, List.mem_append]
          exact Or.inl hi
  | requeue stale => exact hi
  | removeJob id => exact hi
  | resetBlackList => exact absurd hc (by simp [Call.isReset])

theorem run_blacklisted (calls : List (Call I)) :
    ∀ s : HttpDownloadManager I, Consistent s → (∀ c ∈ calls, c.isReset = false) →
      ∀ i, i ∈ jobIds s.m_jobBlackList →
        Consistent (run s calls) ∧ i ∈ jobIds (run s calls).m_jobBlackList := by
  induction calls with
  | nil => intro s h _ i hi; exact ⟨h, hi⟩
  | cons c calls ih =>
    intro s h hc i hi
    exact ih (call s c) (call_consistent s c h)
      (fun d hd => hc d (List.mem_cons_of_mem _ hd)) i
      (call_blackList_mono s c (hc c (List.mem_cons_self _ _)) i hi)

/-- C19. When a job is in the blacklist after a sequence of calls on a new scheduler, then
after every further sequence of calls without a reset of the blacklist the job is still in
the blacklist, and it is neither in the job queue nor in the waiting queue nor in the
active list. -/
theorem blacklisted_job_stays_out (downloadEnabled : Bool)
    (activatedJobsLimit jobQueueLimit retryBound : Nat) (before after : List (Call I))
    (id : I)
    (hid : id ∈ jobIds (run (construct downloadEnabled activatedJobsLimit jobQueueLimit
      retryBound) before).m_jobBlackList)
    (hafter : ∀ c ∈ after, c.isReset = false) :
    id ∉ jobIds (run (run (construct downloadEnabled activatedJobsLimit jobQueueLimit
        retryBound) before) after).m_jobQueue ∧
      id ∉ jobIds (run (run (construct downloadEnabled activatedJobsLimit jobQueueLimit
        retryBound) before) after).m_activatedJobList ∧
      id ∉ jobIds (run (run (construct downloadEnabled activatedJobsLimit jobQueueLimit
        retryBound) before) after).m_waitingQueue ∧
      id ∈ jobIds (run (run (construct downloadEnabled activatedJobsLimit jobQueueLimit
        retryBound) before) after).m_jobBlackList := by
  have h0 := run_consistent before _
    (@construct_consistent I _ downloadEnabled activatedJobsLimit jobQueueLimit retryBound)
  have h1 := run_blacklisted after _ h0 hafter id hid
  have hx := heldIds_exclusive _ h1.1.1 id
  refine ⟨fun hq => (hx.1 hq).2.2 h1.2, fun ha => hx.2.2 ha h1.2,
    fun hw => (hx.2.1 hw).2 h1.2, h1.2⟩

/-- Witness for C19: with retry bound 1 the first failure of job 7 blacklists it; it is
then submitted again, the queue is activated and requeued, the job is removed and a late
result for it arrives. -/
theorem blacklisted_job_stays_out_witness :
    7 ∈ jobIds (run (@construct Nat true 1 5 1)
        [Call.addJob 7, Call.reportResult 7 false]).m_jobBlackList ∧
      7 ∉ jobIds (run (run (@construct Nat true 1 5 1)
          [Call.addJob 7, Call.reportResult 7 false])
        [Call.addJob 7, Call.activateJobs, Call.requeue (fun _ => false), Call.removeJob 7,
          Call.reportResult 7 true]).m_jobQueue ∧
      7 ∉ jobIds (run (run (@construct Nat true 1 5 1)
          [Call.addJob 7, Call.reportResult 7 false])
        [Call.addJob 7, Call.activateJobs, Call.requeue (fun _ => false), Call.removeJob 7,
          Call.reportResult 7 true]).m_activatedJobList :=
  ⟨by decide,
    (blacklisted_job_stays_out true 1 5 1 [Call.addJob 7, Call.reportResult 7 false]
      [Call.addJob 7, Call.activateJobs, Call.requeue (fun _ => false), Call.removeJob 7,
        Call.reportResult 7 true] 7 (by decide) (by decide)).1,
    (blacklisted_job_stays_out true 1 5 1 [Call.addJob 7, Call.reportResult 7 false]
      [Call.addJob 7, Call.activateJobs, Call.requeue (fun _ => false), Call.removeJob 7,
        Call.reportResult 7 true] 7 (by decide) (by decide)).2.1⟩

end HttpDownloadManager

namespace VectorTileModel
variable {Box R : Type}

/-! ### The zoom level of the cached tiles -/

theorem removeTilesOutOfView_level (L : Layer Box R) (s : VectorTileModel Box) (box : Box) :
    (removeTilesOutOfView L s box).m_deleteDocumentsLater = s.m_deleteDocumentsLater ∧
      (removeTilesOutOfView L s box).m_tileLoadLevel = s.m_tileLoadLevel ∧
      ∀ e ∈ (removeTilesOutOfView L s box).m_documents, e ∈ s.m_documents := by
  refine ⟨rfl, rfl, ?_⟩
  intro e he
  have hk : (removeTilesOutOfView L s box).m_documents
      = (eraseOutOfView L (L.scaled box) s.m_documents).1 := rfl
  rw [hk, eraseOutOfView_kept] at he
  exact (List.mem_filter.mp he).1

/-- One call keeps the level invariant: when the deferred-invalidation flag is not set,
every cached entry is of the load level. -/
theorem call_level_inv (L : Layer Box R) (s s1 : VectorTileModel Box) (c : Call Box)
    (h : s.m_deleteDocumentsLater = false →
      ∀ e ∈ s.m_documents, e.1.zoomLevel = s.m_tileLoadLevel)
    (hc : call L s c = some s1) :
    s1.m_deleteDocumentsLater = false →
      ∀ e ∈ s1.m_documents, e.1.zoomLevel = s1.m_tileLoadLevel := by
  cases c with
  | setViewport box radius =>
    simp only [call] at hc
    cases hl : L.tileLevels with
    | nil =>
      rw [setViewport_nil L s box radius hl] at hc
      rw [← Option.some.inj hc]
      intro _ e he
      exact absurd he (List.not_mem_nil e)
    | cons first rest =>
      obtain ⟨l, hshape⟩ := setViewport_cons_some L s s1 box radius first rest hl hc
      rw [hshape]
      obtain ⟨hflag, hlevel, hdocs⟩ := removeTilesOutOfView_level L
        (l.foldl queryTile
          (changeLoadLevel { s with m_tileZoomLevel := desiredZoomLevel L radius }
            (selectTileLevel (desiredZoomLevel L radius) first rest))) box
      have hf := foldl_queryTile_frame l
        (changeLoadLevel { s with m_tileZoomLevel := desiredZoomLevel L radius }
          (selectTileLevel (desiredZoomLevel L radius) first rest))
      rw [hflag, hlevel, hf.2.2.2.2.1, hf.2.2.1]
      intro hfalse e he
      have he1 := hdocs e he
      rw [hf.1] at he1
      by_cases hne : selectTileLevel (desiredZoomLevel L radius) first rest = s.m_tileLoadLevel
      · have hch : changeLoadLevel { s with m_tileZoomLevel := desiredZoomLevel L radius }
            (selectTileLevel (desiredZoomLevel L radius) first rest)
            = { s with m_tileZoomLevel := desiredZoomLevel L radius } := by
          unfold changeLoadLevel
          rw [if_neg (fun hx => hx hne)]
        rw [hch] at hfalse he1 ⊢
        exact h hfalse e he1
      · have hch : (changeLoadLevel { s with m_tileZoomLevel := desiredZoomLevel L radius }
            (selectTileLevel (desiredZoomLevel L radius) first rest)).m_deleteDocumentsLater
            = true := by
          unfold changeLoadLevel
          rw [if_pos hne]
        rw [hch] at hfalse
        exact absurd hfalse (by decide)
  | removeTilesOutOfView box =>
    simp only [call, Option.some.injEq] at hc
    rw [← hc]
    obtain ⟨hflag, hlevel, hdocs⟩ := removeTilesOutOfView_level L s box
    rw [hflag, hlevel]
    intro hfalse e he
    exact h hfalse e (hdocs e he)
  | clear =>
    simp only [call, Option.some.injEq] at hc
    rw [← hc]
    intro _ e he
    exact absurd he (List.not_mem_nil e)
  | updateTile id document =>
    simp only [call, Option.some.injEq] at hc
    rw [← hc]
    cases document with
    | none => exact h
    | some d =>
      by_cases hlv : id.zoomLevel = s.m_tileLoadLevel
      · obtain ⟨docs, dropped, hd, hdocs, hflag, _, _, _, _, _, _, hlevel, _, _⟩ :=
          updateTile_accept_shape L s id d hlv
        rw [hd, hlevel]
        intro _ e he
        rw [List.mem_append, List.mem_singleton] at he
        rcases he with he | he
        · have he1 := (List.mem_filter.mp he).1
          cases hs : s.m_deleteDocumentsLater with
          | true =>
            rw [hflag hs] at he1
            exact absurd he1 (List.not_mem_nil e)
          | false =>
            rcases hdocs with hdd | hdd
            · rw [hdd] at he1
              exact h hs e he1
            · rw [hdd] at he1
              exact absurd he1 (List.not_mem_nil e)
        · rw [he]
          exact hlv
      · have hne : s.m_tileLoadLevel ≠ id.zoomLevel := fun e => hlv e.symm
        simp only [updateTile, if_pos hne]
        exact h
  | cleanupTile object =>
    simp only [call, Option.some.injEq] at hc
    rw [← hc]
    cases object with
    | document d =>
      by_cases hcq : s.m_garbageQueue.contains d = true
      · simpa only [VectorTileModel.cleanupTile, if_pos hcq] using h
      · simpa only [VectorTileModel.cleanupTile, if_neg hcq] using h
    | other a => exact h

theorem run_level_inv (L : Layer Box R) (calls : List (Call Box)) :
    ∀ s s1 : VectorTileModel Box,
      (s.m_deleteDocumentsLater = false →
        ∀ e ∈ s.m_documents, e.1.zoomLevel = s.m_tileLoadLevel) →
      run L s calls = some s1 →
      s1.m_deleteDocumentsLater = false →
        ∀ e ∈ s1.m_documents, e.1.zoomLevel = s1.m_tileLoadLevel := by
  induction calls with
  | nil =>
    intro s s1 h hr
    simp only [run, Option.some.injEq] at hr
    rw [← hr]
    exact h
  | cons c calls ih =>
    intro s s1 h hr
    simp only [run] at hr
    cases hc : call L s c with
    | none => rw [hc] at hr; exact absurd hr (by simp)
    | some s2 =>
      rw [hc] at hr
      exact ih s2 s1 (call_level_inv L s s2 c h hc) hr

/-- C29. In every state that a sequence of calls (`setViewport`, `updateTile`,
`removeTilesOutOfView`, `clear`, `cleanupTile`, with any arguments) reaches from the
initial model: if the deferred-invalidation flag is not set, then the `TileId` of every
cached entry has the zoom level `m_tileLoadLevel`. -/
theorem cached_tiles_of_load_level (L : Layer Box R) (calls : List (Call Box))
    (s : VectorTileModel Box) (hrun : run L construct calls = some s)
    (hflag : s.m_deleteDocumentsLater = false) :
    ∀ e ∈ s.m_documents, e.1.zoomLevel = s.m_tileLoadLevel :=
  run_level_inv L calls construct s (fun _ e he => absurd he (List.not_mem_nil e)) hrun hflag

end VectorTileModel

namespace VectorTileModel
variable {Box R : Type}

/-- Witness for C29: a new model of the example dataset after `setViewport` and the
delivery of tile `(2, 0, 0)`: the flag is cleared and the one cached tile is of level 2. -/
theorem cached_tiles_of_load_level_witness :
    ∃ s : VectorTileModel (Int × Int),
      run exampleLayer construct
        [Call.setViewport (0, 25) 100,
          Call.updateTile { zoomLevel := 2, x := 0, y := 0 } (some 7)] = some s ∧
      s.m_deleteDocumentsLater = false ∧ s.m_documents.length = 1 ∧
      ∀ e ∈ s.m_documents, e.1.zoomLevel = s.m_tileLoadLevel :=
  ⟨_, rfl, rfl, rfl,
    cached_tiles_of_load_level exampleLayer
      [Call.setViewport (0, 25) 100,
        Call.updateTile { zoomLevel := 2, x := 0, y := 0 } (some 7)] _ rfl rfl⟩

/-! ### Cached and pending tiles -/

theorem containsDocument_false_iff (documents : List (TileId × CacheDocument Box))
    (id : TileId) :
    containsDocument documents id = false ↔ ∀ e ∈ documents, e.1 ≠ id := by
  unfold containsDocument
  rw [List.any_eq_false]
  constructor
  · intro h e he
    simpa using h e he
  · intro h e he
    simpa using h e he

theorem queryTile_uncached_inv (s : VectorTileModel Box) (t : TileId)
    (h : ∀ id ∈ s.m_pendingDocuments, containsDocument s.m_documents id = false) :
    ∀ id ∈ (queryTile s t).m_pendingDocuments,
      containsDocument (queryTile s t).m_documents id = false := by
  unfold queryTile
  cases hm : isMissing s.m_documents s.m_pendingDocuments t
  · simpa using h
  · have hnot := ((isMissing_iff _ _ _).mp hm).1
    simp only [if_true]
    intro id hid
    rw [List.mem_append, List.mem_singleton] at hid
    rcases hid with hid | hid
    · exact h id hid
    · rw [hid]
      exact hnot

theorem foldl_queryTile_uncached_inv (l : List TileId) :
    ∀ s : VectorTileModel Box,
      (∀ id ∈ s.m_pendingDocuments, containsDocument s.m_documents id = false) →
      ∀ id ∈ (l.foldl queryTile s).m_pendingDocuments,
        containsDocument (l.foldl queryTile s).m_documents id = false := by
  induction l with
  | nil => intro s h; exact h
  | cons t l ih =>
    intro s h
    exact ih (queryTile s t) (queryTile_uncached_inv s t h)

/-- The invariant of cache and pending list: the pending list has no duplicates, the jobs
of the pool are the pending ids, and no pending id is cached. -/
theorem reachable_uncached_inv (L : Layer Box R) (s : VectorTileModel Box)
    (h : Reachable L s) :
    s.m_pendingDocuments.Nodup ∧ s.m_threadPool = s.m_pendingDocuments ∧
      ∀ id ∈ s.m_pendingDocuments, containsDocument s.m_documents id = false := by
  induction h with
  | construct =>
    exact ⟨List.nodup_nil, rfl, fun id hid => absurd hid (List.not_mem_nil id)⟩
  | setViewport s s1 box radius _ hs1 ih =>
    cases hl : L.tileLevels with
    | nil =>
      rw [setViewport_nil L s box radius hl] at hs1
      rw [← Option.some.inj hs1]
      exact ⟨ih.1, ih.2.1, fun id _ => rfl⟩
    | cons first rest =>
      obtain ⟨l, hshape⟩ := setViewport_cons_some L s s1 box radius first rest hl hs1
      rw [hshape]
      have hc := changeLoadLevel_fields
        { s with m_tileZoomLevel := desiredZoomLevel L radius }
        (selectTileLevel (desiredZoomLevel L radius) first rest)
      have h1 := foldl_queryTile_pending_inv l
        (changeLoadLevel { s with m_tileZoomLevel := desiredZoomLevel L radius }
          (selectTileLevel (desiredZoomLevel L radius) first rest))
        ⟨by rw [hc.2.2.1]; exact ih.1, by rw [hc.2.2.1, hc.2.2.2.1]; exact ih.2.1⟩
      have h2 := foldl_queryTile_uncached_inv l
        (changeLoadLevel { s with m_tileZoomLevel := desiredZoomLevel L radius }
          (selectTileLevel (desiredZoomLevel L radius) first rest))
        (by rw [hc.2.2.1, hc.2.1]; exact ih.2.2)
      refine ⟨h1.1, h1.2, ?_⟩
      intro id hid
      have h3 := h2 id hid
      rw [containsDocument_false_iff] at h3 ⊢
      intro e he
      exact h3 e ((removeTilesOutOfView_level L _ box).2.2 e he)
  | removeTilesOutOfView s box _ ih =>
    refine ⟨ih.1, ih.2.1, ?_⟩
    intro id hid
    have h3 := ih.2.2 id hid
    rw [containsDocument_false_iff] at h3 ⊢
    intro e he
    exact h3 e ((removeTilesOutOfView_level L s box).2.2 e he)
  | clear s _ ih => exact ⟨ih.1, ih.2.1, fun id _ => rfl⟩
  | documentLoaded s id document _ _ ih =>
    obtain ⟨hp, hpool⟩ := updateTile_pending_pool L
      { s with m_threadPool := s.m_threadPool.erase id } id document
    rw [hp, hpool]
    refine ⟨ih.1.filter _, ?_, ?_⟩
    · show s.m_threadPool.erase id = s.m_pendingDocuments.filter (fun t => decide (t ≠ id))
      rw [ih.2.1, ih.1.erase_eq_filter]
      apply List.filter_congr
      intro t _
      by_cases hti : t = id <;> simp [hti]
    · intro t ht
      have ht1 := List.mem_filter.mp ht
      have htne : t ≠ id := by simpa using ht1.2
      have h3 := ih.2.2 t ht1.1
      cases document with
      | none => exact h3
      | some d =>
        by_cases hlv : id.zoomLevel = s.m_tileLoadLevel
        · obtain ⟨docs, dropped, hd, hdocs, _⟩ :=
            updateTile_accept_shape L { s with m_threadPool := s.m_threadPool.erase id } id d hlv
          rw [hd]
          rw [containsDocument_false_iff] at h3 ⊢
          intro e he
          rw [List.mem_append, List.mem_singleton] at he
          rcases he with he | he
          · have he1 := (List.mem_filter.mp he).1
            rcases hdocs with hdd | hdd
            · rw [hdd] at he1
              exact h3 e he1
            · rw [hdd] at he1
              exact absurd he1 (List.not_mem_nil e)
          · rw [he]
            exact fun hx => htne hx.symm
        · have hne : s.m_tileLoadLevel ≠ id.zoomLevel := fun e => hlv e.symm
          simp only [updateTile, if_pos hne]
          exact h3
  | cleanupTile s object _ ih =>
    cases object with
    | document d =>
      by_cases hc : s.m_garbageQueue.contains d = true
      · simpa only [VectorTileModel.cleanupTile, if_pos hc] using ih
      · simpa only [VectorTileModel.cleanupTile, if_neg hc] using ih
    | other a => exact ih

/-- C30. In every state reachable from the initial model through `setViewport`,
`removeTilesOutOfView`, `clear`, `cleanupTile` and `updateTile` delivered once per
submitted job, no `TileId` is both cached and pending; and no id of an outstanding job is
cached, so that the `updateTile` which a job delivers never finds its id in the cache (the
branch `m_documents.contains( id )` is not taken). -/
theorem cached_and_pending_disjoint (L : Layer Box R) (s : VectorTileModel Box)
    (h : Reachable L s) :
    (∀ id : TileId, ¬ (containsDocument s.m_documents id = true ∧ id ∈ s.m_pendingDocuments)) ∧
      (∀ id ∈ s.m_threadPool,
        containsDocument ({ s with m_threadPool := s.m_threadPool.erase id }).m_documents id
          = false) := by
  obtain ⟨_, hpool, hinv⟩ := reachable_uncached_inv L s h
  constructor
  · intro id hid
    have := hinv id hid.2
    rw [hid.1] at this
    exact absurd this (by decide)
  · intro id hid
    rw [hpool] at hid
    exact hinv id hid

/-- Witness for C30: the example dataset after `setViewport` on a new model and the
delivery of tile `(2, 0, 0)`, which is then cached and no longer pending. -/
theorem cached_and_pending_disjoint_witness :
    containsDocument (updateTile exampleLayer
        { exampleQueried with
          m_threadPool := exampleQueried.m_threadPool.erase { zoomLevel := 2, x := 0, y := 0 } }
        { zoomLevel := 2, x := 0, y := 0 } (some 7)).m_documents
        { zoomLevel := 2, x := 0, y := 0 } = true ∧
      ¬ (containsDocument (updateTile exampleLayer
          { exampleQueried with
            m_threadPool := exampleQueried.m_threadPool.erase { zoomLevel := 2, x := 0, y := 0 } }
          { zoomLevel := 2, x := 0, y := 0 } (some 7)).m_documents
          { zoomLevel := 2, x := 0, y := 0 } = true ∧
        ({ zoomLevel := 2, x := 0, y := 0 } : TileId) ∈ (updateTile exampleLayer
          { exampleQueried with
            m_threadPool := exampleQueried.m_threadPool.erase { zoomLevel := 2, x := 0, y := 0 } }
          { zoomLevel := 2, x := 0, y := 0 } (some 7)).m_pendingDocuments) :=
  ⟨by decide,
    (cached_and_pending_disjoint exampleLayer _
      (Reachable.documentLoaded exampleQueried { zoomLevel := 2, x := 0, y := 0 } (some 7)
        (Reachable.setViewport construct exampleQueried (0, 25) 100 Reachable.construct
          exampleQueried_eq)
        (by decide))).1 { zoomLevel := 2, x := 0, y := 0 }⟩

end VectorTileModel

namespace SphericalScanlineTextureMapper

/-! ### The date-line branch: range of the longitudes -/

theorem datelineEastToWest_range {K : Type} [LinearOrderedField K] (pi s stepLat : K)
    (hpi : 0 < pi) (hs0 : 0 ≤ s) (hs1 : s ≤ pi) (passes : Nat) :
    ∀ (prevLon prevLat : K), -pi ≤ prevLon → prevLon ≤ pi →
      ∀ (j : Nat) (v w : K),
        (datelineEastToWest pi s stepLat passes prevLon prevLat)[j]? = some (v, w) →
        -pi < v ∧ v ≤ pi ∧ w = prevLat + ((j + 1 : Nat) : K) * stepLat := by
  induction passes with
  | zero =>
    intro prevLon prevLat _ _ j v w h
    simp [datelineEastToWest] at h
  | succ k ih =>
    intro prevLon prevLat h1 h2 j v w h
    have hnext : -pi < (if prevLon - s ≤ -pi then prevLon - s + 2 * pi else prevLon - s) ∧
        (if prevLon - s ≤ -pi then prevLon - s + 2 * pi else prevLon - s) ≤ pi := by
      by_cases hw : prevLon - s ≤ -pi
      · rw [if_pos hw]
        constructor <;> linarith
      · rw [if_neg hw]
        constructor
        · exact not_le.mp hw
        · linarith
    cases j with
    | zero =>
      simp only [datelineEastToWest, List.getElem?_cons_zero, Option.some.injEq,
        Prod.mk.injEq] at h
      rw [← h.1, ← h.2]
      refine ⟨hnext.1, hnext.2, ?_⟩
      push_cast
      ring
    | succ j =>
      simp only [datelineEastToWest, List.getElem?_cons_succ] at h
      obtain ⟨h3, h4, h5⟩ := ih _ _ (le_of_lt hnext.1) hnext.2 j v w h
      refine ⟨h3, h4, ?_⟩
      rw [h5]
      push_cast
      ring

theorem datelineWestToEast_range {K : Type} [LinearOrderedField K] (pi s stepLat : K)
    (hpi : 0 < pi) (hs0 : 0 ≤ s) (passes : Nat) :
    ∀ (curStepLon prevLat : K), -(2 * pi) ≤ curStepLon →
      curStepLon + (passes : K) * s ≤ pi →
      ∀ (j : Nat) (v w : K),
        (datelineWestToEast pi s stepLat passes curStepLon prevLat)[j]? = some (v, w) →
        -pi < v ∧ v ≤ pi ∧ w = prevLat + ((j + 1 : Nat) : K) * stepLat := by
  induction passes with
  | zero =>
    intro curStepLon prevLat _ _ j v w h
    simp [datelineWestToEast] at h
  | succ k ih =>
    intro curStepLon prevLat h1 h2 j v w h
    have hk : (0 : K) ≤ (k : K) * s := mul_nonneg (Nat.cast_nonneg k) hs0
    have h2a : curStepLon + s + (k : K) * s ≤ pi := by
      have : ((k + 1 : Nat) : K) = (k : K) + 1 := by push_cast; ring
      rw [this] at h2
      linarith
    cases j with
    | zero =>
      simp only [datelineWestToEast, List.getElem?_cons_zero, Option.some.injEq,
        Prod.mk.injEq] at h
      rw [← h.1, ← h.2]
      refine ⟨?_, ?_, ?_⟩
      · by_cases hw : curStepLon + s ≤ -pi
        · rw [if_pos hw]
          linarith
        · rw [if_neg hw]
          exact not_le.mp hw
      · by_cases hw : curStepLon + s ≤ -pi
        · rw [if_pos hw]
          linarith
        · rw [if_neg hw]
          linarith
      · push_cast
        ring
    | succ j =>
      simp only [datelineWestToEast, List.getElem?_cons_succ] at h
      obtain ⟨h3, h4, h5⟩ := ih _ _ (by linarith) h2a j v w h
      refine ⟨h3, h4, ?_⟩
      rw [h5]
      push_cast
      ring

/-- C22. In the date-line branch of `pixelValueApprox` (stride `n >= 1`, both anchor
longitudes in `[-pi, pi]`, `|lon - prevLon| >= pi`), in the east-to-west and in the
west-to-east case alike, every longitude passed to `pixelValue` lies in `(-pi, pi]`, and
the latitude passed by the `j`-th call (counted from 1) is
`prevLat + j * ((lat - prevLat) / n)`. -/
theorem pixelValueApproxDateline_range {K : Type} [LinearOrderedField K] (pi : K)
    (hpi : 0 < pi) (n : Nat) (hn : 1 ≤ n) (prevLon prevLat lon lat : K)
    (hp1 : -pi ≤ prevLon) (hp2 : prevLon ≤ pi) (hl1 : -pi ≤ lon) (hl2 : lon ≤ pi)
    (hd : pi ≤ |lon - prevLon|) :
    ∀ (j : Nat) (v w : K),
      (pixelValueApproxDateline pi (n : Int) prevLon prevLat lon lat)[j]? = some (v, w) →
      -pi < v ∧ v ≤ pi ∧ w = prevLat + ((j + 1 : Nat) : K) * ((lat - prevLat) / (n : K)) := by
  have hnK : (1 : K) ≤ (n : K) := by exact_mod_cast hn
  have hnK0 : (0 : K) < (n : K) := lt_of_lt_of_le one_pos hnK
  have habs : |lon - prevLon| ≤ 2 * pi := by
    rw [abs_le]
    constructor <;> linarith
  have hs0 : 0 ≤ (2 * pi - |lon - prevLon|) / (n : K) :=
    div_nonneg (by linarith) (le_of_lt hnK0)
  have hs1 : (2 * pi - |lon - prevLon|) / (n : K) ≤ pi := by
    rw [div_le_iff₀ hnK0]
    have : pi * 1 ≤ pi * (n : K) := mul_le_mul_of_nonneg_left hnK (le_of_lt hpi)
    linarith
  have hcancel : (n : K) * ((2 * pi - |lon - prevLon|) / (n : K))
      = 2 * pi - |lon - prevLon| := by
    field_simp
  have hpass : ((n : Int) - 1).toNat = n - 1 := by omega
  intro j v w h
  unfold pixelValueApproxDateline at h
  by_cases hlt : prevLon < lon
  · simp only [hpass, Int.cast_natCast, mul_one_div, if_pos hlt] at h
    exact datelineEastToWest_range pi _ _ hpi hs0 hs1 (n - 1) prevLon prevLat hp1 hp2 j v w h
  · simp only [hpass, Int.cast_natCast, mul_one_div, if_neg hlt] at h
    have hle : lon - prevLon ≤ 0 := by
      have := not_lt.mp hlt
      linarith
    have hab : |lon - prevLon| = -(lon - prevLon) := abs_of_nonpos hle
    have hstart : lon - (n : K) * ((2 * pi - |lon - prevLon|) / (n : K)) = prevLon - 2 * pi := by
      rw [hcancel, hab]
      ring
    have hprev : 0 ≤ prevLon := by
      rw [hab] at hd
      linarith
    refine datelineWestToEast_range pi _ _ hpi hs0 (n - 1) _ prevLat ?_ ?_ j v w h
    · rw [hstart]
      linarith
    · have hc : ((n - 1 : Nat) : K) = (n : K) - 1 := by
        rw [Nat.cast_sub hn]
        simp
      rw [hc]
      have : lon - (n : K) * ((2 * pi - |lon - prevLon|) / (n : K))
          + ((n : K) - 1) * ((2 * pi - |lon - prevLon|) / (n : K))
          = lon - (2 * pi - |lon - prevLon|) / (n : K) := by ring
      rw [this]
      linarith

/-- Witness for C22 over the rationals with `22 / 7` in the place of `pi`: stride 4, from
longitude -3 to longitude 3 (east to west); the second call is at longitude `pi`. -/
theorem pixelValueApproxDateline_range_witness :
    (pixelValueApproxDateline (22 / 7 : ℚ) ((4 : Nat) : Int) (-3) 0 3 1)[1]?
        = some (22 / 7, 1 / 2) ∧
      -(22 / 7 : ℚ) < 22 / 7 ∧ (22 / 7 : ℚ) ≤ 22 / 7 ∧
      (1 / 2 : ℚ) = 0 + ((1 + 1 : Nat) : ℚ) * ((1 - 0) / ((4 : Nat) : ℚ)) :=
  ⟨by norm_num [pixelValueApproxDateline, datelineEastToWest, datelineWestToEast, abs_of_pos],
    pixelValueApproxDateline_range (22 / 7 : ℚ) (by norm_num) 4 (by decide) (-3) 0 3 1
      (by norm_num) (by norm_num) (by norm_num) (by norm_num) (by norm_num [abs_of_pos])
      1 (22 / 7) (1 / 2)
      (by norm_num [pixelValueApproxDateline, datelineEastToWest, datelineWestToEast,
        abs_of_pos])⟩

end SphericalScanlineTextureMapper

namespace SphericalScanlineTextureMapper
variable {G : Type}

/-! ### Square roots -/

theorem tdiv_two_bounds (h : Int) :
    (0 ≤ h → 2 * Int.tdiv h 2 ≤ h ∧ h ≤ 2 * Int.tdiv h 2 + 1) ∧
      (h < 0 → h ≤ 2 * Int.tdiv h 2 ∧ 2 * Int.tdiv h 2 - 1 ≤ h) := by
  constructor
  · intro h0
    rw [Int.tdiv_eq_ediv h0 (by decide)]
    omega
  · intro h0
    have h2 : Int.tdiv h 2 = -(Int.tdiv (-h) 2) := by
      rw [Int.neg_tdiv, neg_neg]
    rw [h2, Int.tdiv_eq_ediv (show 0 ≤ -h by omega) (by decide)]
    omega

/-- The integer square root in `scanline` is taken of `rxRadicand`. -/
theorem scanline_xLeft (m : SphericalScanlineTextureMapper G) (vp : ViewParams G) (y : Int) :
    (scanline m vp y).xLeft
      = if Int.tdiv m.m_imageWidth 2 - ((Nat.sqrt (rxRadicand m vp y).toNat : Nat) : Int) > 0
        then Int.tdiv m.m_imageWidth 2 - ((Nat.sqrt (rxRadicand m vp y).toNat : Nat) : Int)
        else 0 := by
  simp only [scanline, rxRadicand, decide_eq_true_eq]

theorem rxRadicand_nonneg (m : SphericalScanlineTextureMapper G) (vp : ViewParams G) (y : Int)
    (h1 : (yRange m vp.radius).1 ≤ y) (h2 : y < (yRange m vp.radius).2) :
    0 ≤ rxRadicand m vp y := by
  have hb := tdiv_two_bounds m.m_imageHeight
  have hskip : (0 : Int) ≤ (if m.m_interlaced = true then 1 else 0) := by
    split <;> decide
  have hd : -vp.radius ≤ y - Int.tdiv m.m_imageHeight 2 ∧
      y - Int.tdiv m.m_imageHeight 2 ≤ vp.radius := by
    simp only [yRange] at h1 h2
    generalize (if m.m_interlaced = true then (1 : Int) else 0) = skip at *
    by_cases hneg : Int.tdiv m.m_imageHeight 2 - vp.radius < 0
    · rw [if_pos hneg] at h1 h2
      simp only [if_true] at h2
      by_cases hH : 0 ≤ m.m_imageHeight
      · have := hb.1 hH
        omega
      · have := hb.2 (by omega)
        omega
    · rw [if_neg hneg] at h1 h2
      by_cases hz : Int.tdiv m.m_imageHeight 2 - vp.radius = 0
      · rw [if_pos hz] at h2
        by_cases hH : 0 ≤ m.m_imageHeight
        · have := hb.1 hH
          omega
        · have := hb.2 (by omega)
          omega
      · rw [if_neg hz] at h2
        omega
  unfold rxRadicand
  nlinarith [mul_nonneg (sub_nonneg.mpr hd.2) (show 0 ≤ y - Int.tdiv m.m_imageHeight 2
    + vp.radius by linarith [hd.1])]

/-- C21. For every image size, every radius and every scanline `y` with
`yTop <= y < yBottom`, the radicand `radius^2 - (y - H/2)^2` of `rx` is not negative, so
the conversion of the model's integer square root to a natural number changes nothing; and
for every pixel `qz` is `sqrt( 1 - qy^2 - qx^2 )` when that value is positive and 0
otherwise, `sqrt` being called with positive arguments only. -/
theorem mapTexture_sqrt_domain :
    (∀ (m : SphericalScanlineTextureMapper G) (vp : ViewParams G) (y : Int),
      (yRange m vp.radius).1 ≤ y → y < (yRange m vp.radius).2 →
      0 ≤ rxRadicand m vp y ∧ ((rxRadicand m vp y).toNat : Int) = rxRadicand m vp y) ∧
    (∀ (K : Type) [LinearOrderedField K] (sqrt : K → K) (inverseRadius : K)
      (imageWidth imageHeight x y : Int),
      (positionZ sqrt inverseRadius imageWidth imageHeight x y).1
        = (if 0 < 1
              - (inverseRadius * ((Int.tdiv imageHeight 2 - y : Int) : K))
                * (inverseRadius * ((Int.tdiv imageHeight 2 - y : Int) : K))
              - (((x - Int.tdiv imageWidth 2 : Int) : K) * inverseRadius)
                * (((x - Int.tdiv imageWidth 2 : Int) : K) * inverseRadius)
          then sqrt (1
              - (inverseRadius * ((Int.tdiv imageHeight 2 - y : Int) : K))
                * (inverseRadius * ((Int.tdiv imageHeight 2 - y : Int) : K))
              - (((x - Int.tdiv imageWidth 2 : Int) : K) * inverseRadius)
                * (((x - Int.tdiv imageWidth 2 : Int) : K) * inverseRadius))
          else 0) ∧
      ∀ a ∈ (positionZ sqrt inverseRadius imageWidth imageHeight x y).2, 0 < a) := by
  constructor
  · intro m vp y h1 h2
    have h := rxRadicand_nonneg m vp y h1 h2
    exact ⟨h, Int.toNat_of_nonneg h⟩
  · intro K _ sqrt inverseRadius imageWidth imageHeight x y
    unfold positionZ
    simp only [gt_iff_lt]
    split
    · rename_i hpos
      refine ⟨rfl, ?_⟩
      intro a ha
      rw [List.mem_singleton] at ha
      rw [ha]
      exact hpos
    · refine ⟨rfl, ?_⟩
      intro a ha
      exact absurd ha (List.not_mem_nil a)

/-- Witness for C21: the last scanline of the example mapper, where the radicand is 0. -/
theorem mapTexture_sqrt_domain_witness :
    (yRange exampleMapper exampleView.radius).1 ≤ 6 ∧
      6 < (yRange exampleMapper exampleView.radius).2 ∧
      rxRadicand exampleMapper exampleView 6 = 0 ∧
      0 ≤ rxRadicand exampleMapper exampleView 6 :=
  ⟨by decide, by decide, by decide,
    ((@mapTexture_sqrt_domain (Int × Int)).1 exampleMapper exampleView 6 (by decide)
      (by decide)).1⟩

end SphericalScanlineTextureMapper

namespace VectorTileModel

/-! ### The Mercator row of a latitude -/

/-- The latitude that `lat2tileY` passes to `gdInv` is the clamped latitude, and no
division by zero occurs. -/
theorem lat2tileY_eq {K : Type} [LinearOrderedField K] [FloorRing K] (pi DEG2RAD : K)
    (gdInv : K → K) (toUInt : Int → Nat) (hdeg : 0 < DEG2RAD) (latitude : K)
    (maxTileY : Nat) :
    lat2tileY pi DEG2RAD gdInv toUInt latitude maxTileY
      = some (toUInt
          ⌊0.5 * (1 - gdInv (clampedLatitude DEG2RAD latitude) / pi) * (maxTileY : K)⌋) := by
  have hmax : (0 : K) < 85 * DEG2RAD := by positivity
  unfold lat2tileY clampedLatitude
  by_cases hbig : |latitude| > 85 * DEG2RAD
  · have hne : |latitude| ≠ 0 := ne_of_gt (lt_trans hmax hbig)
    simp only [if_pos hbig, if_neg hne, Option.map_some']
    rcases le_or_lt 0 latitude with hpos | hneg
    · have habs : |latitude| = latitude := abs_of_nonneg hpos
      rw [habs] at hbig hne ⊢
      rw [div_self hne, one_mul, min_eq_left (le_of_lt hbig), max_eq_right (by linarith)]
    · have habs : |latitude| = -latitude := abs_of_neg hneg
      rw [habs] at hbig hne ⊢
      have hq : latitude / -latitude = -1 := by
        rw [div_neg, div_self (ne_of_lt hneg)]
      rw [hq, neg_one_mul, min_eq_right (by linarith), max_eq_left (by linarith)]
  · have hle : |latitude| ≤ 85 * DEG2RAD := not_lt.mp hbig
    have h2 := abs_le.mp hle
    simp only [if_neg hbig, Option.map_some']
    rw [min_eq_right h2.2, max_eq_right h2.1]

/-- C26. For every latitude and every `maxTileY`, `lat2tileY` is
`floor( 0.5 * ( 1 - gdInv( c ) / pi ) * maxTileY )`, converted to `unsigned int`, where `c`
is the latitude clamped to `[-85°, +85°]`.  Hence every latitude of at least 85 degrees
gives the index of 85 degrees, every latitude of at most -85 degrees gives the index of
-85 degrees, and latitude 0 is evaluated (no division by zero) with `c = 0`. -/
theorem lat2tileY_clamped {K : Type} [LinearOrderedField K] [FloorRing K] (pi DEG2RAD : K)
    (gdInv : K → K) (toUInt : Int → Nat) (hdeg : 0 < DEG2RAD) (maxTileY : Nat) :
    (∀ latitude : K, lat2tileY pi DEG2RAD gdInv toUInt latitude maxTileY
      = some (toUInt
          ⌊0.5 * (1 - gdInv (clampedLatitude DEG2RAD latitude) / pi) * (maxTileY : K)⌋)) ∧
    (∀ latitude : K, 85 * DEG2RAD ≤ latitude →
      lat2tileY pi DEG2RAD gdInv toUInt latitude maxTileY
        = lat2tileY pi DEG2RAD gdInv toUInt (85 * DEG2RAD) maxTileY) ∧
    (∀ latitude : K, latitude ≤ -(85 * DEG2RAD) →
      lat2tileY pi DEG2RAD gdInv toUInt latitude maxTileY
        = lat2tileY pi DEG2RAD gdInv toUInt (-(85 * DEG2RAD)) maxTileY) ∧
    lat2tileY pi DEG2RAD gdInv toUInt 0 maxTileY
      = some (toUInt ⌊0.5 * (1 - gdInv 0 / pi) * (maxTileY : K)⌋) := by
  have hmax : (0 : K) < 85 * DEG2RAD := by positivity
  refine ⟨fun latitude => lat2tileY_eq pi DEG2RAD gdInv toUInt hdeg latitude maxTileY,
    ?_, ?_, ?_⟩
  · intro latitude h
    rw [lat2tileY_eq pi DEG2RAD gdInv toUInt hdeg, lat2tileY_eq pi DEG2RAD gdInv toUInt hdeg]
    unfold clampedLatitude
    rw [min_eq_left h, min_eq_left (le_refl _)]
  · intro latitude h
    rw [lat2tileY_eq pi DEG2RAD gdInv toUInt hdeg, lat2tileY_eq pi DEG2RAD gdInv toUInt hdeg]
    unfold clampedLatitude
    rw [min_eq_right (by linarith), min_eq_right (by linarith), max_eq_left h,
      max_eq_left (le_refl _)]
  · rw [lat2tileY_eq pi DEG2RAD gdInv toUInt hdeg]
    unfold clampedLatitude
    rw [min_eq_right (le_of_lt hmax), max_eq_right (by linarith)]

/-- Witness for C26 over the rationals, with `22 / 7` in the place of `pi` and the map
`x ↦ 2 * x` in the place of `gdInv`: 16 rows, latitude 3 (beyond 85 degrees) falls in
row 0 like 85 degrees itself, latitude 0 in row 8. -/
theorem lat2tileY_clamped_witness :
    lat2tileY (22 / 7 : ℚ) (22 / 7 / 180) (fun x => 2 * x) Int.toNat 3 16
        = lat2tileY (22 / 7 : ℚ) (22 / 7 / 180) (fun x => 2 * x) Int.toNat
            (85 * (22 / 7 / 180)) 16 ∧
      lat2tileY (22 / 7 : ℚ) (22 / 7 / 180) (fun x => 2 * x) Int.toNat 0 16
        = some (Int.toNat ⌊(0.5 : ℚ) * (1 - 2 * 0 / (22 / 7)) * ((16 : Nat) : ℚ)⌋) :=
  ⟨(lat2tileY_clamped (22 / 7 : ℚ) (22 / 7 / 180) (fun x => 2 * x) Int.toNat (by norm_num)
      16).2.1 3 (by norm_num),
    (lat2tileY_clamped (22 / 7 : ℚ) (22 / 7 / 180) (fun x => 2 * x) Int.toNat (by norm_num)
      16).2.2.2⟩

end VectorTileModel

namespace SphericalScanlineTextureMapper
variable {G : Type}

/-! ### The column loop: what is written where -/

/-- The values after one pass through the body of the column loop, in terms of the test
`scanJump`. -/
theorem scanStep_fields (m : SphericalScanlineTextureMapper G) (vp : ViewParams G) (y : Int)
    (sl : Scanline) (x ncount scanLine : Int) (prev : Option G) :
    (scanStep m vp y sl x ncount scanLine prev).x
        = (if scanJump m vp sl x ncount then x + (m.m_n - 1) else x) ∧
      (scanStep m vp y sl x ncount scanLine prev).ncount
        = (if scanJump m vp sl x ncount then ncount + 1 else ncount) ∧
      (scanStep m vp y sl x ncount scanLine prev).interpolate
        = (if scanJump m vp sl x ncount then !decide (vp.mapQuality = MapQuality.Print)
          else false) ∧
      (scanStep m vp y sl x ncount scanLine prev).lonLat
        = pixelLonLat m vp (scanStep m vp y sl x ncount scanLine prev).x y ∧
      (scanStep m vp y sl x ncount scanLine prev).scanLine
        = (if (scanStep m vp y sl x ncount scanLine prev).interpolate
          then scanLine + (m.m_n - 1) else scanLine) ∧
      (scanStep m vp y sl x ncount scanLine prev).events
        = (if (scanStep m vp y sl x ncount scanLine prev).interpolate
            then [MapperEvent.pixelValueApprox prev
              (scanStep m vp y sl x ncount scanLine prev).lonLat y scanLine (highQuality vp)]
            else [])
          ++ (if (scanStep m vp y sl x ncount scanLine prev).x < m.m_imageWidth
            then [MapperEvent.pixelValue (scanStep m vp y sl x ncount scanLine prev).lonLat y
              (scanStep m vp y sl x ncount scanLine prev).scanLine (highQuality vp)]
            else []) :=
  ⟨rfl, rfl, rfl, rfl, rfl, rfl⟩

/-- One pass of the column loop keeps the invariant; a pass that moves on to the next
anchor starts at a column `xIpLeft + k * m_n` of the interpolated range. -/
theorem columnInv_step (m : SphericalScanlineTextureMapper G) (vp : ViewParams G)
    (sl : Scanline) (x ncount : Int) (hn : 1 ≤ m.m_n) (h : ColumnInv m vp sl x ncount) :
    (scanJump m vp sl x ncount = true →
      ColumnInv m vp sl (x + (m.m_n - 1) + 1) (ncount + 1) ∧
        ∃ k : Int, 0 ≤ k ∧ x = sl.xIpLeft + k * m.m_n ∧ x ≤ sl.xIpRight) ∧
    (scanJump m vp sl x ncount = false → ColumnInv m vp sl (x + 1) ncount) := by
  have e1 : (ncount + 1) * m.m_n = ncount * m.m_n + m.m_n := by ring
  have e3 : (ncount + 3) * m.m_n = ncount * m.m_n + 3 * m.m_n := by ring
  unfold ColumnInv at h ⊢
  rw [e1]
  constructor
  · intro hj
    simp only [scanJump, Bool.and_eq_true, Bool.not_eq_true', Bool.and_eq_false_iff,
      decide_eq_true_eq, decide_eq_false_iff_not, ge_iff_le] at hj
    obtain ⟨⟨hl, hr⟩, hp⟩ := hj
    rcases h with h | h | h | h | h
    · omega
    · omega
    · refine ⟨Or.inr (Or.inr (Or.inl ⟨by omega, by omega⟩)), ncount, h.1, h.2, hr⟩
    · obtain ⟨h0, hc, hp1, hp2, hx1, hx2⟩ := h
      have hx3 : x = sl.xIpLeft + ncount * m.m_n + 3 * m.m_n := by
        rcases hp with ((hp | hp) | hp) | hp
        · rw [hc] at hp
          exact absurd hp (by decide)
        · omega
        · omega
        · omega
      refine ⟨Or.inr (Or.inr (Or.inr (Or.inr ⟨by omega, by omega, by omega⟩))),
        ncount + 3, by omega, by rw [e3]; omega, hr⟩
    · obtain ⟨h0, hx, hp1⟩ := h
      refine ⟨Or.inr (Or.inr (Or.inr (Or.inr ⟨by omega, by omega, by omega⟩))),
        ncount + 3, by omega, by rw [e3]; omega, hr⟩
  · intro hj
    have hnn : 0 ≤ ncount → 0 ≤ ncount * m.m_n := fun h0 => mul_nonneg h0 (by omega)
    simp only [scanJump, Bool.and_eq_false_iff, Bool.not_eq_false', Bool.and_eq_true,
      decide_eq_true_eq, decide_eq_false_iff_not, ge_iff_le] at hj
    rcases h with h | h | h | h | h
    · by_cases hx : x + 1 < sl.xIpLeft
      · exact Or.inl ⟨hx, h.2⟩
      · refine Or.inr (Or.inr (Or.inl ⟨by omega, ?_⟩))
        rw [h.2]
        omega
    · exact Or.inr (Or.inl (by omega))
    · have := hnn h.1
      rcases hj with (hj | hj) | hj
      · omega
      · exact Or.inr (Or.inl (by omega))
      · obtain ⟨⟨⟨hc, hp1⟩, hp2⟩, hp3⟩ := hj
        exact Or.inr (Or.inr (Or.inr (Or.inl ⟨h.1, hc, hp1, hp2, by omega, by omega⟩)))
    · obtain ⟨h0, hc, hp1, hp2, hx1, hx2⟩ := h
      have := hnn h0
      rcases hj with (hj | hj) | hj
      · omega
      · exact Or.inr (Or.inl (by omega))
      · obtain ⟨⟨⟨_, _⟩, _⟩, hp3⟩ := hj
        exact Or.inr (Or.inr (Or.inr (Or.inl ⟨h0, hc, hp1, hp2, by omega, by omega⟩)))
    · obtain ⟨h0, hx, hp1⟩ := h
      have := hnn h0
      rcases hj with (hj | hj) | hj
      · omega
      · exact Or.inr (Or.inl (by omega))
      · obtain ⟨⟨⟨_, hq1⟩, _⟩, _⟩ := hj
        omega

end SphericalScanlineTextureMapper

namespace SphericalScanlineTextureMapper
variable {G : Type}

theorem intRange_append (lo : Int) (k l : Nat) :
    intRange lo k ++ intRange (lo + (k : Int)) l = intRange lo (k + l) := by
  induction k generalizing lo with
  | zero => simp [intRange_zero]
  | succ k ih =>
    have e : k + 1 + l = (k + l) + 1 := by omega
    rw [intRange_succ, e, intRange_succ, List.cons_append]
    congr 1
    have := ih (lo + 1)
    have e2 : lo + 1 + (k : Int) = lo + ((k + 1 : Nat) : Int) := by push_cast; ring
    rw [e2] at this
    exact this

/-- The column loop from column `x` on, with the write position at `x`: it ends, the
columns it writes are `x, x + 1, ..., xRight - 1` in this order, every `pixelValue` writes
the column whose coordinates it was given, and every `pixelValueApprox` starts from the
coordinates of the column before its first pixel and ends at those of the column after its
last. -/
theorem scanColumns_spec (m : SphericalScanlineTextureMapper G) (vp : ViewParams G) (y : Int)
    (sl : Scanline) (hn : 1 ≤ m.m_n) (hprint : vp.mapQuality = MapQuality.Print → m.m_n = 1)
    (hgeo1 : sl.xLeft < sl.xIpLeft) (hgeo2 : sl.xRight ≤ m.m_imageWidth)
    (hgeo3 : ∀ k : Int, 0 ≤ k → sl.xIpLeft + k * m.m_n ≤ sl.xIpRight →
      sl.xIpLeft + k * m.m_n + (m.m_n - 1) < sl.xRight ∨
        (sl.xIpLeft + k * m.m_n + (m.m_n - 1) = sl.xRight ∧ sl.xRight = m.m_imageWidth)) :
    ∀ (fuel : Nat) (x ncount : Int) (interpolate : Bool) (prev : Option G),
      (sl.xRight - x).toNat ≤ fuel → ColumnInv m vp sl x ncount → sl.xLeft ≤ x →
      (sl.xLeft < x → prev = some (pixelLonLat m vp (x - 1) y)) →
      ∃ events i p, scanColumns m vp y sl fuel x ncount x interpolate prev
          = some (events, i, p) ∧
        events.flatMap (MapperEvent.columnsWritten m.m_n) = intRange x (sl.xRight - x).toNat ∧
        ∀ e ∈ events,
          (∃ c, x ≤ c ∧ c < sl.xRight ∧
            e = MapperEvent.pixelValue (pixelLonLat m vp c y) y c (highQuality vp)) ∨
          (∃ c, x ≤ c ∧ sl.xLeft < c ∧ c + (m.m_n - 1) ≤ sl.xRight ∧
            e = MapperEvent.pixelValueApprox (some (pixelLonLat m vp (c - 1) y))
              (pixelLonLat m vp (c + (m.m_n - 1)) y) y c (highQuality vp)) := by
  intro fuel
  induction fuel with
  | zero =>
    intro x ncount interpolate prev hfuel _ _ _
    have hx : ¬ x < sl.xRight := by omega
    have h0 : (sl.xRight - x).toNat = 0 := by omega
    refine ⟨[], interpolate, prev, ?_, ?_, fun e he => absurd he (List.not_mem_nil e)⟩
    · simp only [scanColumns, if_neg hx]
    · rw [h0]
      rfl
  | succ k ih =>
    intro x ncount interpolate prev hfuel hinv hxl hprev
    rw [scanColumns_succ]
    by_cases hx : x < sl.xRight
    · rw [if_pos hx]
      obtain ⟨fx, fnc, fint, fll, fsl, fev⟩ := scanStep_fields m vp y sl x ncount x prev
      obtain ⟨hstepT, hstepF⟩ := columnInv_step m vp sl x ncount hn hinv
      -- the pass writes the pixel of column `x` only
      have hplain : (scanStep m vp y sl x ncount x prev).x = x →
          (scanStep m vp y sl x ncount x prev).interpolate = false →
          ColumnInv m vp sl (x + 1) (scanStep m vp y sl x ncount x prev).ncount →
          ∃ events i p,
            (match scanColumns m vp y sl k ((scanStep m vp y sl x ncount x prev).x + 1)
                (scanStep m vp y sl x ncount x prev).ncount
                ((scanStep m vp y sl x ncount x prev).scanLine + 1)
                (scanStep m vp y sl x ncount x prev).interpolate
                (some (scanStep m vp y sl x ncount x prev).lonLat) with
              | none => none
              | some (events, interpolate2, prev2) =>
                some ((scanStep m vp y sl x ncount x prev).events ++ events, interpolate2,
                  prev2)) = some (events, i, p) ∧
            events.flatMap (MapperEvent.columnsWritten m.m_n)
              = intRange x (sl.xRight - x).toNat ∧
            ∀ e ∈ events,
              (∃ c, x ≤ c ∧ c < sl.xRight ∧
                e = MapperEvent.pixelValue (pixelLonLat m vp c y) y c (highQuality vp)) ∨
              (∃ c, x ≤ c ∧ sl.xLeft < c ∧ c + (m.m_n - 1) ≤ sl.xRight ∧
                e = MapperEvent.pixelValueApprox (some (pixelLonLat m vp (c - 1) y))
                  (pixelLonLat m vp (c + (m.m_n - 1)) y) y c (highQuality vp)) := by
        intro hsx hsi hsinv
        have hssl : (scanStep m vp y sl x ncount x prev).scanLine = x := by
          rw [fsl, hsi]
          rfl
        have hsll : (scanStep m vp y sl x ncount x prev).lonLat = pixelLonLat m vp x y := by
          rw [fll, hsx]
        have hsev : (scanStep m vp y sl x ncount x prev).events
            = [MapperEvent.pixelValue (pixelLonLat m vp x y) y x (highQuality vp)] := by
          rw [fev, hsi, hsx, hssl, hsll, if_pos (show x < m.m_imageWidth by omega)]
          rfl
        obtain ⟨events, i, p, hrec, hcols, hall⟩ := ih (x + 1)
          (scanStep m vp y sl x ncount x prev).ncount false (some (pixelLonLat m vp x y))
          (by omega) hsinv (by omega) (fun _ => by rw [add_sub_cancel_right])
        refine ⟨[MapperEvent.pixelValue (pixelLonLat m vp x y) y x (highQuality vp)] ++ events,
          i, p, ?_, ?_, ?_⟩
        · rw [hsx, hssl, hsi, hsll, hsev, hrec]
        · rw [List.flatMap_append, hcols]
          have e : (sl.xRight - x).toNat = (sl.xRight - (x + 1)).toNat + 1 := by omega
          rw [e, intRange_succ]
          rfl
        · intro e he
          rcases List.mem_append.mp he with he | he
          · rw [List.mem_singleton] at he
            exact Or.inl ⟨x, le_refl x, hx, he⟩
          · rcases hall e he with ⟨c, h1, h2, h3⟩ | ⟨c, h1, h2, h3, h4⟩
            · exact Or.inl ⟨c, by omega, h2, h3⟩
            · exact Or.inr ⟨c, by omega, h2, h3, h4⟩
      cases hj : scanJump m vp sl x ncount with
      | false =>
        rw [hj] at fx fnc fint
        simp only [Bool.false_eq_true, if_false] at fx fnc fint
        exact hplain fx fint (by rw [fnc]; exact hstepF hj)
      | true =>
        rw [hj] at fx fnc fint
        simp only [if_true] at fx fnc fint
        obtain ⟨hinv1, kk, hk0, hkx, hkr⟩ := hstepT hj
        by_cases hp : vp.mapQuality = MapQuality.Print
        · have hn1 := hprint hp
          have fx1 : (scanStep m vp y sl x ncount x prev).x = x := by
            rw [fx, hn1]
            omega
          have fint1 : (scanStep m vp y sl x ncount x prev).interpolate = false := by
            rw [fint]
            simp [hp]
          have hinv2 : ColumnInv m vp sl (x + 1) (ncount + 1) := by
            have e : x + (m.m_n - 1) + 1 = x + 1 := by rw [hn1]; omega
            rw [e] at hinv1
            exact hinv1
          exact hplain fx1 fint1 (by rw [fnc]; exact hinv2)
        · have fint1 : (scanStep m vp y sl x ncount x prev).interpolate = true := by
            rw [fint]
            simp [hp]
          have hssl : (scanStep m vp y sl x ncount x prev).scanLine = x + (m.m_n - 1) := by
            rw [fsl, fint1]
            rfl
          have hsll : (scanStep m vp y sl x ncount x prev).lonLat
              = pixelLonLat m vp (x + (m.m_n - 1)) y := by
            rw [fll, fx]
          have hxl1 : sl.xLeft < x := by
            have : 0 ≤ kk * m.m_n := mul_nonneg hk0 (by omega)
            omega
          have hprev1 := hprev hxl1
          have hbound := hgeo3 kk hk0 (by rw [← hkx]; exact hkr)
          rw [← hkx] at hbound
          obtain ⟨events, i, p, hrec, hcols, hall⟩ := ih (x + (m.m_n - 1) + 1) (ncount + 1) true
            (some (pixelLonLat m vp (x + (m.m_n - 1)) y)) (by omega) hinv1 (by omega)
            (fun _ => by rw [add_sub_cancel_right])
          have hn1 : ((m.m_n - 1).toNat : Int) = m.m_n - 1 := by omega
          rcases hbound with hb | ⟨hb1, hb2⟩
          · have hsev : (scanStep m vp y sl x ncount x prev).events
                = [MapperEvent.pixelValueApprox (some (pixelLonLat m vp (x - 1) y))
                    (pixelLonLat m vp (x + (m.m_n - 1)) y) y x (highQuality vp),
                  MapperEvent.pixelValue (pixelLonLat m vp (x + (m.m_n - 1)) y) y
                    (x + (m.m_n - 1)) (highQuality vp)] := by
              rw [fev, fint1, fx, hssl, hsll, hprev1,
                if_pos (show x + (m.m_n - 1) < m.m_imageWidth by omega)]
              rfl
            refine ⟨[MapperEvent.pixelValueApprox (some (pixelLonLat m vp (x - 1) y))
                    (pixelLonLat m vp (x + (m.m_n - 1)) y) y x (highQuality vp),
                  MapperEvent.pixelValue (pixelLonLat m vp (x + (m.m_n - 1)) y) y
                    (x + (m.m_n - 1)) (highQuality vp)] ++ events, i, p, ?_, ?_, ?_⟩
            · rw [fx, hssl, fint1, hsll, fnc, hsev, hrec]
            · rw [List.flatMap_append, hcols]
              simp only [List.flatMap_cons, List.flatMap_nil, MapperEvent.columnsWritten,
                List.append_nil]
              have e : (sl.xRight - x).toNat
                  = (m.m_n - 1).toNat + (1 + (sl.xRight - (x + (m.m_n - 1) + 1)).toNat) := by
                omega
              rw [e, ← intRange_append, hn1, ← intRange_append]
              simp only [List.append_assoc, Nat.cast_one]
              rw [show intRange (x + (m.m_n - 1)) 1 = [x + (m.m_n - 1)] from by
                rw [intRange_succ, intRange_zero]]
            · intro e he
              rcases List.mem_append.mp he with he | he
              · simp only [List.mem_cons, List.mem_singleton, List.not_mem_nil, or_false] at he
                rcases he with he | he
                · exact Or.inr ⟨x, le_refl x, hxl1, by omega, he⟩
                · exact Or.inl ⟨x + (m.m_n - 1), by omega, hb, he⟩
              · rcases hall e he with ⟨c, h1, h2, h3⟩ | ⟨c, h1, h2, h3, h4⟩
                · exact Or.inl ⟨c, by omega, h2, h3⟩
                · exact Or.inr ⟨c, by omega, h2, h3, h4⟩
          · have hsev : (scanStep m vp y sl x ncount x prev).events
                = [MapperEvent.pixelValueApprox (some (pixelLonLat m vp (x - 1) y))
                    (pixelLonLat m vp (x + (m.m_n - 1)) y) y x (highQuality vp)] := by
              rw [fev, fint1, fx, hssl, hsll, hprev1,
                if_neg (show ¬ x + (m.m_n - 1) < m.m_imageWidth by omega)]
              rfl
            refine ⟨[MapperEvent.pixelValueApprox (some (pixelLonLat m vp (x - 1) y))
                    (pixelLonLat m vp (x + (m.m_n - 1)) y) y x (highQuality vp)] ++ events, i, p, ?_, ?_, ?_⟩
            · rw [fx, hssl, fint1, hsll, fnc, hsev, hrec]
            · rw [List.flatMap_append, hcols]
              simp only [List.flatMap_cons, List.flatMap_nil, MapperEvent.columnsWritten,
                List.append_nil]
              have e0 : (sl.xRight - (x + (m.m_n - 1) + 1)).toNat = 0 := by omega
              have e : (sl.xRight - x).toNat = (m.m_n - 1).toNat := by omega
              rw [e0, e, intRange_zero, List.append_nil]
            · intro e he
              rcases List.mem_append.mp he with he | he
              · rw [List.mem_singleton] at he
                exact Or.inr ⟨x, le_refl x, hxl1, by omega, he⟩
              · rcases hall e he with ⟨c, h1, h2, h3⟩ | ⟨c, h1, h2, h3, h4⟩
                · exact Or.inl ⟨c, by omega, h2, h3⟩
                · exact Or.inr ⟨c, by omega, h2, h3, h4⟩
    · rw [if_neg hx]
      have h0 : (sl.xRight - x).toNat = 0 := by omega
      refine ⟨[], interpolate, prev, rfl, ?_, fun e he => absurd he (List.not_mem_nil e)⟩
      rw [h0]
      rfl

end SphericalScanlineTextureMapper

namespace SphericalScanlineTextureMapper
variable {G : Type}

/-- The x-range and the interpolated range of a scanline on a canvas whose width is the
width given to `resizeMap`: the x-range lies on the canvas, it starts left of the
interpolated range, and an anchor interval that starts in the interpolated range at a
column `xIpLeft + k * m_n` ends inside the x-range, or exactly at its right end when that
is the right edge of the canvas. -/
theorem scanline_geometry (m : SphericalScanlineTextureMapper G) (vp : ViewParams G) (y : Int)
    (hn : 1 ≤ m.m_n) (hW : vp.canvasWidth = m.m_imageWidth) (hW0 : 0 ≤ m.m_imageWidth) :
    0 ≤ (scanline m vp y).xLeft ∧ (scanline m vp y).xLeft ≤ (scanline m vp y).xRight ∧
      (scanline m vp y).xRight ≤ m.m_imageWidth ∧
      (scanline m vp y).xLeft < (scanline m vp y).xIpLeft ∧
      ∀ k : Int, 0 ≤ k → (scanline m vp y).xIpLeft + k * m.m_n ≤ (scanline m vp y).xIpRight →
        (scanline m vp y).xIpLeft + k * m.m_n + (m.m_n - 1) < (scanline m vp y).xRight ∨
          ((scanline m vp y).xIpLeft + k * m.m_n + (m.m_n - 1) = (scanline m vp y).xRight ∧
            (scanline m vp y).xRight = m.m_imageWidth) := by
  have hb := (tdiv_two_bounds m.m_imageWidth).1 hW0
  have hn0 : m.m_n ≠ 0 := by omega
  have hnpos : 0 < m.m_n := by omega
  generalize hrx : ((Nat.sqrt (vp.radius * vp.radius
      - (y - Int.tdiv m.m_imageHeight 2) * (y - Int.tdiv m.m_imageHeight 2)).toNat : Nat) : Int)
    = rx
  have hrx0 : 0 ≤ rx := by rw [← hrx]; exact Int.ofNat_nonneg _
  by_cases hw : Int.tdiv m.m_imageWidth 2 - rx > 0
  · have hxl : (scanline m vp y).xLeft = Int.tdiv m.m_imageWidth 2 - rx := by
      simp only [scanline, hrx, hw, decide_True, if_true]
    have hxr : (scanline m vp y).xRight = Int.tdiv m.m_imageWidth 2 - rx + rx + rx := by
      simp only [scanline, hrx, hw, decide_True, if_true]
    have hil : (scanline m vp y).xIpLeft
        = m.m_n * (Int.tdiv (Int.tdiv m.m_imageWidth 2 - rx) m.m_n + 1) := by
      simp only [scanline, hrx, hw, decide_True, if_true]
    have hir : (scanline m vp y).xIpRight
        = m.m_n * (Int.tdiv (Int.tdiv m.m_imageWidth 2 - rx + rx + rx) m.m_n - 1) := by
      simp only [scanline, hrx, hw, decide_True, if_true]
    rw [hxl, hxr, hil, hir]
    rw [Int.tdiv_eq_ediv (show 0 ≤ Int.tdiv m.m_imageWidth 2 - rx by omega) (by omega),
      Int.tdiv_eq_ediv (show 0 ≤ Int.tdiv m.m_imageWidth 2 - rx + rx + rx by omega) (by omega)]
    have h1 := @Int.lt_mul_ediv_self_add (Int.tdiv m.m_imageWidth 2 - rx) m.m_n hnpos
    have h2 := @Int.mul_ediv_self_le (Int.tdiv m.m_imageWidth 2 - rx + rx + rx) m.m_n hn0
    have e1 : m.m_n * ((Int.tdiv m.m_imageWidth 2 - rx) / m.m_n + 1)
        = m.m_n * ((Int.tdiv m.m_imageWidth 2 - rx) / m.m_n) + m.m_n := by ring
    have e2 : m.m_n * ((Int.tdiv m.m_imageWidth 2 - rx + rx + rx) / m.m_n - 1)
        = m.m_n * ((Int.tdiv m.m_imageWidth 2 - rx + rx + rx) / m.m_n) - m.m_n := by ring
    rw [e1, e2]
    refine ⟨by omega, by omega, by omega, by omega, ?_⟩
    intro k _ hk
    left
    omega
  · have hxl : (scanline m vp y).xLeft = 0 := by
      simp only [scanline, hrx, hw, decide_False, Bool.false_eq_true, if_false]
    have hxr : (scanline m vp y).xRight = m.m_imageWidth := by
      simp only [scanline, hrx, hw, decide_False, Bool.false_eq_true, if_false, hW]
    have hil : (scanline m vp y).xIpLeft = 1 := by
      simp only [scanline, hrx, hw, decide_False, Bool.false_eq_true, if_false]
    have hir : (scanline m vp y).xIpRight
        = m.m_n * (Int.tdiv m.m_imageWidth m.m_n - 1) + 1 := by
      simp only [scanline, hrx, hw, decide_False, Bool.false_eq_true, if_false, hW]
    rw [hxl, hxr, hil, hir]
    rw [Int.tdiv_eq_ediv hW0 (by omega)]
    have h2 := @Int.mul_ediv_self_le m.m_imageWidth m.m_n hn0
    have e2 : m.m_n * (m.m_imageWidth / m.m_n - 1)
        = m.m_n * (m.m_imageWidth / m.m_n) - m.m_n := by ring
    rw [e2]
    refine ⟨le_refl 0, hW0, le_refl _, by decide, ?_⟩
    intro k _ hk
    by_cases hlt : 1 + k * m.m_n + (m.m_n - 1) < m.m_imageWidth
    · exact Or.inl hlt
    · exact Or.inr ⟨by omega, rfl⟩

theorem stride_pos (m : SphericalScanlineTextureMapper G) (vp : ViewParams G)
    (h : 1 ≤ m.m_nBest) :
    1 ≤ stride m vp ∧ (vp.mapQuality = MapQuality.Print → stride m vp = 1) := by
  unfold stride
  by_cases hp : vp.mapQuality = MapQuality.Print
  · simp [hp]
  · simp only [hp, decide_False, Bool.false_eq_true, if_false, false_implies, and_true]
    split
    · exact h
    · decide

end SphericalScanlineTextureMapper

namespace SphericalScanlineTextureMapper
variable {G : Type}

/-- The column loop of scanline `y` as `mapTexture` runs it, after `resizeMap` on a canvas
whose width is the width given to `resizeMap`. -/
theorem scanline_spec (m : SphericalScanlineTextureMapper G) (vp : ViewParams G) (y : Int)
    (hbest : 1 ≤ m.m_nBest) (hW : vp.canvasWidth = m.m_imageWidth) (hW0 : 0 ≤ m.m_imageWidth)
    (interpolate : Bool) (prev : Option G) :
    ∃ events i p,
      scanColumns (strided m vp) vp y (scanline (strided m vp) vp y)
          ((scanline (strided m vp) vp y).xRight - (scanline (strided m vp) vp y).xLeft).toNat
          (scanline (strided m vp) vp y).xLeft 0 (scanline (strided m vp) vp y).xLeft
          interpolate prev = some (events, i, p) ∧
        events.flatMap (MapperEvent.columnsWritten (stride m vp))
          = intRange (scanline (strided m vp) vp y).xLeft
            ((scanline (strided m vp) vp y).xRight
              - (scanline (strided m vp) vp y).xLeft).toNat ∧
        ∀ e ∈ events,
          (∃ c, (scanline (strided m vp) vp y).xLeft ≤ c ∧
            c < (scanline (strided m vp) vp y).xRight ∧
            e = MapperEvent.pixelValue (pixelLonLat m vp c y) y c (highQuality vp)) ∨
          (∃ c, (scanline (strided m vp) vp y).xLeft ≤ c ∧
            (scanline (strided m vp) vp y).xLeft < c ∧
            c + (stride m vp - 1) ≤ (scanline (strided m vp) vp y).xRight ∧
            e = MapperEvent.pixelValueApprox (some (pixelLonLat m vp (c - 1) y))
              (pixelLonLat m vp (c + (stride m vp - 1)) y) y c (highQuality vp)) := by
  obtain ⟨hn, hprint⟩ := stride_pos m vp hbest
  have hn1 : 1 ≤ (strided m vp).m_n := hn
  obtain ⟨_, _, hg2, hg1, hg3⟩ := scanline_geometry (strided m vp) vp y hn1 hW hW0
  exact scanColumns_spec (strided m vp) vp y (scanline (strided m vp) vp y) hn1 hprint hg1 hg2
    hg3 _ _ 0 interpolate prev (le_refl _) (Or.inl ⟨hg1, rfl⟩) (le_refl _)
    (fun h => absurd h (lt_irrefl _))

/-- C27. After `resizeMap`, on a canvas whose width `W` is the width given to `resizeMap`,
for every radius, quality and scanline `y`: `0 <= xLeft <= xRight <= W`; the column loop
ends; the columns that its `pixelValue` calls (one pixel each) and `pixelValueApprox`
calls (`n - 1` pixels each) write are, in the order of the calls, `xLeft, xLeft + 1, ...,
xRight - 1`, so every column of `[xLeft, xRight)` is written exactly once and no other
column is written; and every `pixelValue` call writes at the column for which its
coordinates were computed. -/
theorem scanline_writes_each_column_once (m : SphericalScanlineTextureMapper G)
    (vp : ViewParams G) (y : Int) (hbest : 1 ≤ m.m_nBest)
    (hW : vp.canvasWidth = m.m_imageWidth) (hW0 : 0 ≤ m.m_imageWidth)
    (interpolate : Bool) (prev : Option G) :
    0 ≤ (scanline (strided m vp) vp y).xLeft ∧
      (scanline (strided m vp) vp y).xLeft ≤ (scanline (strided m vp) vp y).xRight ∧
      (scanline (strided m vp) vp y).xRight ≤ m.m_imageWidth ∧
      ∃ events i p,
        scanColumns (strided m vp) vp y (scanline (strided m vp) vp y)
            ((scanline (strided m vp) vp y).xRight
              - (scanline (strided m vp) vp y).xLeft).toNat
            (scanline (strided m vp) vp y).xLeft 0 (scanline (strided m vp) vp y).xLeft
            interpolate prev = some (events, i, p) ∧
          events.flatMap (MapperEvent.columnsWritten (stride m vp))
            = intRange (scanline (strided m vp) vp y).xLeft
              ((scanline (strided m vp) vp y).xRight
                - (scanline (strided m vp) vp y).xLeft).toNat ∧
          (∀ c : Int,
            (events.flatMap (MapperEvent.columnsWritten (stride m vp))).count c
              = if (scanline (strided m vp) vp y).xLeft ≤ c ∧
                  c < (scanline (strided m vp) vp y).xRight then 1 else 0) ∧
          ∀ lonLat y1 c smooth, MapperEvent.pixelValue lonLat y1 c smooth ∈ events →
            lonLat = pixelLonLat m vp c y ∧ y1 = y ∧
              (scanline (strided m vp) vp y).xLeft ≤ c ∧
              c < (scanline (strided m vp) vp y).xRight ∧ c < m.m_imageWidth := by
  obtain ⟨hn, _⟩ := stride_pos m vp hbest
  have hn1 : 1 ≤ (strided m vp).m_n := hn
  obtain ⟨hg0, hg01, hg2, _, _⟩ := scanline_geometry (strided m vp) vp y hn1 hW hW0
  obtain ⟨events, i, p, hrun, hcols, hall⟩ := scanline_spec m vp y hbest hW hW0 interpolate prev
  refine ⟨hg0, hg01, hg2, events, i, p, hrun, hcols, ?_, ?_⟩
  · intro c
    rw [hcols]
    have hnd : (intRange (scanline (strided m vp) vp y).xLeft
        ((scanline (strided m vp) vp y).xRight
          - (scanline (strided m vp) vp y).xLeft).toNat).Nodup := by
      unfold intRange
      apply List.Nodup.map _ (List.nodup_range _)
      intro a b hab
      simpa using hab
    by_cases hc : (scanline (strided m vp) vp y).xLeft ≤ c ∧
        c < (scanline (strided m vp) vp y).xRight
    · rw [if_pos hc]
      exact List.count_eq_one_of_mem hnd ((mem_intRange _ _ _).mpr ⟨hc.1, by omega⟩)
    · rw [if_neg hc]
      apply List.count_eq_zero_of_not_mem
      intro hmem
      have := (mem_intRange _ _ _).mp hmem
      exact hc ⟨this.1, by omega⟩
  · intro lonLat y1 c smooth he
    rcases hall _ he with ⟨c1, h1, h2, h3⟩ | ⟨c1, _, _, _, h3⟩
    · injection h3 with e1 e2 e3 e4
      subst e3
      exact ⟨e1, e2, h1, h2, lt_of_lt_of_le h2 hg2⟩
    · cases h3

/-- Witness for C27: scanline 0 of the high quality view on the canvas of 40 pixels. -/
theorem scanline_writes_each_column_once_witness :
    (scanline (strided poleMapper poleView) poleView 0).xRight ≤ poleMapper.m_imageWidth ∧
      ∃ events i p,
        scanColumns (strided poleMapper poleView) poleView 0
            (scanline (strided poleMapper poleView) poleView 0)
            ((scanline (strided poleMapper poleView) poleView 0).xRight
              - (scanline (strided poleMapper poleView) poleView 0).xLeft).toNat
            (scanline (strided poleMapper poleView) poleView 0).xLeft 0
            (scanline (strided poleMapper poleView) poleView 0).xLeft false none
          = some (events, i, p) ∧
        events.flatMap (MapperEvent.columnsWritten (stride poleMapper poleView))
          = intRange (scanline (strided poleMapper poleView) poleView 0).xLeft
            ((scanline (strided poleMapper poleView) poleView 0).xRight
              - (scanline (strided poleMapper poleView) poleView 0).xLeft).toNat :=
  match scanline_writes_each_column_once poleMapper poleView 0 (resizeMap_nBest_pos _ 40 1 400)
      rfl (by decide) false none with
  | ⟨_, _, h3, events, i, p, h4, h5, _⟩ => ⟨h3, events, i, p, h4, h5⟩

/-- C28. In every scanline the first pixel, at column `xLeft`, is computed exactly; and at
every call of `pixelValueApprox`, which fills the columns from `c` on up to the anchor
column `x = c + n - 1`, the previous coordinates `(m_prevLon, m_prevLat)` are those that
the loop computes for the column `c - 1 = x - n` of the same scanline, a column of the
x-range, and the coordinates passed are those of the anchor column. -/
theorem pixelValueApprox_starts_in_scanline (m : SphericalScanlineTextureMapper G)
    (vp : ViewParams G) (y : Int) (hbest : 1 ≤ m.m_nBest)
    (hW : vp.canvasWidth = m.m_imageWidth) (hW0 : 0 ≤ m.m_imageWidth)
    (interpolate : Bool) (prev : Option G) :
    ∃ events i p,
      scanColumns (strided m vp) vp y (scanline (strided m vp) vp y)
          ((scanline (strided m vp) vp y).xRight - (scanline (strided m vp) vp y).xLeft).toNat
          (scanline (strided m vp) vp y).xLeft 0 (scanline (strided m vp) vp y).xLeft
          interpolate prev = some (events, i, p) ∧
        ((scanline (strided m vp) vp y).xLeft < (scanline (strided m vp) vp y).xRight →
          MapperEvent.pixelValue (pixelLonLat m vp (scanline (strided m vp) vp y).xLeft y) y
            (scanline (strided m vp) vp y).xLeft (highQuality vp) ∈ events) ∧
        ∀ prev1 lonLat y1 c smooth,
          MapperEvent.pixelValueApprox prev1 lonLat y1 c smooth ∈ events →
          prev1 = some (pixelLonLat m vp (c - 1) y) ∧
            lonLat = pixelLonLat m vp (c + (stride m vp - 1)) y ∧ y1 = y ∧
            (scanline (strided m vp) vp y).xLeft ≤ c - 1 ∧
            c - 1 < (scanline (strided m vp) vp y).xRight := by
  obtain ⟨hn, _⟩ := stride_pos m vp hbest
  obtain ⟨events, i, p, hrun, hcols, hall⟩ := scanline_spec m vp y hbest hW hW0 interpolate prev
  refine ⟨events, i, p, hrun, ?_, ?_⟩
  · intro hlt
    have hmem : (scanline (strided m vp) vp y).xLeft
        ∈ events.flatMap (MapperEvent.columnsWritten (stride m vp)) := by
      rw [hcols, mem_intRange]
      omega
    obtain ⟨e, he, hce⟩ := List.mem_flatMap.mp hmem
    rcases hall e he with ⟨c, h1, h2, h3⟩ | ⟨c, h1, h2, h3, h4⟩
    · rw [h3] at hce he
      simp only [MapperEvent.columnsWritten, List.mem_singleton] at hce
      rw [hce]
      exact he
    · rw [h4] at hce
      simp only [MapperEvent.columnsWritten, mem_intRange] at hce
      omega
  · intro prev1 lonLat y1 c smooth he
    rcases hall _ he with ⟨c1, _, _, h3⟩ | ⟨c1, h1, h2, h3, h4⟩
    · cases h3
    · injection h4 with e1 e2 e3 e4 e5
      subst e4
      exact ⟨e1, e2, e3, by omega, by omega⟩

/-- Witness for C28: scanline 0 of the high quality view on the canvas of 40 pixels, where
column 10 is the first and is computed exactly. -/
theorem pixelValueApprox_starts_in_scanline_witness :
    ∃ events i p,
      scanColumns (strided poleMapper poleView) poleView 0
          (scanline (strided poleMapper poleView) poleView 0)
          ((scanline (strided poleMapper poleView) poleView 0).xRight
            - (scanline (strided poleMapper poleView) poleView 0).xLeft).toNat
          (scanline (strided poleMapper poleView) poleView 0).xLeft 0
          (scanline (strided poleMapper poleView) poleView 0).xLeft false none
        = some (events, i, p) ∧
      ∀ prev1 lonLat y1 c smooth,
        MapperEvent.pixelValueApprox prev1 lonLat y1 c smooth ∈ events →
        prev1 = some (pixelLonLat poleMapper poleView (c - 1) 0) :=
  match pixelValueApprox_starts_in_scanline poleMapper poleView 0
      (resizeMap_nBest_pos _ 40 1 400) rfl (by decide) false none with
  | ⟨events, i, p, h1, _, h3⟩ =>
    ⟨events, i, p, h1, fun prev1 lonLat y1 c smooth he => (h3 prev1 lonLat y1 c smooth he).1⟩

end SphericalScanlineTextureMapper

namespace SphericalScanlineTextureMapper
variable {G : Type}

/-! ### Interlaced scanlines -/

end SphericalScanlineTextureMapper

namespace SphericalScanlineTextureMapper
variable {G : Type}

end SphericalScanlineTextureMapper

namespace SphericalScanlineTextureMapper
variable {G : Type}

end SphericalScanlineTextureMapper

namespace SphericalScanlineTextureMapper

/-! ### The smooth branch of the interpolation -/

/-- One pass of the loop of the smooth branch, when `itLon`, `itLat` are the previous
anchor relative to the current tile: where the tile is sampled, and what becomes of the
tile state. -/
theorem smoothPass_sample {T K C : Type} [LinearOrderedField K] [DecidableEq C]
    (A : TileAccess T K C) (prevX prevY itStepLon itStepLat : K) (j : Int)
    (s : SmoothState T K C)
    (h1 : s.itLon = prevX + A.toTileCoordinatesLon s.tile)
    (h2 : s.itLat = prevY + A.toTileCoordinatesLat s.tile) :
    (smoothPass A prevX prevY itStepLon itStepLat j s).1.itLon
        = prevX + A.toTileCoordinatesLon (smoothPass A prevX prevY itStepLon itStepLat j s).1.tile ∧
      (smoothPass A prevX prevY itStepLon itStepLat j s).1.itLat
        = prevY + A.toTileCoordinatesLat (smoothPass A prevX prevY itStepLon itStepLat j s).1.tile ∧
      (smoothPass A prevX prevY itStepLon itStepLat j s).1.tile
        = (smoothPass A prevX prevY itStepLon itStepLat j s).2.tile ∧
      (smoothPass A prevX prevY itStepLon itStepLat j s).1.scanLine = s.scanLine + 1 ∧
      (smoothPass A prevX prevY itStepLon itStepLat j s).2.j = j ∧
      (smoothPass A prevX prevY itStepLon itStepLat j s).2.scanLine = s.scanLine ∧
      (smoothPass A prevX prevY itStepLon itStepLat j s).2.tileBefore = s.tile ∧
      (smoothPass A prevX prevY itStepLon itStepLat j s).2.rebased
        = outsideTile A (prevX + A.toTileCoordinatesLon s.tile + itStepLon * (j : K))
          (prevY + A.toTileCoordinatesLat s.tile + itStepLat * (j : K)) ∧
      (smoothPass A prevX prevY itStepLon itStepLat j s).2.tile
        = (if (smoothPass A prevX prevY itStepLon itStepLat j s).2.rebased
          then A.nextTile s.tile (prevX + A.toTileCoordinatesLon s.tile + itStepLon * (j : K))
            (prevY + A.toTileCoordinatesLat s.tile + itStepLat * (j : K))
          else s.tile) ∧
      (smoothPass A prevX prevY itStepLon itStepLat j s).2.posX
        = prevX + A.toTileCoordinatesLon (smoothPass A prevX prevY itStepLon itStepLat j s).2.tile
          + itStepLon * (j : K) ∧
      (smoothPass A prevX prevY itStepLon itStepLat j s).2.posY
        = prevY + A.toTileCoordinatesLat (smoothPass A prevX prevY itStepLon itStepLat j s).2.tile
          + itStepLat * (j : K) := by
  simp only [smoothPass, h1, h2]
  cases outsideTile A (prevX + A.toTileCoordinatesLon s.tile + itStepLon * (j : K))
      (prevY + A.toTileCoordinatesLat s.tile + itStepLat * (j : K)) <;>
    simp

end SphericalScanlineTextureMapper

namespace SphericalScanlineTextureMapper

theorem smoothLoop_succ {T K C : Type} [LinearOrderedField K] [DecidableEq C]
    (A : TileAccess T K C) (prevX prevY itStepLon itStepLat : K) (passes : Nat) (j : Int)
    (s : SmoothState T K C) :
    smoothLoop A prevX prevY itStepLon itStepLat (passes + 1) j s
      = ((smoothLoop A prevX prevY itStepLon itStepLat passes (j + 1)
            (smoothPass A prevX prevY itStepLon itStepLat j s).1).1,
          (smoothPass A prevX prevY itStepLon itStepLat j s).2 ::
            (smoothLoop A prevX prevY itStepLon itStepLat passes (j + 1)
              (smoothPass A prevX prevY itStepLon itStepLat j s).1).2) := rfl

/-- The passes of the loop of the smooth branch: their number, the chain of tile states,
and for each pass the column written and the position sampled. -/
theorem smoothLoop_samples {T K C : Type} [LinearOrderedField K] [DecidableEq C]
    (A : TileAccess T K C) (prevX prevY itStepLon itStepLat : K) (passes : Nat) :
    ∀ (j : Int) (s : SmoothState T K C),
      s.itLon = prevX + A.toTileCoordinatesLon s.tile →
      s.itLat = prevY + A.toTileCoordinatesLat s.tile →
      (smoothLoop A prevX prevY itStepLon itStepLat passes j s).2.length = passes ∧
      (∀ a, (smoothLoop A prevX prevY itStepLon itStepLat passes j s).2[0]? = some a →
        a.tileBefore = s.tile) ∧
      (∀ (i : Nat) (a b : SmoothSample T K C),
        (smoothLoop A prevX prevY itStepLon itStepLat passes j s).2[i]? = some a →
        (smoothLoop A prevX prevY itStepLon itStepLat passes j s).2[i + 1]? = some b →
        b.tileBefore = a.tile) ∧
      (∀ (i : Nat) (a : SmoothSample T K C),
        (smoothLoop A prevX prevY itStepLon itStepLat passes j s).2[i]? = some a →
        a.j = j + (i : Int) ∧ a.scanLine = s.scanLine + (i : Int) ∧
        a.rebased = outsideTile A
          (prevX + A.toTileCoordinatesLon a.tileBefore + itStepLon * ((j + (i : Int) : Int) : K))
          (prevY + A.toTileCoordinatesLat a.tileBefore
            + itStepLat * ((j + (i : Int) : Int) : K)) ∧
        a.tile = (if a.rebased
          then A.nextTile a.tileBefore
            (prevX + A.toTileCoordinatesLon a.tileBefore
              + itStepLon * ((j + (i : Int) : Int) : K))
            (prevY + A.toTileCoordinatesLat a.tileBefore
              + itStepLat * ((j + (i : Int) : Int) : K))
          else a.tileBefore) ∧
        a.posX = prevX + A.toTileCoordinatesLon a.tile
          + itStepLon * ((j + (i : Int) : Int) : K) ∧
        a.posY = prevY + A.toTileCoordinatesLat a.tile
          + itStepLat * ((j + (i : Int) : Int) : K)) := by
  induction passes with
  | zero =>
    intro j s _ _
    refine ⟨rfl, ?_, ?_, ?_⟩
    · intro a ha
      simp [smoothLoop] at ha
    · intro i a b ha
      simp [smoothLoop] at ha
    · intro i a ha
      simp [smoothLoop] at ha
  | succ k ih =>
    intro j s h1 h2
    obtain ⟨p1, p2, p3, p4, p5, p6, p7, p8, p9, p10, p11⟩ :=
      smoothPass_sample A prevX prevY itStepLon itStepLat j s h1 h2
    obtain ⟨q1, q2, q3, q4⟩ := ih (j + 1) _ p1 p2
    rw [smoothLoop_succ]
    refine ⟨?_, ?_, ?_, ?_⟩
    · simp only [List.length_cons, q1]
    · intro a ha
      simp only [List.getElem?_cons_zero, Option.some.injEq] at ha
      rw [← ha]
      exact p7
    · intro i a b ha hb
      simp only [List.getElem?_cons_succ] at hb
      cases i with
      | zero =>
        simp only [List.getElem?_cons_zero, Option.some.injEq] at ha
        rw [← ha, ← p3]
        exact q2 b hb
      | succ i =>
        simp only [List.getElem?_cons_succ] at ha
        exact q3 i a b ha hb
    · intro i a ha
      cases i with
      | zero =>
        simp only [List.getElem?_cons_zero, Option.some.injEq] at ha
        rw [← ha]
        simp only [Nat.cast_zero, add_zero]
        rw [p7]
        exact ⟨p5, p6, p8, p9, p10, p11⟩
      | succ i =>
        simp only [List.getElem?_cons_succ] at ha
        have := q4 i a ha
        have e : j + 1 + (i : Int) = j + ((i + 1 : Nat) : Int) := by push_cast; ring
        rw [e, p4] at this
        obtain ⟨r1, r2, r3, r4, r5, r6⟩ := this
        refine ⟨r1, ?_, r3, r4, r5, r6⟩
        rw [r2]
        push_cast
        ring

end SphericalScanlineTextureMapper

namespace SphericalScanlineTextureMapper

theorem setPixel_self {C : Type} (canvas : Int → C) (i : Int) (colour : C) :
    setPixel canvas i colour i = colour := by
  simp [setPixel]

theorem setPixel_ne {C : Type} (canvas : Int → C) (i x : Int) (colour : C) (h : x ≠ i) :
    setPixel canvas i colour x = canvas x := by
  simp [setPixel, h]

/-- One pass of the loop of the smooth branch: what is compared, what is blended, and what
the pass leaves in the two pixels it can write. -/
theorem smoothPass_colours {T K C : Type} [LinearOrderedField K] [DecidableEq C]
    (A : TileAccess T K C) (prevX prevY itStepLon itStepLat : K) (j : Int)
    (s : SmoothState T K C) :
    (smoothPass A prevX prevY itStepLon itStepLat j s).2.oldRgb = s.oldRgb ∧
      (smoothPass A prevX prevY itStepLon itStepLat j s).2.raw
        = A.pixel (smoothPass A prevX prevY itStepLon itStepLat j s).2.tile
          (smoothPass A prevX prevY itStepLon itStepLat j s).2.posX
          (smoothPass A prevX prevY itStepLon itStepLat j s).2.posY ∧
      ((smoothPass A prevX prevY itStepLon itStepLat j s).2.blended = true ↔
        (smoothPass A prevX prevY itStepLon itStepLat j s).2.raw ≠ s.oldRgb) ∧
      ((smoothPass A prevX prevY itStepLon itStepLat j s).2.blendedPrevious = true ↔
        (smoothPass A prevX prevY itStepLon itStepLat j s).2.blended = true ∧
        (smoothPass A prevX prevY itStepLon itStepLat j s).2.rebased = false ∧
        s.oldPosX ≠ -1) ∧
      (smoothPass A prevX prevY itStepLon itStepLat j s).1.oldRgb
        = (if (smoothPass A prevX prevY itStepLon itStepLat j s).2.blended
          then A.pixelF (smoothPass A prevX prevY itStepLon itStepLat j s).2.tile
            (smoothPass A prevX prevY itStepLon itStepLat j s).2.posX
            (smoothPass A prevX prevY itStepLon itStepLat j s).2.posY
            (smoothPass A prevX prevY itStepLon itStepLat j s).2.raw
          else s.oldRgb) ∧
      (smoothPass A prevX prevY itStepLon itStepLat j s).1.oldPosX
        = (if (smoothPass A prevX prevY itStepLon itStepLat j s).2.blended then -1
          else (smoothPass A prevX prevY itStepLon itStepLat j s).2.posX) ∧
      (smoothPass A prevX prevY itStepLon itStepLat j s).1.oldPosY
        = (if (smoothPass A prevX prevY itStepLon itStepLat j s).2.blended then s.oldPosY
          else (smoothPass A prevX prevY itStepLon itStepLat j s).2.posY) ∧
      (smoothPass A prevX prevY itStepLon itStepLat j s).1.canvas s.scanLine
        = (if (smoothPass A prevX prevY itStepLon itStepLat j s).2.blended
          then A.pixelF (smoothPass A prevX prevY itStepLon itStepLat j s).2.tile
            (smoothPass A prevX prevY itStepLon itStepLat j s).2.posX
            (smoothPass A prevX prevY itStepLon itStepLat j s).2.posY
            (smoothPass A prevX prevY itStepLon itStepLat j s).2.raw
          else (smoothPass A prevX prevY itStepLon itStepLat j s).2.raw) ∧
      (smoothPass A prevX prevY itStepLon itStepLat j s).1.canvas (s.scanLine - 1)
        = (if (smoothPass A prevX prevY itStepLon itStepLat j s).2.blendedPrevious
          then A.pixelF (smoothPass A prevX prevY itStepLon itStepLat j s).2.tile
            s.oldPosX s.oldPosY (s.canvas (s.scanLine - 1))
          else s.canvas (s.scanLine - 1)) ∧
      (∀ x, x ≠ s.scanLine → x ≠ s.scanLine - 1 →
        (smoothPass A prevX prevY itStepLon itStepLat j s).1.canvas x = s.canvas x) := by
  have hne : s.scanLine - 1 ≠ s.scanLine := by omega
  have hne2 : s.scanLine ≠ s.scanLine - 1 := by omega
  refine ⟨rfl, rfl, ?_, ?_, ?_, ?_, ?_, ?_, ?_, ?_⟩
  · simp [smoothPass, setPixel_self]
  · simp only [smoothPass, setPixel_self]
    cases outsideTile A (s.itLon + itStepLon * (j : K)) (s.itLat + itStepLat * (j : K)) <;>
      simp
  · simp only [smoothPass, setPixel_self, ite_apply, setPixel_ne _ _ _ _ hne2, ite_self]
  · simp only [smoothPass]
  · simp only [smoothPass]
  · simp only [smoothPass, setPixel_self, ite_apply, setPixel_ne _ _ _ _ hne2, ite_self]
    split_ifs <;> rfl
  · simp only [smoothPass, setPixel_self, ite_apply, setPixel_ne _ _ _ _ hne,
      setPixel_ne _ _ _ _ hne2, ite_self]
    cases outsideTile A (s.itLon + itStepLon * (j : K)) (s.itLat + itStepLat * (j : K)) <;>
      simp
  · intro x hx1 hx2
    simp only [smoothPass, ite_apply, setPixel_ne _ _ _ _ hx1, setPixel_ne _ _ _ _ hx2,
      ite_self]

end SphericalScanlineTextureMapper

namespace SphericalScanlineTextureMapper

/-- The loop of the smooth branch: the colour against which each pass compares, which
passes blend, and the colours in the row at the end. -/
theorem smoothLoop_colours {T K C : Type} [LinearOrderedField K] [DecidableEq C]
    (A : TileAccess T K C) (prevX prevY itStepLon itStepLat : K) (passes : Nat) :
    ∀ (j : Int) (s : SmoothState T K C),
      (∀ a, (smoothLoop A prevX prevY itStepLon itStepLat passes j s).2[0]? = some a →
        a.oldRgb = s.oldRgb ∧
        (a.blendedPrevious = true ↔
          a.blended = true ∧ a.rebased = false ∧ s.oldPosX ≠ -1) ∧
        (smoothLoop A prevX prevY itStepLon itStepLat passes j s).1.canvas (s.scanLine - 1)
          = (if a.blendedPrevious
            then A.pixelF a.tile s.oldPosX s.oldPosY (s.canvas (s.scanLine - 1))
            else s.canvas (s.scanLine - 1))) ∧
      ((smoothLoop A prevX prevY itStepLon itStepLat passes j s).2[0]? = none →
        (smoothLoop A prevX prevY itStepLon itStepLat passes j s).1.canvas (s.scanLine - 1)
          = s.canvas (s.scanLine - 1)) ∧
      (∀ x, x < s.scanLine - 1 ∨ s.scanLine + (passes : Int) ≤ x →
        (smoothLoop A prevX prevY itStepLon itStepLat passes j s).1.canvas x = s.canvas x) ∧
      (∀ (i : Nat) (a : SmoothSample T K C),
        (smoothLoop A prevX prevY itStepLon itStepLat passes j s).2[i]? = some a →
        (a.blended = true ↔ a.raw ≠ a.oldRgb) ∧ a.raw = A.pixel a.tile a.posX a.posY ∧
        a.scanLine = s.scanLine + (i : Int) ∧
        (a.blended = true →
          (smoothLoop A prevX prevY itStepLon itStepLat passes j s).1.canvas
              (s.scanLine + (i : Int)) = A.pixelF a.tile a.posX a.posY a.raw) ∧
        (a.blended = false →
          (smoothLoop A prevX prevY itStepLon itStepLat passes j s).2[i + 1]? = none →
          (smoothLoop A prevX prevY itStepLon itStepLat passes j s).1.canvas
              (s.scanLine + (i : Int)) = a.raw) ∧
        ∀ b, (smoothLoop A prevX prevY itStepLon itStepLat passes j s).2[i + 1]? = some b →
          b.oldRgb = (if a.blended then A.pixelF a.tile a.posX a.posY a.raw else a.oldRgb) ∧
          (b.blendedPrevious = true ↔
            b.blended = true ∧ b.rebased = false ∧ a.blended = false ∧ a.posX ≠ -1) ∧
          (a.blended = false →
            (smoothLoop A prevX prevY itStepLon itStepLat passes j s).1.canvas
                (s.scanLine + (i : Int))
              = (if b.blendedPrevious then A.pixelF b.tile a.posX a.posY a.raw
                else a.raw))) := by
  induction passes with
  | zero =>
    intro j s
    refine ⟨?_, fun _ => rfl, fun x _ => rfl, ?_⟩
    · intro a ha
      simp [smoothLoop] at ha
    · intro i a ha
      simp [smoothLoop] at ha
  | succ k ih =>
    intro j s
    obtain ⟨c1, c2, c3, c4, c5, c6, c7, c8, c9, c10⟩ :=
      smoothPass_colours A prevX prevY itStepLon itStepLat j s
    have hsl : (smoothPass A prevX prevY itStepLon itStepLat j s).1.scanLine
        = s.scanLine + 1 := rfl
    obtain ⟨ihH, ihN, ihF, ihP⟩ := ih (j + 1) (smoothPass A prevX prevY itStepLon itStepLat j s).1
    rw [hsl] at ihH ihN ihF ihP
    have e1 : s.scanLine + 1 - 1 = s.scanLine := by ring
    rw [e1] at ihH ihN ihF
    rw [smoothLoop_succ]
    have hprev : (smoothLoop A prevX prevY itStepLon itStepLat k (j + 1)
          (smoothPass A prevX prevY itStepLon itStepLat j s).1).1.canvas (s.scanLine - 1)
        = (smoothPass A prevX prevY itStepLon itStepLat j s).1.canvas (s.scanLine - 1) :=
      ihF (s.scanLine - 1) (Or.inl (by omega))
    refine ⟨?_, ?_, ?_, ?_⟩
    · intro a ha
      simp only [List.getElem?_cons_zero, Option.some.injEq] at ha
      rw [← ha]
      refine ⟨c1, c4, ?_⟩
      rw [hprev, c9]
    · intro h
      simp at h
    · intro x hx
      rw [ihF x (by push_cast at hx; omega)]
      exact c10 x (by push_cast at hx; omega) (by push_cast at hx; omega)
    · intro i a ha
      cases i with
      | zero =>
        simp only [List.getElem?_cons_zero, Option.some.injEq] at ha
        rw [← ha]
        simp only [Nat.cast_zero, add_zero, zero_add, List.getElem?_cons_succ]
        refine ⟨by rw [c1]; exact c3, c2, rfl, ?_, ?_, ?_⟩
        · intro hb
          cases hnext : (smoothLoop A prevX prevY itStepLon itStepLat k (j + 1)
              (smoothPass A prevX prevY itStepLon itStepLat j s).1).2[0]? with
          | none =>
            rw [ihN hnext, c8, if_pos hb]
          | some b =>
            obtain ⟨_, h2, h3⟩ := ihH b hnext
            have hnot : b.blendedPrevious = false := by
              cases hbp : b.blendedPrevious with
              | false => rfl
              | true =>
                have := (h2.mp hbp).2.2
                rw [c6, if_pos hb] at this
                exact absurd rfl this
            rw [h3, hnot, c8, if_pos hb]
            simp
        · intro hb hnext
          rw [ihN hnext, c8, if_neg (by rw [hb]; exact Bool.false_ne_true)]
        · intro b hnext
          obtain ⟨h1, h2, h3⟩ := ihH b hnext
          refine ⟨by rw [h1, c5, c1], ?_, ?_⟩
          · rw [h2, c6]
            cases hb : (smoothPass A prevX prevY itStepLon itStepLat j s).2.blended
            · simp
            · simp
          · intro hb
            have hbf : ¬ (smoothPass A prevX prevY itStepLon itStepLat j s).2.blended = true := by
              rw [hb]
              exact Bool.false_ne_true
            rw [h3, c6, c7, c8, if_neg hbf, if_neg hbf, if_neg hbf]
      | succ i =>
        simp only [List.getElem?_cons_succ] at ha ⊢
        have e2 : s.scanLine + ((i + 1 : Nat) : Int) = s.scanLine + 1 + (i : Int) := by
          push_cast
          ring
        rw [e2]
        exact ihP i a ha

end SphericalScanlineTextureMapper

namespace SphericalScanlineTextureMapper

/-- The run of the smooth branch on `exampleTiles` with stride 4 from pixel position 0 to
pixel position 4, written from column 20 on. -/
theorem exampleTiles_run :
    (pixelValueApproxSmooth exampleTiles 4 0 0 4 0 () 20 (fun _ => 1)).2
      = [{ j := 1, tileBefore := (), tile := (), rebased := false, posX := 1, posY := 0,
           scanLine := 20, raw := 7, oldRgb := 0, blended := true, blendedPrevious := false },
         { j := 2, tileBefore := (), tile := (), rebased := false, posX := 2, posY := 0,
           scanLine := 21, raw := 7, oldRgb := 7, blended := false, blendedPrevious := false },
         { j := 3, tileBefore := (), tile := (), rebased := false, posX := 3, posY := 0,
           scanLine := 22, raw := 9, oldRgb := 7, blended := true, blendedPrevious := true }] ∧
      (pixelValueApproxSmooth exampleTiles 4 0 0 4 0 () 20 (fun _ => 1)).1.canvas 20 = 7 ∧
      (pixelValueApproxSmooth exampleTiles 4 0 0 4 0 () 20 (fun _ => 1)).1.canvas 21 = 107 ∧
      (pixelValueApproxSmooth exampleTiles 4 0 0 4 0 () 20 (fun _ => 1)).1.canvas 22 = 109 := by
  have h3 : ((4 : Int) - 1).toNat = 3 := by decide
  simp only [pixelValueApproxSmooth, h3, smoothLoop]
  norm_num [smoothPass, exampleTiles, outsideTile, setPixel]

end SphericalScanlineTextureMapper

namespace SphericalScanlineTextureMapper

/-- The passes of the smooth branch of `pixelValueApprox` with stride `n`: their number,
the chain of tiles, the column and the position of each pass, and the columns that keep
what they held. -/
theorem pixelValueApproxSmooth_passes {T K C : Type} [LinearOrderedField K] [DecidableEq C]
    (A : TileAccess T K C) (n : Nat) (prevLon prevLat lon lat : K) (tile : T) (scanLine : Int)
    (canvas : Int → C) :
    (pixelValueApproxSmooth A (n : Int) prevLon prevLat lon lat tile scanLine canvas).2.length
        = n - 1 ∧
      (∀ a, (pixelValueApproxSmooth A (n : Int) prevLon prevLat lon lat tile scanLine
          canvas).2[0]? = some a → a.tileBefore = tile) ∧
      (∀ (i : Nat) (a b : SmoothSample T K C),
        (pixelValueApproxSmooth A (n : Int) prevLon prevLat lon lat tile scanLine
          canvas).2[i]? = some a →
        (pixelValueApproxSmooth A (n : Int) prevLon prevLat lon lat tile scanLine
          canvas).2[i + 1]? = some b → b.tileBefore = a.tile) ∧
      (∀ (i : Nat) (a : SmoothSample T K C),
        (pixelValueApproxSmooth A (n : Int) prevLon prevLat lon lat tile scanLine
          canvas).2[i]? = some a →
        a.j = (i : Int) + 1 ∧ a.scanLine = scanLine + (i : Int) ∧
        a.rebased = outsideTile A
          (A.rad2PixelX prevLon
            + ((i : K) + 1) * (A.rad2PixelX lon - A.rad2PixelX prevLon) / (n : K)
            + A.toTileCoordinatesLon a.tileBefore)
          (A.rad2PixelY prevLat
            + ((i : K) + 1) * (A.rad2PixelY lat - A.rad2PixelY prevLat) / (n : K)
            + A.toTileCoordinatesLat a.tileBefore) ∧
        a.tile = (if a.rebased
          then A.nextTile a.tileBefore
            (A.rad2PixelX prevLon
              + ((i : K) + 1) * (A.rad2PixelX lon - A.rad2PixelX prevLon) / (n : K)
              + A.toTileCoordinatesLon a.tileBefore)
            (A.rad2PixelY prevLat
              + ((i : K) + 1) * (A.rad2PixelY lat - A.rad2PixelY prevLat) / (n : K)
              + A.toTileCoordinatesLat a.tileBefore)
          else a.tileBefore) ∧
        a.posX = A.rad2PixelX prevLon
          + ((i : K) + 1) * (A.rad2PixelX lon - A.rad2PixelX prevLon) / (n : K)
          + A.toTileCoordinatesLon a.tile ∧
        a.posY = A.rad2PixelY prevLat
          + ((i : K) + 1) * (A.rad2PixelY lat - A.rad2PixelY prevLat) / (n : K)
          + A.toTileCoordinatesLat a.tile ∧
        a.raw = A.pixel a.tile a.posX a.posY) ∧
      (∀ x, x < scanLine ∨ scanLine + ((n - 1 : Nat) : Int) ≤ x →
        (pixelValueApproxSmooth A (n : Int) prevLon prevLat lon lat tile scanLine
          canvas).1.canvas x = canvas x) := by
  have hpass : ((n : Int) - 1).toNat = n - 1 := by omega
  have hx : ∀ (i : Nat) (t : K),
      A.rad2PixelX prevLon + t
          + (A.rad2PixelX lon - A.rad2PixelX prevLon) * (1 / (n : K))
            * (((1 : Int) + (i : Int) : Int) : K)
        = A.rad2PixelX prevLon
          + ((i : K) + 1) * (A.rad2PixelX lon - A.rad2PixelX prevLon) / (n : K) + t := by
    intro i t
    push_cast
    ring
  have hy : ∀ (i : Nat) (t : K),
      A.rad2PixelY prevLat + t
          + (A.rad2PixelY lat - A.rad2PixelY prevLat) * (1 / (n : K))
            * (((1 : Int) + (i : Int) : Int) : K)
        = A.rad2PixelY prevLat
          + ((i : K) + 1) * (A.rad2PixelY lat - A.rad2PixelY prevLat) / (n : K) + t := by
    intro i t
    push_cast
    ring
  unfold pixelValueApproxSmooth
  simp only [hpass, Int.cast_natCast]
  obtain ⟨s1, s2, s3, s4⟩ := smoothLoop_samples A (A.rad2PixelX prevLon) (A.rad2PixelY prevLat)
    ((A.rad2PixelX lon - A.rad2PixelX prevLon) * (1 / (n : K)))
    ((A.rad2PixelY lat - A.rad2PixelY prevLat) * (1 / (n : K))) (n - 1) 1
    { tile := tile
      itLon := A.rad2PixelX prevLon + A.toTileCoordinatesLon tile
      itLat := A.rad2PixelY prevLat + A.toTileCoordinatesLat tile
      oldRgb := A.black
      oldPosX := -1
      oldPosY := 0
      scanLine := scanLine
      canvas := canvas } rfl rfl
  obtain ⟨k1, k2, k3, k4⟩ := smoothLoop_colours A (A.rad2PixelX prevLon) (A.rad2PixelY prevLat)
    ((A.rad2PixelX lon - A.rad2PixelX prevLon) * (1 / (n : K)))
    ((A.rad2PixelY lat - A.rad2PixelY prevLat) * (1 / (n : K))) (n - 1) 1
    { tile := tile
      itLon := A.rad2PixelX prevLon + A.toTileCoordinatesLon tile
      itLat := A.rad2PixelY prevLat + A.toTileCoordinatesLat tile
      oldRgb := A.black
      oldPosX := -1
      oldPosY := 0
      scanLine := scanLine
      canvas := canvas }
  refine ⟨s1, s2, s3, ?_, ?_⟩
  · intro i a ha
    obtain ⟨r1, r2, r3, r4, r5, r6⟩ := s4 i a ha
    rw [hx, hy] at r3 r4
    rw [hx] at r5
    rw [hy] at r6
    exact ⟨by rw [r1]; ring, r2, r3, r4, r5, r6, (k4 i a ha).2.1⟩
  · intro x hxr
    by_cases hprev : x = scanLine - 1
    · rw [hprev]
      cases hfirst : (smoothLoop A (A.rad2PixelX prevLon) (A.rad2PixelY prevLat)
          ((A.rad2PixelX lon - A.rad2PixelX prevLon) * (1 / (n : K)))
          ((A.rad2PixelY lat - A.rad2PixelY prevLat) * (1 / (n : K))) (n - 1) 1
          { tile := tile
            itLon := A.rad2PixelX prevLon + A.toTileCoordinatesLon tile
            itLat := A.rad2PixelY prevLat + A.toTileCoordinatesLat tile
            oldRgb := A.black
            oldPosX := -1
            oldPosY := 0
            scanLine := scanLine
            canvas := canvas }).2[0]? with
      | none => exact k2 hfirst
      | some a =>
        obtain ⟨_, h2, h3⟩ := k1 a hfirst
        have hnot : a.blendedPrevious = false := by
          cases hbp : a.blendedPrevious with
          | false => rfl
          | true => exact absurd rfl (h2.mp hbp).2.2
        rw [h3, hnot]
        simp
    · exact k3 x (by
        rcases hxr with h | h
        · left
          show x < scanLine - 1
          omega
        · right
          exact h)

/-- One pass of the loop of the smooth branch reads the row only in pixels it has written
itself or that an earlier pass wrote: what the pass records and every variable but the row
are the same whatever the row holds. -/
theorem smoothPass_canvas_free {T K C : Type} [LinearOrderedField K] [DecidableEq C]
    (A : TileAccess T K C) (prevX prevY itStepLon itStepLat : K) (j : Int)
    (s : SmoothState T K C) (canvas : Int → C) :
    smoothPass A prevX prevY itStepLon itStepLat j { s with canvas := canvas }
      = ({ (smoothPass A prevX prevY itStepLon itStepLat j s).1 with
            canvas := (smoothPass A prevX prevY itStepLon itStepLat j
              { s with canvas := canvas }).1.canvas },
          (smoothPass A prevX prevY itStepLon itStepLat j s).2) := by
  have hne2 : s.scanLine ≠ s.scanLine - 1 := by omega
  simp only [smoothPass, setPixel_self, ite_apply, setPixel_ne _ _ _ _ hne2, ite_self]

/-- The passes of the loop of the smooth branch are the same whatever the row holds. -/
theorem smoothLoop_canvas_free {T K C : Type} [LinearOrderedField K] [DecidableEq C]
    (A : TileAccess T K C) (prevX prevY itStepLon itStepLat : K) (passes : Nat) :
    ∀ (j : Int) (s : SmoothState T K C) (canvas : Int → C),
      (smoothLoop A prevX prevY itStepLon itStepLat passes j { s with canvas := canvas }).2
        = (smoothLoop A prevX prevY itStepLon itStepLat passes j s).2 := by
  induction passes with
  | zero =>
    intro j s canvas
    rfl
  | succ k ih =>
    intro j s canvas
    rw [smoothLoop_succ, smoothLoop_succ, smoothPass_canvas_free]
    show _ :: _ = _ :: _
    rw [ih]

/-- The colour that the smooth branch leaves in the pixel of pass `i + 1`: the colour
sampled in that pass, blended with `pixelF` at the position sampled when that pass blends
or when the pass after it blends the pixel before its own. -/
theorem pixelValueApproxSmooth_pixel {T K C : Type} [LinearOrderedField K] [DecidableEq C]
    (A : TileAccess T K C) (n : Int) (prevLon prevLat lon lat : K) (tile : T) (scanLine : Int)
    (canvas : Int → C) (i : Nat) (a : SmoothSample T K C)
    (ha : (pixelValueApproxSmooth A n prevLon prevLat lon lat tile scanLine canvas).2[i]?
      = some a) :
    (pixelValueApproxSmooth A n prevLon prevLat lon lat tile scanLine canvas).1.canvas
        (scanLine + (i : Int))
      = (if (a.blended || (Option.map (fun b => b.blendedPrevious)
            (pixelValueApproxSmooth A n prevLon prevLat lon lat tile scanLine
              canvas).2[i + 1]?).getD false) = true
        then A.pixelF a.tile a.posX a.posY a.raw else a.raw) := by
  unfold pixelValueApproxSmooth at ha ⊢
  obtain ⟨_, _, s3, s4⟩ := smoothLoop_samples A (A.rad2PixelX prevLon) (A.rad2PixelY prevLat)
    ((A.rad2PixelX lon - A.rad2PixelX prevLon) * (1 / (n : K)))
    ((A.rad2PixelY lat - A.rad2PixelY prevLat) * (1 / (n : K))) (n - 1).toNat 1
    { tile := tile
      itLon := A.rad2PixelX prevLon + A.toTileCoordinatesLon tile
      itLat := A.rad2PixelY prevLat + A.toTileCoordinatesLat tile
      oldRgb := A.black
      oldPosX := -1
      oldPosY := 0
      scanLine := scanLine
      canvas := canvas } rfl rfl
  obtain ⟨_, _, _, k4⟩ := smoothLoop_colours A (A.rad2PixelX prevLon) (A.rad2PixelY prevLat)
    ((A.rad2PixelX lon - A.rad2PixelX prevLon) * (1 / (n : K)))
    ((A.rad2PixelY lat - A.rad2PixelY prevLat) * (1 / (n : K))) (n - 1).toNat 1
    { tile := tile
      itLon := A.rad2PixelX prevLon + A.toTileCoordinatesLon tile
      itLat := A.rad2PixelY prevLat + A.toTileCoordinatesLat tile
      oldRgb := A.black
      oldPosX := -1
      oldPosY := 0
      scanLine := scanLine
      canvas := canvas }
  obtain ⟨_, _, _, h4, h5, h6⟩ := k4 i a ha
  cases hb : a.blended with
  | true =>
    rw [h4 hb]
    simp
  | false =>
    cases hnext : (smoothLoop A (A.rad2PixelX prevLon) (A.rad2PixelY prevLat)
        ((A.rad2PixelX lon - A.rad2PixelX prevLon) * (1 / (n : K)))
        ((A.rad2PixelY lat - A.rad2PixelY prevLat) * (1 / (n : K))) (n - 1).toNat 1
        { tile := tile
          itLon := A.rad2PixelX prevLon + A.toTileCoordinatesLon tile
          itLat := A.rad2PixelY prevLat + A.toTileCoordinatesLat tile
          oldRgb := A.black
          oldPosX := -1
          oldPosY := 0
          scanLine := scanLine
          canvas := canvas }).2[i + 1]? with
    | none =>
      rw [h5 hb hnext]
      simp
    | some b =>
      obtain ⟨_, g2, g3⟩ := h6 b hnext
      rw [g3 hb]
      cases hbp : b.blendedPrevious with
      | false => simp [hbp]
      | true =>
        have hreb : b.rebased = false := (g2.mp hbp).2.1
        have htile : b.tile = a.tile := by
          rw [(s4 (i + 1) b hnext).2.2.2.1, hreb]
          exact s3 i a b ha hnext
        rw [htile]
        simp [hbp]

/-- The run of the smooth branch on `seamTiles` with stride 4 from longitude 0 to longitude
1, which is from pixel position 0 to pixel position 4, written from column 20 on: the
second pass leaves tile 0 and is rebased on tile 1. -/
theorem seamTiles_run :
    (pixelValueApproxSmooth seamTiles 4 0 0 1 0 0 20 (fun _ => 1)).2
      = [{ j := 1, tileBefore := 0, tile := 0, rebased := false, posX := 1, posY := 0,
           scanLine := 20, raw := 1, oldRgb := 0, blended := true, blendedPrevious := false },
         { j := 2, tileBefore := 0, tile := 1, rebased := true, posX := 0, posY := 0,
           scanLine := 21, raw := 10, oldRgb := 101, blended := true,
           blendedPrevious := false },
         { j := 3, tileBefore := 1, tile := 1, rebased := false, posX := 1, posY := 0,
           scanLine := 22, raw := 11, oldRgb := 110, blended := true,
           blendedPrevious := false }] ∧
      (pixelValueApproxSmooth seamTiles 4 0 0 1 0 0 20 (fun _ => 1)).1.canvas 20 = 101 ∧
      (pixelValueApproxSmooth seamTiles 4 0 0 1 0 0 20 (fun _ => 1)).1.canvas 21 = 110 ∧
      (pixelValueApproxSmooth seamTiles 4 0 0 1 0 0 20 (fun _ => 1)).1.canvas 22 = 111 := by
  have h3 : ((4 : Int) - 1).toNat = 3 := by decide
  simp only [pixelValueApproxSmooth, h3, smoothLoop]
  norm_num [smoothPass, seamTiles, outsideTile, setPixel]

/-- C23. In the smooth branch of `pixelValueApprox` with stride `n` and the anchors
`P0 = (rad2PixelX(prevLon), rad2PixelY(prevLat))`, `P1 = (rad2PixelX(lon),
rad2PixelY(lat))`: there are `n - 1` passes, pass `j` writes the column `scanLine + j - 1`
and no other column of the row changes; the tile is sampled at `P0 + j * (P1 - P0) / n`
plus the offset of the tile that is current in that pass; `nextTile` is called exactly when
that position, taken relative to the tile of the pass before, lies outside the tile
bounds, and the position used afterwards is the same global position relative to the new
tile, without clamping.  Each of the `n - 1` columns is written: at the end it holds the
colour sampled in its pass, raw or blended with `pixelF` at the position sampled, and what
it holds, like the passes themselves, does not depend on what the row held before. -/
theorem pixelValueApproxSmooth_samples {T K C : Type} [LinearOrderedField K] [DecidableEq C]
    (A : TileAccess T K C) (n : Nat) (prevLon prevLat lon lat : K) (tile : T) (scanLine : Int)
    (canvas : Int → C) :
    (pixelValueApproxSmooth A (n : Int) prevLon prevLat lon lat tile scanLine canvas).2.length
        = n - 1 ∧
      (∀ a, (pixelValueApproxSmooth A (n : Int) prevLon prevLat lon lat tile scanLine
          canvas).2[0]? = some a → a.tileBefore = tile) ∧
      (∀ (i : Nat) (a b : SmoothSample T K C),
        (pixelValueApproxSmooth A (n : Int) prevLon prevLat lon lat tile scanLine
          canvas).2[i]? = some a →
        (pixelValueApproxSmooth A (n : Int) prevLon prevLat lon lat tile scanLine
          canvas).2[i + 1]? = some b → b.tileBefore = a.tile) ∧
      (∀ (i : Nat) (a : SmoothSample T K C),
        (pixelValueApproxSmooth A (n : Int) prevLon prevLat lon lat tile scanLine
          canvas).2[i]? = some a →
        a.j = (i : Int) + 1 ∧ a.scanLine = scanLine + (i : Int) ∧
        a.rebased = outsideTile A
          (A.rad2PixelX prevLon
            + ((i : K) + 1) * (A.rad2PixelX lon - A.rad2PixelX prevLon) / (n : K)
            + A.toTileCoordinatesLon a.tileBefore)
          (A.rad2PixelY prevLat
            + ((i : K) + 1) * (A.rad2PixelY lat - A.rad2PixelY prevLat) / (n : K)
            + A.toTileCoordinatesLat a.tileBefore) ∧
        a.tile = (if a.rebased
          then A.nextTile a.tileBefore
            (A.rad2PixelX prevLon
              + ((i : K) + 1) * (A.rad2PixelX lon - A.rad2PixelX prevLon) / (n : K)
              + A.toTileCoordinatesLon a.tileBefore)
            (A.rad2PixelY prevLat
              + ((i : K) + 1) * (A.rad2PixelY lat - A.rad2PixelY prevLat) / (n : K)
              + A.toTileCoordinatesLat a.tileBefore)
          else a.tileBefore) ∧
        a.posX = A.rad2PixelX prevLon
          + ((i : K) + 1) * (A.rad2PixelX lon - A.rad2PixelX prevLon) / (n : K)
          + A.toTileCoordinatesLon a.tile ∧
        a.posY = A.rad2PixelY prevLat
          + ((i : K) + 1) * (A.rad2PixelY lat - A.rad2PixelY prevLat) / (n : K)
          + A.toTileCoordinatesLat a.tile ∧
        a.raw = A.pixel a.tile a.posX a.posY ∧
        ((pixelValueApproxSmooth A (n : Int) prevLon prevLat lon lat tile scanLine
            canvas).1.canvas (scanLine + (i : Int)) = a.raw ∨
          (pixelValueApproxSmooth A (n : Int) prevLon prevLat lon lat tile scanLine
            canvas).1.canvas (scanLine + (i : Int)) = A.pixelF a.tile a.posX a.posY a.raw)) ∧
      (∀ x, x < scanLine ∨ scanLine + ((n - 1 : Nat) : Int) ≤ x →
        (pixelValueApproxSmooth A (n : Int) prevLon prevLat lon lat tile scanLine
          canvas).1.canvas x = canvas x) ∧
      (∀ other : Int → C,
        (pixelValueApproxSmooth A (n : Int) prevLon prevLat lon lat tile scanLine other).2
          = (pixelValueApproxSmooth A (n : Int) prevLon prevLat lon lat tile scanLine
            canvas).2 ∧
        ∀ i : Nat, i < n - 1 →
          (pixelValueApproxSmooth A (n : Int) prevLon prevLat lon lat tile scanLine
              other).1.canvas (scanLine + (i : Int))
            = (pixelValueApproxSmooth A (n : Int) prevLon prevLat lon lat tile scanLine
              canvas).1.canvas (scanLine + (i : Int))) := by
  obtain ⟨p1, p2, p3, p4, p5⟩ :=
    pixelValueApproxSmooth_passes A n prevLon prevLat lon lat tile scanLine canvas
  have hfree : ∀ other : Int → C,
      (pixelValueApproxSmooth A (n : Int) prevLon prevLat lon lat tile scanLine other).2
        = (pixelValueApproxSmooth A (n : Int) prevLon prevLat lon lat tile scanLine
          canvas).2 := by
    intro other
    unfold pixelValueApproxSmooth
    exact smoothLoop_canvas_free A _ _ _ _ _ 1
      { tile := tile
        itLon := A.rad2PixelX prevLon + A.toTileCoordinatesLon tile
        itLat := A.rad2PixelY prevLat + A.toTileCoordinatesLat tile
        oldRgb := A.black
        oldPosX := -1
        oldPosY := 0
        scanLine := scanLine
        canvas := canvas } other
  refine ⟨p1, p2, p3, ?_, p5, ?_⟩
  · intro i a ha
    obtain ⟨r1, r2, r3, r4, r5, r6, r7⟩ := p4 i a ha
    refine ⟨r1, r2, r3, r4, r5, r6, r7, ?_⟩
    rw [pixelValueApproxSmooth_pixel A (n : Int) prevLon prevLat lon lat tile scanLine canvas
      i a ha]
    split_ifs
    · exact Or.inr rfl
    · exact Or.inl rfl
  · intro other
    refine ⟨hfree other, ?_⟩
    intro i hi
    have hlt : i < (pixelValueApproxSmooth A (n : Int) prevLon prevLat lon lat tile scanLine
        canvas).2.length := by
      rw [p1]
      exact hi
    obtain ⟨a, ha⟩ : ∃ a, (pixelValueApproxSmooth A (n : Int) prevLon prevLat lon lat tile
        scanLine canvas).2[i]? = some a := ⟨_, List.getElem?_eq_getElem hlt⟩
    have hb : (pixelValueApproxSmooth A (n : Int) prevLon prevLat lon lat tile scanLine
        other).2[i]? = some a := by
      rw [hfree other]
      exact ha
    rw [pixelValueApproxSmooth_pixel A (n : Int) prevLon prevLat lon lat tile scanLine canvas
        i a ha,
      pixelValueApproxSmooth_pixel A (n : Int) prevLon prevLat lon lat tile scanLine other
        i a hb, hfree other]

/-- Witness for C23: the run on `seamTiles` from longitude 0 to longitude 1, a step below
`M_PI`, with stride 4.  The three passes sample the global pixel columns 1, 2 and 3; the
second leaves tile 0 and is rebased on tile 1, where the column has the local position 0;
the columns 20, 21 and 22 are written and the columns around them keep what they held. -/
theorem pixelValueApproxSmooth_samples_witness :
    |(1 : ℚ) - 0| < 3 ∧
      (pixelValueApproxSmooth seamTiles ((4 : Nat) : Int) 0 0 1 0 0 20
        (fun _ => 1)).2.length = 4 - 1 ∧
      (pixelValueApproxSmooth seamTiles 4 0 0 1 0 0 20 (fun _ => 1)).2.map
          (fun a => (a.tile, a.rebased, a.posX, a.scanLine))
        = [(0, false, 1, 20), (1, true, 0, 21), (1, false, 1, 22)] ∧
      (pixelValueApproxSmooth seamTiles ((4 : Nat) : Int) 0 0 1 0 0 20
        (fun _ => 1)).1.canvas 19 = 1 ∧
      (pixelValueApproxSmooth seamTiles 4 0 0 1 0 0 20 (fun _ => 1)).1.canvas 20 = 101 ∧
      (pixelValueApproxSmooth seamTiles 4 0 0 1 0 0 20 (fun _ => 1)).1.canvas 21 = 110 ∧
      (pixelValueApproxSmooth seamTiles 4 0 0 1 0 0 20 (fun _ => 1)).1.canvas 22 = 111 ∧
      (pixelValueApproxSmooth seamTiles ((4 : Nat) : Int) 0 0 1 0 0 20
        (fun _ => 1)).1.canvas 23 = 1 :=
  ⟨by norm_num,
    (pixelValueApproxSmooth_samples seamTiles 4 0 0 1 0 0 20 (fun _ => 1)).1,
    by rw [seamTiles_run.1]; rfl,
    (pixelValueApproxSmooth_samples seamTiles 4 0 0 1 0 0 20 (fun _ => 1)).2.2.2.2.1 19
      (Or.inl (by decide)),
    seamTiles_run.2.1, seamTiles_run.2.2.1, seamTiles_run.2.2.2,
    (pixelValueApproxSmooth_samples seamTiles 4 0 0 1 0 0 20 (fun _ => 1)).2.2.2.2.1 23
      (Or.inr (by decide))⟩

end SphericalScanlineTextureMapper

namespace SphericalScanlineTextureMapper

/-- C24, amended: in the smooth branch of `pixelValueApprox`, pass `j` compares the raw
sampled colour `m_tile->pixel( posX, posY )` with `oldRgb`, which is `qRgb( 0, 0, 0 )` in
the first pass and afterwards the colour written by the last pass that blended.  When the
two differ, the pixel is blended with `pixelF` in its own pass and ends with that colour.
When they are equal, the pixel is written with its raw colour; it is blended afterwards,
with `pixelF` at its own position, exactly when the next pass of the same call blends its
pixel without a tile change in between (and the pixel's sample position `posX` is not
`-1`); otherwise it ends with its raw colour. -/
theorem pixelValueApproxSmooth_colours {T K C : Type} [LinearOrderedField K] [DecidableEq C]
    (A : TileAccess T K C) (n : Nat) (prevLon prevLat lon lat : K) (tile : T) (scanLine : Int)
    (canvas : Int → C) (i : Nat) (a : SmoothSample T K C)
    (ha : (pixelValueApproxSmooth A (n : Int) prevLon prevLat lon lat tile scanLine
      canvas).2[i]? = some a) :
    a.scanLine = scanLine + (i : Int) ∧ a.raw = A.pixel a.tile a.posX a.posY ∧
      (a.blended = true ↔ a.raw ≠ a.oldRgb) ∧
      (i = 0 → a.oldRgb = A.black ∧ a.blendedPrevious = false) ∧
      (a.blended = true →
        (pixelValueApproxSmooth A (n : Int) prevLon prevLat lon lat tile scanLine
          canvas).1.canvas (scanLine + (i : Int)) = A.pixelF a.tile a.posX a.posY a.raw) ∧
      (a.blended = false →
        (pixelValueApproxSmooth A (n : Int) prevLon prevLat lon lat tile scanLine
          canvas).2[i + 1]? = none →
        (pixelValueApproxSmooth A (n : Int) prevLon prevLat lon lat tile scanLine
          canvas).1.canvas (scanLine + (i : Int)) = a.raw) ∧
      ∀ b, (pixelValueApproxSmooth A (n : Int) prevLon prevLat lon lat tile scanLine
          canvas).2[i + 1]? = some b →
        b.oldRgb = (if a.blended then A.pixelF a.tile a.posX a.posY a.raw else a.oldRgb) ∧
        (b.blendedPrevious = true ↔
          b.blended = true ∧ b.rebased = false ∧ a.blended = false ∧ a.posX ≠ -1) ∧
        (a.blended = false →
          (pixelValueApproxSmooth A (n : Int) prevLon prevLat lon lat tile scanLine
            canvas).1.canvas (scanLine + (i : Int))
            = (if b.blendedPrevious then A.pixelF b.tile a.posX a.posY a.raw else a.raw)) := by
  unfold pixelValueApproxSmooth at ha ⊢
  obtain ⟨k1, _, _, k4⟩ := smoothLoop_colours A (A.rad2PixelX prevLon) (A.rad2PixelY prevLat)
    ((A.rad2PixelX lon - A.rad2PixelX prevLon) * (1 / (((n : Int) : K))))
    ((A.rad2PixelY lat - A.rad2PixelY prevLat) * (1 / (((n : Int) : K)))) ((n : Int) - 1).toNat 1
    { tile := tile
      itLon := A.rad2PixelX prevLon + A.toTileCoordinatesLon tile
      itLat := A.rad2PixelY prevLat + A.toTileCoordinatesLat tile
      oldRgb := A.black
      oldPosX := -1
      oldPosY := 0
      scanLine := scanLine
      canvas := canvas }
  obtain ⟨h1, h2, h3, h4, h5, h6⟩ := k4 i a ha
  refine ⟨h3, h2, h1, ?_, h4, h5, h6⟩
  intro hi
  subst hi
  obtain ⟨g1, g2, _⟩ := k1 a ha
  refine ⟨g1, ?_⟩
  cases hbp : a.blendedPrevious with
  | false => rfl
  | true => exact absurd rfl (g2.mp hbp).2.2

/-- Witness for C24: the second pass of the run on `exampleTiles`, whose raw colour 7 is
the colour written by the first pass; the third pass blends, so the pixel of the second
pass ends blended, at its own position 2. -/
theorem pixelValueApproxSmooth_colours_witness :
    (pixelValueApproxSmooth exampleTiles ((4 : Nat) : Int) 0 0 4 0 () 20
        (fun _ => 1)).2[1]?
        = some { j := 2, tileBefore := (), tile := (), rebased := false, posX := 2, posY := 0,
                 scanLine := 21, raw := 7, oldRgb := 7, blended := false,
                 blendedPrevious := false } ∧
      (pixelValueApproxSmooth exampleTiles ((4 : Nat) : Int) 0 0 4 0 () 20
        (fun _ => 1)).1.canvas (20 + ((1 : Nat) : Int))
        = (if true then exampleTiles.pixelF () 2 0 7 else 7) :=
  ⟨by rw [show ((4 : Nat) : Int) = 4 from rfl, exampleTiles_run.1]; rfl,
    ((pixelValueApproxSmooth_colours exampleTiles 4 0 0 4 0 () 20 (fun _ => 1) 1
      { j := 2, tileBefore := (), tile := (), rebased := false, posX := 2, posY := 0,
        scanLine := 21, raw := 7, oldRgb := 7, blended := false, blendedPrevious := false }
      (by rw [show ((4 : Nat) : Int) = 4 from rfl, exampleTiles_run.1]; rfl)).2.2.2.2.2.2
      { j := 3, tileBefore := (), tile := (), rebased := false, posX := 3, posY := 0,
        scanLine := 22, raw := 9, oldRgb := 7, blended := true, blendedPrevious := true }
      (by rw [show ((4 : Nat) : Int) = 4 from rfl, exampleTiles_run.1]; rfl)).2.2 rfl⟩

/-- C24 as stated fails: in the run on `exampleTiles` the second skipped pixel (column 21)
has the raw colour 7, the colour that the first pass sampled and wrote, so it is written
unblended; the third pixel has another colour, and the pass that blends it blends the
second pixel as well: column 21 ends with the blended colour 107. -/
theorem pixelValueApproxSmooth_blends_equal_pixel :
    (pixelValueApproxSmooth exampleTiles 4 0 0 4 0 () 20 (fun _ => 1)).2.map
        (fun a => (a.scanLine, a.raw, a.oldRgb, a.blended))
        = [(20, 7, 0, true), (21, 7, 7, false), (22, 9, 7, true)] ∧
      (pixelValueApproxSmooth exampleTiles 4 0 0 4 0 () 20 (fun _ => 1)).1.canvas 20 = 7 ∧
      (pixelValueApproxSmooth exampleTiles 4 0 0 4 0 () 20 (fun _ => 1)).1.canvas 21 = 107 ∧
      ¬ (∀ a ∈ (pixelValueApproxSmooth exampleTiles 4 0 0 4 0 () 20 (fun _ => 1)).2,
        a.raw = a.oldRgb →
        (pixelValueApproxSmooth exampleTiles 4 0 0 4 0 () 20 (fun _ => 1)).1.canvas a.scanLine
          = a.raw) := by
  obtain ⟨h1, h2, h3, _⟩ := exampleTiles_run
  refine ⟨by rw [h1]; rfl, h2, h3, ?_⟩
  intro hall
  have := hall (⟨2, (), (), false, 2, 0, 21, 7, 7, false, false⟩ : SmoothSample Unit ℚ Nat)
    (by rw [h1]; simp) rfl
  rw [h3] at this
  exact absurd this (by decide)

end SphericalScanlineTextureMapper

namespace VectorTileModel

variable {Box R : Type}

/-! ### The zoom level computed from the radius -/

theorem desiredZoomLevel_eq (L : Layer Box R) (radius : Int) :
    desiredZoomLevel L radius = L.zoomLevel radius (levelZeroMinDimension L) := rfl

/-- The value of `m_tileZoomLevel` after `setViewport` is the desired zoom level. -/
theorem setViewport_tileZoomLevel (L : Layer Box R) (s s1 : VectorTileModel Box) (box : Box)
    (radius : Int) (h : setViewport L s box radius = some s1) :
    s1.m_tileZoomLevel = desiredZoomLevel L radius := by
  cases hl : L.tileLevels with
  | nil =>
    rw [setViewport_nil L s box radius hl] at h
    rw [← Option.some.inj h]
    rfl
  | cons first rest => exact (setViewport_tileLoadLevel L s s1 box radius first rest hl h).2

/-- The logarithm of 1 is 0 when the logarithm of a power of two is the exponent times
the logarithm of 2. -/
theorem qLn_one {K : Type} [LinearOrderedField K] (qLn : K → K)
    (hpow : ∀ k : Nat, qLn (2 ^ k) = (k : K) * qLn 2) : qLn 1 = 0 := by
  have h := hpow 0
  rw [pow_zero, Nat.cast_zero, zero_mul] at h
  exact h

/-- A quotient below 1 is replaced by 1, whose level is 0. -/
theorem zoomLevelOfRadius_clamped {K : Type} [LinearOrderedField K] [FloorRing K]
    (qLn : K → K) (radius m : Int) (hone : qLn 1 = 0) (hm : 0 < m) (h : 4 * radius < m) :
    zoomLevelOfRadius qLn radius m = some 0 := by
  have hmK : (0 : K) < (m : K) := by exact_mod_cast hm
  have hx : 4 * (radius : K) / (m : K) < 1 := by
    rw [div_lt_one hmK]
    exact_mod_cast h
  have hg : ¬ (m = 0 ∧ 0 ≤ radius) := fun hh => by omega
  simp only [zoomLevelOfRadius, if_neg hg, if_pos hx, hone, zero_div, zero_mul, toInt,
    le_refl, if_true, Int.floor_zero]
  rfl

/-- The level for a quotient of at least 1 is the floor of the biased logarithm to base 2,
which lies between 0 and 33. -/
theorem zoomLevelOfRadius_floor {K : Type} [LinearOrderedField K] [FloorRing K]
    (qLn : K → K) (radius m : Int)
    (hmono : ∀ x y : K, 1 ≤ x → x ≤ y → qLn x ≤ qLn y)
    (hpow : ∀ k : Nat, qLn (2 ^ k) = (k : K) * qLn 2) (htwo : 0 < qLn 2)
    (hm : 0 < m) (hr : radius ≤ 2147483647) (h : m ≤ 4 * radius) :
    0 ≤ qLn (4 * (radius : K) / (m : K)) / qLn 2 ∧
      qLn (4 * (radius : K) / (m : K)) / qLn 2 ≤ 33 ∧
      zoomLevelOfRadius qLn radius m
        = some ⌊qLn (4 * (radius : K) / (m : K)) / qLn 2 * (100001 / 100000)⌋ := by
  have hmK : (0 : K) < (m : K) := by exact_mod_cast hm
  have hm1 : (1 : K) ≤ (m : K) := by exact_mod_cast (by omega : (1 : Int) ≤ m)
  have hx1 : 1 ≤ 4 * (radius : K) / (m : K) := by
    rw [one_le_div hmK]
    exact_mod_cast h
  have h4r : (0 : K) ≤ 4 * (radius : K) := by
    exact_mod_cast (by omega : (0 : Int) ≤ 4 * radius)
  have h4r2 : 4 * (radius : K) ≤ 2 ^ 33 := by
    have e : (2 : K) ^ 33 = ((8589934592 : Int) : K) := by norm_num
    rw [e]
    exact_mod_cast (by omega : 4 * radius ≤ 8589934592)
  have hx2 : 4 * (radius : K) / (m : K) ≤ 2 ^ 33 :=
    le_trans (div_le_self h4r hm1) h4r2
  have hlog0 : 0 ≤ qLn (4 * (radius : K) / (m : K)) := by
    have := hmono 1 _ le_rfl hx1
    rwa [qLn_one qLn hpow] at this
  have hlog33 : qLn (4 * (radius : K) / (m : K)) ≤ 33 * qLn 2 := by
    have := hmono _ _ hx1 hx2
    rw [hpow 33] at this
    exact_mod_cast this
  have hq0 : 0 ≤ qLn (4 * (radius : K) / (m : K)) / qLn 2 := div_nonneg hlog0 htwo.le
  have hq33 : qLn (4 * (radius : K) / (m : K)) / qLn 2 ≤ 33 := by
    rw [div_le_iff₀ htwo]
    exact hlog33
  refine ⟨hq0, hq33, ?_⟩
  have hv0 : 0 ≤ qLn (4 * (radius : K) / (m : K)) / qLn 2 * (100001 / 100000) :=
    mul_nonneg hq0 (by norm_num)
  have hv34 : qLn (4 * (radius : K) / (m : K)) / qLn 2 * (100001 / 100000) < 34 := by
    linarith
  have hf0 : 0 ≤ ⌊qLn (4 * (radius : K) / (m : K)) / qLn 2 * (100001 / 100000)⌋ :=
    Int.floor_nonneg.mpr hv0
  have hf34 : ⌊qLn (4 * (radius : K) / (m : K)) / qLn 2 * (100001 / 100000)⌋ < 34 := by
    rw [Int.floor_lt]
    exact_mod_cast hv34
  have hg : ¬ (m = 0 ∧ 0 ≤ radius) := fun hh => by omega
  have hrange : -2147483648 ≤ ⌊qLn (4 * (radius : K) / (m : K)) / qLn 2 * (100001 / 100000)⌋ ∧
      ⌊qLn (4 * (radius : K) / (m : K)) / qLn 2 * (100001 / 100000)⌋ ≤ 2147483647 := by
    constructor <;> omega
  simp only [zoomLevelOfRadius, if_neg hg, if_neg (not_lt.mpr hx1), toInt, if_pos hv0,
    if_pos hrange]

/-- At a quotient that is a power of two, up to the thirtieth, the level is the exponent. -/
theorem zoomLevelOfRadius_pow {K : Type} [LinearOrderedField K] [FloorRing K]
    (qLn : K → K) (radius m : Int) (k : Nat)
    (hpow : ∀ k : Nat, qLn (2 ^ k) = (k : K) * qLn 2) (htwo : 0 < qLn 2)
    (hm : 0 < m) (hk : k ≤ 30) (h : 4 * radius = 2 ^ k * m) :
    qLn (4 * (radius : K) / (m : K)) / qLn 2 = (k : K) ∧
      zoomLevelOfRadius qLn radius m = some (k : Int) := by
  have hmK : (0 : K) < (m : K) := by exact_mod_cast hm
  have hx : 4 * (radius : K) / (m : K) = 2 ^ k := by
    rw [div_eq_iff hmK.ne']
    exact_mod_cast h
  have hq : qLn (4 * (radius : K) / (m : K)) / qLn 2 = (k : K) := by
    rw [hx, hpow k, mul_div_assoc, div_self htwo.ne', mul_one]
  have hx1 : (1 : K) ≤ 4 * (radius : K) / (m : K) := by
    rw [hx]
    exact one_le_pow₀ (by norm_num)
  have hkK : (k : K) ≤ 30 := by exact_mod_cast hk
  have hk0 : (0 : K) ≤ (k : K) := Nat.cast_nonneg k
  have hfl : ⌊(k : K) * (100001 / 100000)⌋ = (k : Int) := by
    rw [Int.floor_eq_iff]
    push_cast
    constructor <;> linarith
  have hg : ¬ (m = 0 ∧ 0 ≤ radius) := fun hh => by omega
  have hv0 : 0 ≤ (k : K) * (100001 / 100000) := mul_nonneg hk0 (by norm_num)
  have hrange : -2147483648 ≤ (k : Int) ∧ (k : Int) ≤ 2147483647 := by
    constructor <;> omega
  refine ⟨hq, ?_⟩
  simp only [zoomLevelOfRadius, if_neg hg, if_neg (not_lt.mpr hx1), hq, toInt, if_pos hv0, hfl,
    if_pos hrange]

/-- C12. Let `m = min( tileWidth * levelZeroColumns, tileHeight * levelZeroRows )` be
positive and let the level that the dataset reports for the radius be the one that lines
79 to 88 of `setViewport` compute with the logarithm `qLn`, where `qLn` grows with its
argument from 1 on, is positive at 2 and takes a power of two to the exponent times its
value at 2.  Then `setViewport` returns (on a dataset whose grids fit `unsigned int`) and
`tileZoomLevel()` afterwards is the computed level, which is never negative.  For every
`int` radius with `4 * radius >= m` it is `floor( 1.00001 * log2( 4 * radius / m ) )`,
which is `floor( log2( 4 * radius / m ) )` or one more, and it is exactly `k` whenever
`4 * radius = 2^k * m` with `0 <= k <= 30`; for every radius with `4 * radius < m` it
is 0. -/
theorem setViewport_zoom_level {K : Type} [LinearOrderedField K] [FloorRing K]
    (qLn : K → K) (L : Layer Box R) (s : VectorTileModel Box) (box : Box) (radius : Int)
    (hmono : ∀ x y : K, 1 ≤ x → x ≤ y → qLn x ≤ qLn y)
    (hpow : ∀ k : Nat, qLn (2 ^ k) = (k : K) * qLn 2) (htwo : 0 < qLn 2)
    (hm : 0 < levelZeroMinDimension L) (hr : radius ≤ 2147483647)
    (hL : ∀ v, zoomLevelOfRadius qLn radius (levelZeroMinDimension L) = some v →
      L.zoomLevel radius (levelZeroMinDimension L) = v)
    (hgrid : gridFits L) :
    ∃ s1, setViewport L s box radius = some s1 ∧
      zoomLevelOfRadius qLn radius (levelZeroMinDimension L) = some (tileZoomLevel s1) ∧
      0 ≤ tileZoomLevel s1 ∧
      (levelZeroMinDimension L ≤ 4 * radius →
        tileZoomLevel s1
          = ⌊qLn (4 * (radius : K) / (levelZeroMinDimension L : K)) / qLn 2
              * (100001 / 100000)⌋ ∧
        ⌊qLn (4 * (radius : K) / (levelZeroMinDimension L : K)) / qLn 2⌋ ≤ tileZoomLevel s1 ∧
        tileZoomLevel s1
          ≤ ⌊qLn (4 * (radius : K) / (levelZeroMinDimension L : K)) / qLn 2⌋ + 1 ∧
        ∀ k : Nat, k ≤ 30 → 4 * radius = 2 ^ k * levelZeroMinDimension L →
          qLn (4 * (radius : K) / (levelZeroMinDimension L : K)) / qLn 2 = (k : K) ∧
          tileZoomLevel s1 = (k : Int)) ∧
      (4 * radius < levelZeroMinDimension L → tileZoomLevel s1 = 0) := by
  obtain ⟨s1, hs1⟩ := setViewport_returns L s box radius hgrid
  have hz : tileZoomLevel s1 = L.zoomLevel radius (levelZeroMinDimension L) := by
    show s1.m_tileZoomLevel = _
    rw [setViewport_tileZoomLevel L s s1 box radius hs1, desiredZoomLevel_eq]
  have hone := qLn_one qLn hpow
  refine ⟨s1, hs1, ?_⟩
  by_cases hcase : levelZeroMinDimension L ≤ 4 * radius
  · obtain ⟨hq0, hq33, hfl⟩ :=
      zoomLevelOfRadius_floor qLn radius (levelZeroMinDimension L) hmono hpow htwo hm hr hcase
    have hv : tileZoomLevel s1
        = ⌊qLn (4 * (radius : K) / (levelZeroMinDimension L : K)) / qLn 2
            * (100001 / 100000)⌋ := by
      rw [hz]
      exact hL _ hfl
    have hle : qLn (4 * (radius : K) / (levelZeroMinDimension L : K)) / qLn 2
        ≤ qLn (4 * (radius : K) / (levelZeroMinDimension L : K)) / qLn 2
          * (100001 / 100000) := by
      linarith
    have hlt : qLn (4 * (radius : K) / (levelZeroMinDimension L : K)) / qLn 2
          * (100001 / 100000)
        < qLn (4 * (radius : K) / (levelZeroMinDimension L : K)) / qLn 2 + 1 := by
      linarith
    refine ⟨by rw [hv]; exact hfl, ?_, ?_, ?_⟩
    · rw [hv]
      exact Int.floor_nonneg.mpr (le_trans hq0 hle)
    · intro _
      refine ⟨hv, ?_, ?_, ?_⟩
      · rw [hv]
        exact Int.floor_mono hle
      · rw [hv, ← Int.floor_add_one]
        exact Int.floor_mono hlt.le
      · intro k hk h4
        obtain ⟨hq, hp⟩ :=
          zoomLevelOfRadius_pow qLn radius (levelZeroMinDimension L) k hpow htwo hm hk h4
        exact ⟨hq, by rw [hz]; exact hL _ hp⟩
    · intro h
      omega
  · have h4 : 4 * radius < levelZeroMinDimension L := by omega
    have hc := zoomLevelOfRadius_clamped qLn radius (levelZeroMinDimension L) hone hm h4
    have hv : tileZoomLevel s1 = 0 := by
      rw [hz]
      exact hL _ hc
    refine ⟨by rw [hv]; exact hc, by rw [hv], fun h => absurd h hcase, fun _ => hv⟩

/-- Witness for C12 with the real numbers and their natural logarithm, on `exampleLayer`,
whose level zero is 256 pixels wide and high: for the radius 256 the quotient is
`4 = 2^2`, and the zoom level after `setViewport` is 2. -/
theorem setViewport_zoom_level_witness :
    ∃ s1, setViewport exampleLayer construct (0, 25) 256 = some s1 ∧
      zoomLevelOfRadius Real.log 256 (levelZeroMinDimension exampleLayer) = some 2 ∧
      tileZoomLevel s1 = 2 :=
  (setViewport_zoom_level Real.log exampleLayer construct (0, 25) 256
    (fun x _ hx hxy => Real.log_le_log (by linarith) hxy)
    (fun k => Real.log_pow _ _)
    (Real.log_pos (by norm_num))
    (by decide) (by decide)
    (fun v hv => by
      rw [(zoomLevelOfRadius_pow Real.log 256 (levelZeroMinDimension exampleLayer) 2
        (fun k => Real.log_pow _ _) (Real.log_pos (by norm_num)) (by decide) (by decide)
        (by decide)).2] at hv
      rw [← Option.some.inj hv]
      rfl)
    exampleLayer_gridFits).imp
    (fun s1 h => ⟨h.1, by
      have h2 := (h.2.2.2.1 (by decide)).2.2.2 2 (by decide) (by decide)
      have h3 := h.2.1
      rw [h2.2] at h3
      exact h3, ((h.2.2.2.1 (by decide)).2.2.2 2 (by decide) (by decide)).2⟩)

end VectorTileModel

end Marble
